import Mathlib

/-!
Shallow embedding of the mini-lsm-starter storage engine (Rust) in Lean 4.

Modelling conventions:
* Rust byte strings (`&[u8]`, `Bytes`, `Vec<u8>`) are `List Nat`; every byte
  produced by the code is `< 256`, and wherever the source truncates to a
  machine width (`as u16`, `put_u16` ...) the model takes `% 2 ^ w` or `% 256`
  explicitly.
* Rust panics (`assert!`, `expect`) and `anyhow` errors are modelled by
  `Except RustErr`, with `RustErr.panicked` for panics and `RustErr.dataErr`
  for recoverable errors.
* Source loops whose termination depends on runtime data are embedded as
  structurally recursive functions on an explicit fuel argument; the fuel is
  always chosen large enough that exhaustion is unreachable in the executions
  the theorems speak about (exhaustion reports a `RustErr.dataErr`).
* `crossbeam_skiplist::SkipMap` (an ordered map) is modelled as a sorted
  association list, and `std::collections::BinaryHeap` as a plain list whose
  `peek` returns the (unique, because construction indices are distinct)
  maximal element under the `HeapWrapper` ordering.
-/

/-- Errors: `panicked` models a Rust panic (assertion failure), `dataErr`
models an `anyhow::Error`. -/
inductive RustErr : Type where
  | panicked (msg : String) : RustErr
  | dataErr (msg : String) : RustErr
deriving DecidableEq

def msgKeyEmptyBlock : String := "key should not be empty"
def msgKeyEmptyStore : String := "key cannot be empty"
def msgValueEmptyStore : String := "value cannot be empty"
def msgBlockEmpty : String := "block should not be empty"
def msgBlockIdxOverflow : String := "block_idx overflow of SsTable"
def msgFuel : String := "iteration fuel exhausted"

/-- True on `.error (.panicked _)`. -/
def isPanickedE {α : Type} : Except RustErr α → Bool
  | .error (.panicked _) => true
  | _ => false

/-- True on any `.error _`. -/
def isErrB {α : Type} : Except RustErr α → Bool
  | .error _ => true
  | _ => false

/-- True on `.ok _`. -/
def isOkB {α : Type} : Except RustErr α → Bool
  | .ok _ => true
  | _ => false

/-- Lexicographic comparison of byte strings: the `Ord` instance of `[u8]`
in Rust (elementwise, shorter prefix is less). -/
def bytesCmp : List Nat → List Nat → Ordering
  | [], [] => .eq
  | [], _ :: _ => .lt
  | _ :: _, [] => .gt
  | a :: as, b :: bs =>
    match compare a b with
    | .eq => bytesCmp as bs
    | o => o

/-- Boolean strict order on byte strings. -/
def bytesLtB (a b : List Nat) : Bool := bytesCmp a b = Ordering.lt

/-- Boolean non-strict order on byte strings. -/
def bytesLeB (a b : List Nat) : Bool := bytesCmp a b ≠ Ordering.gt

/-- Propositional strict order on byte strings. -/
def bytesLtP (a b : List Nat) : Prop := bytesCmp a b = Ordering.lt

/-- Propositional non-strict order on byte strings. -/
def bytesLeP (a b : List Nat) : Prop := bytesCmp a b ≠ Ordering.gt

instance (a b : List Nat) : Decidable (bytesLtP a b) := by
  unfold bytesLtP; infer_instance

instance (a b : List Nat) : Decidable (bytesLeP a b) := by
  unfold bytesLeP; infer_instance

/-- `bytes::BufMut::put_u16` writes big-endian. -/
def u16be (n : Nat) : List Nat := [n / 256 % 256, n % 256]

/-- `bytes::BufMut::put_u32` writes big-endian. -/
def u32be (n : Nat) : List Nat :=
  [n / 16777216 % 256, n / 65536 % 256, n / 256 % 256, n % 256]

/-- `bytes::Buf::get_u16` reads two big-endian bytes from the front. -/
def readU16be : List Nat → Nat
  | b0 :: b1 :: _ => b0 % 256 * 256 + b1 % 256
  | [b0] => b0 % 256 * 256
  | [] => 0

/-- `bytes::Buf::get_u32` reads four big-endian bytes from the front. -/
def readU32be : List Nat → Nat
  | b0 :: b1 :: b2 :: b3 :: _ =>
    b0 % 256 * 16777216 + b1 % 256 * 65536 + b2 % 256 * 256 + b3 % 256
  | _ => 0

/-- In-memory little-endian bytes of one `u16`: `Block::encode` dumps the
`Vec<u16>` offsets array through its raw (native little-endian) memory. -/
def u16leBytes (n : Nat) : List Nat := [n % 256, n / 256 % 256]

/-- Parse a byte region back into `u16` values, two little-endian bytes each
(the raw-memory copy in `Block::decode`). -/
def parseU16s : List Nat → List Nat
  | b0 :: b1 :: rest => (b0 % 256 + 256 * (b1 % 256)) :: parseU16s rest
  | _ => []

/-! ## Block (src/block.rs) -/

/-- `Block { data: Vec<u8>, offsets: Vec<u16> }`. -/
structure Block : Type where
  data : List Nat
  offsets : List Nat
deriving DecidableEq

/-- `Block::encode`: data bytes, then the offsets array as raw `u16` memory,
then the element count as `put_u16`. -/
def Block.encode (b : Block) : List Nat :=
  b.data ++ b.offsets.flatMap u16leBytes ++ u16be (b.offsets.length % 65536)

/-- `Block::decode`: read the trailing count, split off the offsets region and
the data region. -/
def Block.decode (bytes : List Nat) : Block :=
  let numOfElements := readU16be (bytes.drop (bytes.length - 2))
  let rowDataEnd := bytes.length - 2 - numOfElements * 2
  { data := bytes.take rowDataEnd
    offsets := parseU16s ((bytes.take (bytes.length - 2)).drop rowDataEnd) }

/-! ## BlockBuilder (src/block/builder.rs) -/

/-- `BlockBuilder { block_size, data, offsets }`. -/
structure BlockBuilder : Type where
  block_size : Nat
  data : List Nat
  offsets : List Nat
deriving DecidableEq

/-- `BlockBuilder::new`. -/
def BlockBuilder.new (block_size : Nat) : BlockBuilder :=
  { block_size := block_size, data := [], offsets := [] }

/-- `BlockBuilder::is_empty`: `data.is_empty()`. -/
def BlockBuilder.isEmpty (b : BlockBuilder) : Bool := b.data = []

/-- `BlockBuilder::estimated_size`: 0 for an empty builder, otherwise
`offsets.len()*2 + data.len() + 2`. -/
def BlockBuilder.estimated_size (b : BlockBuilder) : Nat :=
  if b.isEmpty then 0 else b.offsets.length * 2 + b.data.length + 2

/-- `BlockBuilder::add`: asserts the key is non-empty (panic), refuses
(`false`) when `estimated_size + key_len + value_len + 3*2 > block_size`,
otherwise appends the entry (`u16` fields written with truncating casts). -/
def BlockBuilder.add (b : BlockBuilder) (key value : List Nat) :
    Except RustErr (Bool × BlockBuilder) :=
  if key = [] then .error (.panicked msgKeyEmptyBlock)
  else if b.estimated_size + key.length + value.length + 3 * 2 > b.block_size then
    .ok (false, b)
  else
    .ok (true,
      { b with
        offsets := b.offsets ++ [b.data.length % 65536]
        data := b.data ++ u16be (key.length % 65536) ++ key ++
          u16be (value.length % 65536) ++ value })

/-- `BlockBuilder::build`: asserts the block is non-empty (panic). -/
def BlockBuilder.build (b : BlockBuilder) : Except RustErr Block :=
  if b.isEmpty then .error (.panicked msgBlockEmpty)
  else .ok { data := b.data, offsets := b.offsets }

/-! ## BlockIterator (src/block/iterator.rs) -/

/-- `BlockIterator { block, key, value, idx }`; the key and value buffers own
copies of the current entry, an empty key signals the invalid state. -/
structure BlockIterator : Type where
  block : Block
  key : List Nat
  value : List Nat
  idx : Nat
deriving DecidableEq

/-- `BlockIterator::is_valid`. -/
def BlockIterator.isValid (it : BlockIterator) : Bool := it.key ≠ []

/-- `BlockIterator::seek_to`: out of range clears key and value (leaving `idx`
untouched), otherwise materialises the entry at `offsets[idx]`. -/
def BlockIterator.seekTo (it : BlockIterator) (idx : Nat) : BlockIterator :=
  if idx ≥ it.block.offsets.length then
    { it with key := [], value := [] }
  else
    let offset := it.block.offsets.getD idx 0
    let keyLen := readU16be (it.block.data.drop offset)
    let key := (it.block.data.drop (offset + 2)).take keyLen
    let valueLen := readU16be (it.block.data.drop (offset + 2 + keyLen))
    let value := (it.block.data.drop (offset + 2 + keyLen + 2)).take valueLen
    { it with key := key, value := value, idx := idx }

/-- `BlockIterator::seek_to_first`. -/
def BlockIterator.seekToFirst (it : BlockIterator) : BlockIterator := it.seekTo 0

/-- `BlockIterator::next`: increment `idx`, then `seek_to(idx)`. -/
def BlockIterator.next (it : BlockIterator) : BlockIterator :=
  let it := { it with idx := it.idx + 1 }
  it.seekTo it.idx

/-- The binary-search loop of `BlockIterator::seek_to_key`, fuelled; the fuel
strictly exceeds `right - left` in every call the source can make. -/
def BlockIterator.seekToKeyLoop :
    Nat → BlockIterator → List Nat → Nat → Nat → BlockIterator
  | 0, it, _, _, right => it.seekTo right
  | fuel + 1, it, key, left, right =>
    if left < right then
      let mid := (left + right) / 2
      let it := it.seekTo mid
      match bytesCmp it.key key with
      | .lt => BlockIterator.seekToKeyLoop fuel it key (mid + 1) right
      | .eq => it
      | .gt => BlockIterator.seekToKeyLoop fuel it key left mid
    else it.seekTo right

/-- `BlockIterator::seek_to_key`: binary search for the first key `≥ key`. -/
def BlockIterator.seekToKey (it : BlockIterator) (key : List Nat) : BlockIterator :=
  BlockIterator.seekToKeyLoop (it.block.offsets.length + 1) it key 0
    it.block.offsets.length

/-- `BlockIterator::create_and_seek_to_first`. -/
def BlockIterator.createAndSeekToFirst (block : Block) : BlockIterator :=
  BlockIterator.seekToFirst { block := block, key := [], value := [], idx := 0 }

/-- `BlockIterator::create_and_seek_to_key`. -/
def BlockIterator.createAndSeekToKey (block : Block) (key : List Nat) : BlockIterator :=
  (BlockIterator.createAndSeekToFirst block).seekToKey key

/-! ## BlockMeta, SsTable (src/table.rs) -/

/-- `BlockMeta { offset: usize, first_key: Bytes }`. -/
structure BlockMeta : Type where
  offset : Nat
  first_key : List Nat
deriving DecidableEq

/-- `BlockMeta::encode_block_meta`: for each meta, `put_u32 offset`,
`put_u16 first_key.len()`, the key bytes. -/
def encodeBlockMeta (metas : List BlockMeta) : List Nat :=
  metas.flatMap fun m => u32be (m.offset % 4294967296) ++
    u16be (m.first_key.length % 65536) ++ m.first_key

/-- `SsTable { file, block_metas, block_meta_offset }`; the `FileObject` of the
starter code keeps all bytes in memory, so the file is just its byte list. -/
structure SsTable : Type where
  file : List Nat
  block_metas : List BlockMeta
  block_meta_offset : Nat
deriving DecidableEq

/-- `SsTable::num_of_blocks`. -/
def SsTable.numOfBlocks (t : SsTable) : Nat := t.block_metas.length

/-- `SsTable::read_block`: out-of-range index is an `anyhow` error with
context; otherwise slice `[offset, end)` out of the file (`end` is the next
meta's offset, or `block_meta_offset` for the last block) and decode it. -/
def SsTable.readBlock (t : SsTable) (blockIdx : Nat) : Except RustErr Block :=
  match t.block_metas.get? blockIdx with
  | none => .error (.dataErr msgBlockIdxOverflow)
  | some m =>
    let offsetEnd := ((t.block_metas.get? (blockIdx + 1)).map BlockMeta.offset).getD
      t.block_meta_offset
    .ok (Block.decode ((t.file.drop m.offset).take (offsetEnd - m.offset)))

/-- The loop of `slice::partition_point` (binary search used by
`SsTable::find_block_idx`), fuelled. -/
def partitionPointLoop (p : BlockMeta → Bool) (metas : List BlockMeta) :
    Nat → Nat → Nat → Nat
  | 0, left, _ => left
  | fuel + 1, left, right =>
    if left < right then
      let mid := (left + right) / 2
      if p (metas.getD mid { offset := 0, first_key := [] }) then
        partitionPointLoop p metas fuel (mid + 1) right
      else
        partitionPointLoop p metas fuel left mid
    else left

/-- `slice::partition_point`. -/
def partitionPoint (p : BlockMeta → Bool) (metas : List BlockMeta) : Nat :=
  partitionPointLoop p metas (metas.length + 1) 0 metas.length

/-- `SsTable::find_block_idx`: `partition_point(first_key <= key)` minus one,
saturating at zero (`Nat` subtraction saturates like `saturating_sub`). -/
def SsTable.findBlockIdx (t : SsTable) (key : List Nat) : Nat :=
  partitionPoint (fun m => bytesLeB m.first_key key) t.block_metas - 1

/-! ## SsTableBuilder (src/table/builder.rs) -/

/-- `SsTableBuilder { meta, block_builder, blocks, block_size }`. -/
structure SsTableBuilder : Type where
  meta : List BlockMeta
  block_builder : BlockBuilder
  blocks : List Nat
  block_size : Nat
deriving DecidableEq

/-- `SsTableBuilder::new` (asserts `block_size != 0`). -/
def SsTableBuilder.new (block_size : Nat) : Except RustErr SsTableBuilder :=
  if block_size = 0 then .error (.panicked msgBlockEmpty)
  else .ok { meta := [], block_builder := BlockBuilder.new block_size,
             blocks := [], block_size := block_size }

/-- `SsTableBuilder::estimated_size`: `blocks.len()`. -/
def SsTableBuilder.estimatedSize (b : SsTableBuilder) : Nat := b.blocks.length

/-- The first step of `SsTableBuilder::add`: when the inner block builder is
empty, record a fresh `BlockMeta` for the block about to start. -/
def SsTableBuilder.pushMetaIfEmpty (b : SsTableBuilder) (key : List Nat) :
    SsTableBuilder :=
  if b.block_builder.isEmpty then
    { b with meta := b.meta ++ [{ offset := b.estimatedSize, first_key := key }] }
  else b

/-- `SsTableBuilder::add`, with the source's self-recursion unrolled through a
fuel argument (the recursion depth is at most 2: a second refusal seals an
empty block, and `BlockBuilder::build` panics first). -/
def SsTableBuilder.addFuel :
    Nat → SsTableBuilder → List Nat → List Nat → Except RustErr SsTableBuilder
  | 0, _, _, _ => .error (.dataErr msgFuel)
  | fuel + 1, b0, key, value =>
    let b := b0.pushMetaIfEmpty key
    match b.block_builder.add key value with
    | .error e => .error e
    | .ok (true, bb) => .ok { b with block_builder := bb }
    | .ok (false, _) =>
      match b.block_builder.build with
      | .error e => .error e
      | .ok blk =>
        SsTableBuilder.addFuel fuel
          { b with blocks := b.blocks ++ blk.encode,
                   block_builder := BlockBuilder.new b.block_size }
          key value

/-- `SsTableBuilder::add`. -/
def SsTableBuilder.add (b : SsTableBuilder) (key value : List Nat) :
    Except RustErr SsTableBuilder :=
  SsTableBuilder.addFuel 2 b key value

/-- `SsTableBuilder::build`: seal a trailing non-empty block, append the
encoded metas and the `u32` meta offset; `FileObject::create` keeps the bytes
in memory, so the id, cache and path play no role in the result. -/
def SsTableBuilder.build (b : SsTableBuilder) : Except RustErr SsTable :=
  match
    (if b.block_builder.isEmpty then .ok b.blocks
     else (b.block_builder.build).map fun blk => b.blocks ++ blk.encode :
      Except RustErr (List Nat)) with
  | .error e => .error e
  | .ok buf =>
    let metaOffset := buf.length
    .ok { file := buf ++ encodeBlockMeta b.meta ++ u32be (metaOffset % 4294967296)
          block_metas := b.meta
          block_meta_offset := metaOffset }

/-! ## SsTableIterator (src/table/iterator.rs) -/

/-- `SsTableIterator { table, block_iter, block_idx }`. -/
structure SsTableIterator : Type where
  table : SsTable
  block_iter : BlockIterator
  block_idx : Nat
deriving DecidableEq

/-- `SsTableIterator::create_and_seek_to_first`. -/
def SsTableIterator.createAndSeekToFirst (table : SsTable) :
    Except RustErr SsTableIterator :=
  (table.readBlock 0).map fun blk =>
    { table := table, block_iter := BlockIterator.createAndSeekToFirst blk,
      block_idx := 0 }

/-- `SsTableIterator::seek_to_key_inner`: pick the candidate block, seek in
it, and if that leaves the block cursor invalid fall through to the start of
the next block. -/
def SsTableIterator.seekToKeyInner (table : SsTable) (key : List Nat) :
    Except RustErr (Nat × BlockIterator) :=
  let blockIdx := table.findBlockIdx key
  match table.readBlock blockIdx with
  | .error e => .error e
  | .ok blk =>
    let blockIter := BlockIterator.createAndSeekToKey blk key
    if ¬ blockIter.isValid ∧ blockIdx + 1 < table.numOfBlocks then
      (table.readBlock (blockIdx + 1)).map fun blk2 =>
        (blockIdx + 1, BlockIterator.createAndSeekToFirst blk2)
    else .ok (blockIdx, blockIter)

/-- `SsTableIterator::create_and_seek_to_key`. -/
def SsTableIterator.createAndSeekToKey (table : SsTable) (key : List Nat) :
    Except RustErr SsTableIterator :=
  (SsTableIterator.seekToKeyInner table key).map fun p =>
    { table := table, block_iter := p.2, block_idx := p.1 }

/-- `SsTableIterator::is_valid`. -/
def SsTableIterator.isValid (it : SsTableIterator) : Bool := it.block_iter.isValid

/-- `SsTableIterator::key`. -/
def SsTableIterator.key (it : SsTableIterator) : List Nat := it.block_iter.key

/-- `SsTableIterator::value`. -/
def SsTableIterator.value (it : SsTableIterator) : List Nat := it.block_iter.value

/-- `SsTableIterator::next`: advance the block cursor; when it runs off the
block, move to the start of the next block if one exists. -/
def SsTableIterator.next (it : SsTableIterator) : Except RustErr SsTableIterator :=
  let bi := it.block_iter.next
  if bi.isValid then .ok { it with block_iter := bi }
  else
    let blockIdx := it.block_idx + 1
    if blockIdx < it.table.numOfBlocks then
      (it.table.readBlock blockIdx).map fun blk =>
        { it with block_idx := blockIdx,
                  block_iter := BlockIterator.createAndSeekToFirst blk }
    else .ok { it with block_idx := blockIdx, block_iter := bi }

/-! ## MemTable (src/mem_table.rs)

`crossbeam_skiplist::SkipMap<Bytes, Bytes>` is an ordered map; it is modelled
as an association list sorted strictly ascending by key, with `insert`
replacing an existing binding. -/

/-- The memtable's ordered map. -/
abbrev Memtable : Type := List (List Nat × List Nat)

/-- `SkipMap::insert`: ordered insert, replacing an equal key. -/
def mtPut : Memtable → List Nat → List Nat → Memtable
  | [], k, v => [(k, v)]
  | (k', v') :: rest, k, v =>
    match bytesCmp k k' with
    | .lt => (k, v) :: (k', v') :: rest
    | .eq => (k, v) :: rest
    | .gt => (k', v') :: mtPut rest k v

/-- `SkipMap::get` / `MemTable::get`. -/
def mtGet : Memtable → List Nat → Option (List Nat)
  | [], _ => none
  | (k', v') :: rest, k => if k = k' then some v' else mtGet rest k

/-- Range bounds, `std::ops::Bound`. -/
inductive RBound : Type where
  | included (key : List Nat) : RBound
  | excluded (key : List Nat) : RBound
  | unbounded : RBound
deriving DecidableEq

/-- Whether `key` is inside a lower bound. -/
def lowerOk (lower : RBound) (key : List Nat) : Bool :=
  match lower with
  | .included l => bytesLeB l key
  | .excluded l => bytesLtB l key
  | .unbounded => true

/-- Whether `key` is inside an upper bound. -/
def upperOk (upper : RBound) (key : List Nat) : Bool :=
  match upper with
  | .included u => bytesLeB key u
  | .excluded u => bytesLtB key u
  | .unbounded => true

/-- `MemTableIterator`: the current entry (owned copy) plus the residue of the
underlying range; an empty current key signals the invalid state. -/
structure MemTableIterator : Type where
  item : List Nat × List Nat
  rest : List (List Nat × List Nat)
deriving DecidableEq

/-- `MemTableIterator::next`: replace the current pair with the next one from
the range, or with the empty pair at the end. -/
def MemTableIterator.next (it : MemTableIterator) : MemTableIterator :=
  { item := it.rest.headD ([], []), rest := it.rest.tail }

/-- `MemTable::scan`: take the in-range portion of the map and advance once so
the first key is exposed. -/
def mtScan (m : Memtable) (lower upper : RBound) : MemTableIterator :=
  let range := m.filter fun e => lowerOk lower e.1 && upperOk upper e.1
  MemTableIterator.next { item := ([], []), rest := range }

/-- `MemTable::flush`: pop entries in ascending order and feed them to the
SST builder. -/
def mtFlush (m : Memtable) (b : SsTableBuilder) : Except RustErr SsTableBuilder :=
  m.foldlM (fun b e => b.add e.1 e.2) b

/-! ## StorageIterator (src/iterators/mod.rs, trait only)

The trait offers `key`, `value`, `is_valid` and a fallible `next`. The extra
`bound` field is the termination fuel the embedding threads through the
source's data-dependent loops; it never influences a result, only how much
fuel a loop receives. -/

class StorageIterator (ι : Type) : Type where
  key : ι → List Nat
  value : ι → List Nat
  isValid : ι → Bool
  next : ι → Except RustErr ι
  bound : ι → Nat

instance : StorageIterator MemTableIterator where
  key it := it.item.1
  value it := it.item.2
  isValid it := it.item.1 ≠ []
  next it := .ok it.next
  bound it := it.rest.length + 1

/-- Fuel bound for `SsTableIterator`: entries left in the current block plus a
per-block overestimate (a decoded block never holds ≥ 65536 entries, its count
being a `u16`). -/
def sstIterBound (it : SsTableIterator) : Nat :=
  (it.block_iter.block.offsets.length - it.block_iter.idx) +
    (it.table.numOfBlocks - 1 - it.block_idx) * 65536

instance : StorageIterator SsTableIterator where
  key := SsTableIterator.key
  value := SsTableIterator.value
  isValid := SsTableIterator.isValid
  next := SsTableIterator.next
  bound := sstIterBound

/-! ## MergeIterator (src/iterators/merge_iterator.rs) -/

/-- The `HeapWrapper` ordering: compare current keys, break ties by the
construction index, then reverse, so the heap maximum is the cursor with the
smallest key and, among those, the smallest index. -/
def wrapperCmp {ι : Type} [StorageIterator ι] (x y : Nat × ι) : Ordering :=
  (match bytesCmp (StorageIterator.key x.2) (StorageIterator.key y.2) with
   | .eq => compare x.1 y.1
   | o => o).swap

/-- Position of the maximal element of the heap's contents under
`wrapperCmp`. The construction indices in a `MergeIterator` are pairwise
distinct, so the maximum is unique and any `BinaryHeap` implementation agrees
with this one. -/
def heapMaxIdxGo {ι : Type} [StorageIterator ι]
    (bi : Nat) (b : Nat × ι) (i : Nat) : List (Nat × ι) → Nat
  | [] => bi
  | y :: ys =>
    if wrapperCmp y b = Ordering.gt then heapMaxIdxGo i y (i + 1) ys
    else heapMaxIdxGo bi b (i + 1) ys

/-- Index (within the list) of the heap maximum, if any. -/
def heapMaxIdx {ι : Type} [StorageIterator ι] : List (Nat × ι) → Option Nat
  | [] => none
  | x :: xs => some (heapMaxIdxGo 0 x 1 xs)

/-- `MergeIterator { iters: BinaryHeap<HeapWrapper<I>> }`. -/
structure MergeIterator (ι : Type) : Type where
  iters : List (Nat × ι)

instance {ι : Type} [DecidableEq ι] : DecidableEq (MergeIterator ι) := by
  intro a b
  cases a; cases b
  simp only [MergeIterator.mk.injEq]
  infer_instance

/-- `MergeIterator::create`: keep the valid inputs, pair each with its
0-based index (after the filter, as in the source), collect into the heap. -/
def MergeIterator.create {ι : Type} [StorageIterator ι] (its : List ι) :
    MergeIterator ι :=
  { iters := (its.filter fun it => StorageIterator.isValid it).enum }

/-- The heap's current maximum (the exposed child). -/
def MergeIterator.peek {ι : Type} [StorageIterator ι] (m : MergeIterator ι) :
    Option (Nat × ι) :=
  (heapMaxIdx m.iters).bind fun i => m.iters.get? i

/-- `MergeIterator::key` (the source `expect`s a non-empty heap; an empty one
yields the empty key here, and callers only ask when valid). -/
def MergeIterator.key {ι : Type} [StorageIterator ι] (m : MergeIterator ι) :
    List Nat :=
  ((m.peek).map fun w => StorageIterator.key w.2).getD []

/-- `MergeIterator::value`. -/
def MergeIterator.value {ι : Type} [StorageIterator ι] (m : MergeIterator ι) :
    List Nat :=
  ((m.peek).map fun w => StorageIterator.value w.2).getD []

/-- `MergeIterator::is_valid`: heap non-empty. -/
def MergeIterator.isValid {ι : Type} [StorageIterator ι] (m : MergeIterator ι) :
    Bool :=
  ¬ m.iters.isEmpty

/-- Fuel overestimate for the `next` loop of `MergeIterator`. -/
def heapFuel {ι : Type} [StorageIterator ι] (l : List (Nat × ι)) : Nat :=
  (l.map fun x => StorageIterator.bound x.2 + 1).sum + 1

/-- The loop of `MergeIterator::next`: advance (and drop once exhausted) every
heap child whose current key equals the head key, fuelled. -/
def mergeNextLoop {ι : Type} [StorageIterator ι] :
    Nat → List Nat → List (Nat × ι) → Except RustErr (List (Nat × ι))
  | 0, _, _ => .error (.dataErr msgFuel)
  | fuel + 1, currentKey, l =>
    match heapMaxIdx l with
    | none => .ok l
    | some i =>
      match l.get? i with
      | none => .ok l
      | some w =>
        if StorageIterator.key w.2 = currentKey then
          match StorageIterator.next w.2 with
          | .error e => .error e
          | .ok w2 =>
            if StorageIterator.isValid w2 then
              mergeNextLoop fuel currentKey (l.set i (w.1, w2))
            else
              mergeNextLoop fuel currentKey (l.eraseIdx i)
        else .ok l

/-- `MergeIterator::next`. -/
def MergeIterator.next {ι : Type} [StorageIterator ι] (m : MergeIterator ι) :
    Except RustErr (MergeIterator ι) :=
  match m.peek with
  | none => .ok m
  | some w =>
    (mergeNextLoop (heapFuel m.iters) (StorageIterator.key w.2) m.iters).map
      fun l => { iters := l }

instance {ι : Type} [StorageIterator ι] : StorageIterator (MergeIterator ι) where
  key := MergeIterator.key
  value := MergeIterator.value
  isValid := MergeIterator.isValid
  next := MergeIterator.next
  bound m := heapFuel m.iters

/-! ## TwoMergeIterator (src/iterators/two_merge_iterator.rs) -/

/-- `TwoMergeIterator { a, b, choose_a }`. -/
structure TwoMergeIterator (α β : Type) : Type where
  a : α
  b : β
  choose_a : Bool

instance {α β : Type} [DecidableEq α] [DecidableEq β] :
    DecidableEq (TwoMergeIterator α β) := by
  intro x y
  cases x; cases y
  simp only [TwoMergeIterator.mk.injEq]
  infer_instance

/-- `TwoMergeIterator::choose_a`: `!b.valid || (a.valid && a.key <= b.key)`. -/
def tmChooseA {α β : Type} [StorageIterator α] [StorageIterator β]
    (a : α) (b : β) : Bool :=
  ¬ StorageIterator.isValid b ||
    (StorageIterator.isValid a &&
      bytesLeB (StorageIterator.key a) (StorageIterator.key b))

/-- `TwoMergeIterator::create`. -/
def TwoMergeIterator.create {α β : Type} [StorageIterator α] [StorageIterator β]
    (a : α) (b : β) : TwoMergeIterator α β :=
  { a := a, b := b, choose_a := tmChooseA a b }

/-- `TwoMergeIterator::key`. -/
def TwoMergeIterator.key {α β : Type} [StorageIterator α] [StorageIterator β]
    (it : TwoMergeIterator α β) : List Nat :=
  if it.choose_a then StorageIterator.key it.a else StorageIterator.key it.b

/-- `TwoMergeIterator::value`. -/
def TwoMergeIterator.value {α β : Type} [StorageIterator α] [StorageIterator β]
    (it : TwoMergeIterator α β) : List Nat :=
  if it.choose_a then StorageIterator.value it.a else StorageIterator.value it.b

/-- `TwoMergeIterator::is_valid`. -/
def TwoMergeIterator.isValid {α β : Type} [StorageIterator α] [StorageIterator β]
    (it : TwoMergeIterator α β) : Bool :=
  if it.choose_a then StorageIterator.isValid it.a else StorageIterator.isValid it.b

/-- `TwoMergeIterator::next`: when choosing A and B sits on the same key,
advance B first; advance the chosen side; recompute `choose_a`. -/
def TwoMergeIterator.next {α β : Type} [StorageIterator α] [StorageIterator β]
    (it : TwoMergeIterator α β) : Except RustErr (TwoMergeIterator α β) :=
  if it.choose_a then
    match
      (if StorageIterator.isValid it.b ∧
          StorageIterator.key it.a = StorageIterator.key it.b then
        StorageIterator.next it.b
      else .ok it.b : Except RustErr β) with
    | .error e => .error e
    | .ok b2 =>
      match StorageIterator.next it.a with
      | .error e => .error e
      | .ok a2 => .ok { a := a2, b := b2, choose_a := tmChooseA a2 b2 }
  else
    match StorageIterator.next it.b with
    | .error e => .error e
    | .ok b2 => .ok { a := it.a, b := b2, choose_a := tmChooseA it.a b2 }

instance {α β : Type} [StorageIterator α] [StorageIterator β] :
    StorageIterator (TwoMergeIterator α β) where
  key := TwoMergeIterator.key
  value := TwoMergeIterator.value
  isValid := TwoMergeIterator.isValid
  next := TwoMergeIterator.next
  bound it := StorageIterator.bound it.a + StorageIterator.bound it.b + 1

/-! ## LsmIterator, FusedIterator (src/lsm_iterator.rs) -/

/-- `LsmIterator { iter, end_bound, is_valid }`, generic in the wrapped
cursor (the source instantiates it with the scan pipeline's merge). -/
structure LsmIterator (ι : Type) : Type where
  iter : ι
  end_bound : RBound
  is_valid : Bool

instance {ι : Type} [DecidableEq ι] : DecidableEq (LsmIterator ι) := by
  intro x y
  cases x; cases y
  simp only [LsmIterator.mk.injEq]
  infer_instance

/-- The loop of `LsmIterator::next`: advance the wrapped cursor, go invalid
when it ends, apply the end bound, and keep skipping entries whose value is
empty, fuelled. -/
def lsmNextLoop {ι : Type} [StorageIterator ι] :
    Nat → LsmIterator ι → Except RustErr (LsmIterator ι)
  | 0, _ => .error (.dataErr msgFuel)
  | fuel + 1, s =>
    if s.is_valid then
      match StorageIterator.next s.iter with
      | .error e => .error e
      | .ok it2 =>
        if ¬ StorageIterator.isValid it2 then
          .ok { s with iter := it2, is_valid := false }
        else
          let valid2 :=
            match s.end_bound with
            | .unbounded => s.is_valid
            | .included e => bytesLeB (StorageIterator.key it2) e
            | .excluded e => bytesLtB (StorageIterator.key it2) e
          let s2 : LsmIterator ι := { s with iter := it2, is_valid := valid2 }
          if StorageIterator.value it2 ≠ [] then .ok s2
          else if valid2 then lsmNextLoop fuel s2
          else .ok s2
    else .ok s

/-- `LsmIterator::next`. -/
def LsmIterator.next {ι : Type} [StorageIterator ι] (s : LsmIterator ι) :
    Except RustErr (LsmIterator ι) :=
  lsmNextLoop (StorageIterator.bound s.iter + 1) s

/-- `LsmIterator::new`: start valid iff the wrapped cursor is, and advance
once if the current value is empty. -/
def LsmIterator.new {ι : Type} [StorageIterator ι] (iter : ι)
    (endBound : RBound) : Except RustErr (LsmIterator ι) :=
  let res : LsmIterator ι :=
    { iter := iter, end_bound := endBound,
      is_valid := StorageIterator.isValid iter }
  if res.is_valid ∧ StorageIterator.value res.iter = [] then res.next
  else .ok res

/-- `LsmIterator::key`. -/
def LsmIterator.key {ι : Type} [StorageIterator ι] (s : LsmIterator ι) :
    List Nat := StorageIterator.key s.iter

/-- `LsmIterator::value`. -/
def LsmIterator.value {ι : Type} [StorageIterator ι] (s : LsmIterator ι) :
    List Nat := StorageIterator.value s.iter

instance {ι : Type} [StorageIterator ι] : StorageIterator (LsmIterator ι) where
  key := LsmIterator.key
  value := LsmIterator.value
  isValid s := s.is_valid
  next := LsmIterator.next
  bound s := StorageIterator.bound s.iter + 1

/-- `FusedIterator`: `next` is a no-op once invalid. -/
structure FusedIterator (ι : Type) : Type where
  iter : ι

instance {ι : Type} [DecidableEq ι] : DecidableEq (FusedIterator ι) := by
  intro x y
  cases x; cases y
  simp only [FusedIterator.mk.injEq]
  infer_instance

/-- `FusedIterator::next`. -/
def FusedIterator.next {ι : Type} [StorageIterator ι] (f : FusedIterator ι) :
    Except RustErr (FusedIterator ι) :=
  if StorageIterator.isValid f.iter then
    (StorageIterator.next f.iter).map fun it => { iter := it }
  else .ok f

instance {ι : Type} [StorageIterator ι] : StorageIterator (FusedIterator ι) where
  key f := StorageIterator.key f.iter
  value f := StorageIterator.value f.iter
  isValid f := StorageIterator.isValid f.iter
  next := FusedIterator.next
  bound f := StorageIterator.bound f.iter + 1

/-! ## LsmStorage (src/lsm_storage.rs) -/

/-- `LsmStorageInner`: the copy-on-write layer set. The `path`, block cache
and locks of `LsmStorage` do not influence single-threaded results (the
starter's `FileObject` keeps bytes in memory) and are omitted. -/
structure LsmStorageInner : Type where
  memtable : Memtable
  imm_memtables : List Memtable
  l0_sstables : List SsTable
  levels : List (List SsTable)
  next_sst_id : Nat
deriving DecidableEq

/-- `LsmStorageInner::create`. -/
def LsmStorageInner.create : LsmStorageInner :=
  { memtable := [], imm_memtables := [], l0_sstables := [], levels := [],
    next_sst_id := 1 }

/-- The immutable-memtable probe of `LsmStorage::get` (the source walks
`imm_memtables.iter().rev()`); the list passed here is already reversed. -/
def getImm : List Memtable → List Nat → Option (Option (List Nat))
  | [], _ => none
  | mt :: rest, key =>
    match mtGet mt key with
    | some v => some (if v = [] then none else some v)
    | none => getImm rest key

/-- The L0 probe of `LsmStorage::get` (the list is already reversed, newest
first): seek each SST to the key; a hit on the exact key decides; an invalid
seek `break`s out of the loop. -/
def getL0 : List SsTable → List Nat → Except RustErr (Option (List Nat))
  | [], _ => .ok none
  | sst :: rest, key =>
    match SsTableIterator.createAndSeekToKey sst key with
    | .error e => .error e
    | .ok iter =>
      if iter.isValid then
        if iter.key = key then
          if iter.value = [] then .ok none else .ok (some iter.value)
        else getL0 rest key
      else .ok none

/-- `LsmStorage::get`: active memtable, immutable memtables newest first,
then the L0 loop. -/
def LsmStorage.get (s : LsmStorageInner) (key : List Nat) :
    Except RustErr (Option (List Nat)) :=
  match mtGet s.memtable key with
  | some v => .ok (if v = [] then none else some v)
  | none =>
    match getImm s.imm_memtables.reverse key with
    | some r => .ok r
    | none => getL0 s.l0_sstables.reverse key

/-- `LsmStorage::put`: asserts non-empty value, then non-empty key, then
inserts into the active memtable. -/
def LsmStorage.put (s : LsmStorageInner) (key value : List Nat) :
    Except RustErr LsmStorageInner :=
  if value = [] then .error (.panicked msgValueEmptyStore)
  else if key = [] then .error (.panicked msgKeyEmptyStore)
  else .ok { s with memtable := mtPut s.memtable key value }

/-- `LsmStorage::delete`: asserts non-empty key, writes an empty value. -/
def LsmStorage.delete (s : LsmStorageInner) (key : List Nat) :
    Except RustErr LsmStorageInner :=
  if key = [] then .error (.panicked msgKeyEmptyStore)
  else .ok { s with memtable := mtPut s.memtable key [] }

/-- `LsmStorage::sync`: freeze the active memtable (pushed to and, after the
flush, popped from `imm_memtables`, so the final layer set keeps the old
immutables), flush it through an `SsTableBuilder::new(4096)`, append the SST
to L0 and bump the id. -/
def LsmStorage.sync (s : LsmStorageInner) : Except RustErr LsmStorageInner :=
  match SsTableBuilder.new 4096 with
  | .error e => .error e
  | .ok builder =>
    match mtFlush s.memtable builder with
    | .error e => .error e
    | .ok builder =>
      match builder.build with
      | .error e => .error e
      | .ok sst =>
        .ok { s with
              memtable := []
              l0_sstables := s.l0_sstables ++ [sst]
              next_sst_id := s.next_sst_id + 1 }

/-- The scan pipeline's cursor type:
`FusedIterator<LsmIterator>` over
`TwoMergeIterator<MergeIterator<MemTableIterator>, MergeIterator<SsTableIterator>>`. -/
abbrev ScanIter : Type :=
  FusedIterator (LsmIterator
    (TwoMergeIterator (MergeIterator MemTableIterator)
      (MergeIterator SsTableIterator)))

/-- Per-SST lower-bound seek of `LsmStorage::scan`: `Included` seeks to the
key, `Excluded` seeks and steps once off an exact hit, `Unbounded` seeks to
the first entry. -/
def scanSstSeek (lower : RBound) (sst : SsTable) : Except RustErr SsTableIterator :=
  match lower with
  | .included key => SsTableIterator.createAndSeekToKey sst key
  | .excluded key =>
    match SsTableIterator.createAndSeekToKey sst key with
    | .error e => .error e
    | .ok iter =>
      if iter.isValid ∧ iter.key = key then iter.next else .ok iter
  | .unbounded => SsTableIterator.createAndSeekToFirst sst

/-- `LsmStorage::scan`: memtable cursors (active first, immutables newest
first), seeked L0 cursors (newest first), merge each side, fuse prefer-
memtable, wrap with the LSM and fused iterators. -/
def LsmStorage.scan (s : LsmStorageInner) (lower upper : RBound) :
    Except RustErr ScanIter :=
  let mtIters := (s.memtable :: s.imm_memtables.reverse).map fun mt =>
    mtScan mt lower upper
  match s.l0_sstables.reverse.mapM (scanSstSeek lower) with
  | .error e => .error e
  | .ok sstIters =>
    (LsmIterator.new
      (TwoMergeIterator.create (MergeIterator.create mtIters)
        (MergeIterator.create sstIters)) upper).map
      fun it => ({ iter := it } : ScanIter)

/-- Operations of the public single-threaded interface. -/
inductive Op : Type where
  | put (key value : List Nat) : Op
  | del (key : List Nat) : Op
  | sync : Op
deriving DecidableEq

/-- Apply one operation. -/
def applyOp (s : LsmStorageInner) : Op → Except RustErr LsmStorageInner
  | .put k v => LsmStorage.put s k v
  | .del k => LsmStorage.delete s k
  | .sync => LsmStorage.sync s

/-- Apply a sequence of operations, stopping at the first panic or error. -/
def applyOps (s : LsmStorageInner) (ops : List Op) :
    Except RustErr LsmStorageInner :=
  ops.foldlM applyOp s

/-- Collect the key-value pairs a scan cursor exposes, in order, advancing
until it goes invalid (fuelled). -/
def scanCollect : Nat → ScanIter → Except RustErr (List (List Nat × List Nat))
  | 0, _ => .error (.dataErr msgFuel)
  | fuel + 1, it =>
    if StorageIterator.isValid it then
      match StorageIterator.next it with
      | .error e => .error e
      | .ok it2 =>
        (scanCollect fuel it2).map fun l =>
          (StorageIterator.key it, StorageIterator.value it) :: l
    else .ok []

/-! ## Derived definitions used to state the properties -/

/-- A list cursor exposing the entries of `xs` in order: the canonical
realisation of "a cursor enumerating a finite sequence" (it is exactly the
state of a `MemTableIterator` whose range has `xs` left to deliver). -/
def listCursor (xs : List (List Nat × List Nat)) : MemTableIterator :=
  { item := xs.headD ([], []), rest := xs.tail }

/-- Keys strictly ascending (the sortedness contract of every layer). -/
def strictAscending (xs : List (List Nat × List Nat)) : Prop :=
  xs.Pairwise fun a b => bytesLtP a.1 b.1

instance (xs : List (List Nat × List Nat)) : Decidable (strictAscending xs) := by
  unfold strictAscending
  exact List.instDecidablePairwise xs

/-- Insert a key into an ascending duplicate-free key list. -/
def insertKeySorted (k : List Nat) : List (List Nat) → List (List Nat)
  | [] => [k]
  | k' :: rest =>
    match bytesCmp k k' with
    | .lt => k :: k' :: rest
    | .eq => k' :: rest
    | .gt => k' :: insertKeySorted k rest

/-- All keys of all inputs, ascending, without duplicates. -/
def sortedKeyUnion (xss : List (List (List Nat × List Nat))) : List (List Nat) :=
  (xss.flatMap fun xs => xs.map Prod.fst).foldr insertKeySorted []

/-- The value the lowest-indexed input holds for `k`, if any. -/
def firstValueFor (xss : List (List (List Nat × List Nat))) (k : List Nat) :
    Option (List Nat) :=
  match xss with
  | [] => none
  | xs :: rest =>
    match xs.find? fun e => e.1 = k with
    | some e => some e.2
    | none => firstValueFor rest k

/-- Modelled from the spec: the sequence `MergeIterator` is claimed to expose,
"the sorted union of all the input keys in ascending order", every key paired
with the value "from the input with the lowest 0-based construction index". -/
def sortedUnionSpec (xss : List (List (List Nat × List Nat))) :
    List (List Nat × List Nat) :=
  (sortedKeyUnion xss).map fun k => (k, (firstValueFor xss k).getD [])

/-- Collect the stream of a `MergeIterator` over list cursors (fuelled). -/
def mergeCollect : Nat → MergeIterator MemTableIterator →
    Except RustErr (List (List Nat × List Nat))
  | 0, _ => .error (.dataErr msgFuel)
  | fuel + 1, m =>
    if m.isValid then
      match m.next with
      | .error e => .error e
      | .ok m2 => (mergeCollect fuel m2).map fun l => (m.key, m.value) :: l
    else .ok []

/-- Collect the stream of a `BlockIterator` (fuelled). -/
def blockIterCollect : Nat → BlockIterator → List (List Nat × List Nat)
  | 0, _ => []
  | fuel + 1, it =>
    if it.isValid then (it.key, it.value) :: blockIterCollect fuel it.next
    else []

/-- The bytes `BlockBuilder::add` appends for one entry. -/
def entryBytes (e : List Nat × List Nat) : List Nat :=
  u16be (e.1.length % 65536) ++ e.1 ++ u16be (e.2.length % 65536) ++ e.2

/-- Concatenated entry bytes of a block's data region. -/
def entriesData (es : List (List Nat × List Nat)) : List Nat :=
  es.flatMap entryBytes

/-- Entry start offsets within the data region, starting at `off`. -/
def entryOffsetsFrom (off : Nat) : List (List Nat × List Nat) → List Nat
  | [] => []
  | e :: es => off :: entryOffsetsFrom (off + (entryBytes e).length) es

/-- The block a sequence of successful `add`s produces. -/
def blockOfEntries (es : List (List Nat × List Nat)) : Block :=
  { data := entriesData es, offsets := entryOffsetsFrom 0 es }

/-- Build an SST through `SsTableBuilder` from a list of entries. -/
def sstOf (blockSize : Nat) (es : List (List Nat × List Nat)) :
    Except RustErr SsTable :=
  match SsTableBuilder.new blockSize with
  | .error e => .error e
  | .ok b =>
    match es.foldlM (fun b e => b.add e.1 e.2) b with
    | .error e => .error e
    | .ok b => b.build

/-- Index of the first entry whose key is `≥ k` (`es.length` when none). -/
def leastGeIdx (es : List (List Nat × List Nat)) (k : List Nat) : Nat :=
  es.findIdx fun e => bytesLeB k e.1

/-- The upper-bound predicate of the spec, as a proposition. -/
def upperOkP (upper : RBound) (key : List Nat) : Prop := upperOk upper key = true

instance (upper : RBound) (key : List Nat) : Decidable (upperOkP upper key) := by
  unfold upperOkP; infer_instance

/-- The key the C6/C7 counterexamples use: 65536 copies of the byte 97; its
length, cast to `u16` in the entry header, wraps to zero. -/
def bigKey : List Nat := List.replicate 65536 97

/-- Well-formedness `SsTableBuilder::new` establishes: the inner block builder
targets the builder's block size. -/
def ssbWf (b : SsTableBuilder) : Prop :=
  b.block_builder.block_size = b.block_size

/-- A sequence of `BlockBuilder::add` calls that all succeeded (returned
true); `none` when any call refused or panicked. -/
def bbAddAll (b : BlockBuilder) : List (List Nat × List Nat) → Option BlockBuilder
  | [] => some b
  | e :: es =>
    match b.add e.1 e.2 with
    | .ok (true, b') => bbAddAll b' es
    | _ => none

/-- The zero-block SST an empty-memtable sync produces. -/
def emptySst : SsTable :=
  { file := [0, 0, 0, 0], block_metas := [], block_meta_offset := 0 }

def entriesWf (es : List (List Nat × List Nat)) : Prop :=
  ∀ e ∈ es, e.1 ≠ [] ∧ e.1.length < 65536 ∧ e.2.length < 65536

def bigKeyBuilder : BlockBuilder :=
  { block_size := 1000000, data := entriesData [(bigKey, [118])], offsets := [0] }

def bigKeyBlock : Block := blockOfEntries [(bigKey, [118])]

/-- `BlockBuilder::estimated_size` of a builder holding exactly `cur`. -/
def blockEst (cur : List (List Nat × List Nat)) : Nat :=
  if cur = [] then 0 else (entriesData cur).length + 2 * cur.length + 2

/-- One step of the block-packing process `SsTableBuilder::add` performs: an
entry the current block refuses seals that block and starts a fresh one. -/
def packStep (bs : Nat) (st : List (List (List Nat × List Nat)) ×
    List (List Nat × List Nat)) (e : List Nat × List Nat) :
    List (List (List Nat × List Nat)) × List (List Nat × List Nat) :=
  if blockEst st.2 + e.1.length + e.2.length + 3 * 2 > bs then
    (st.1 ++ [st.2], [e])
  else (st.1, st.2 ++ [e])

/-- The concatenated encodings of a list of sealed blocks. -/
def encConcat (gs : List (List (List Nat × List Nat))) : List Nat :=
  gs.flatMap fun g => Block.encode (blockOfEntries g)

/-- The `BlockMeta` records for a list of blocks starting at byte `off`. -/
def metasOfFrom (off : Nat) : List (List (List Nat × List Nat)) → List BlockMeta
  | [] => []
  | g :: gs =>
    { offset := off, first_key := (g.headD ([], [])).1 } ::
      metasOfFrom (off + (Block.encode (blockOfEntries g)).length) gs

/-- The `SsTableBuilder` state corresponding to sealed blocks `st.1` and a
current open block `st.2`. -/
def ssbStateOf (bs : Nat) (st : List (List (List Nat × List Nat)) ×
    List (List Nat × List Nat)) : SsTableBuilder :=
  { meta := metasOfFrom 0 (st.1 ++ (if st.2 = [] then [] else [st.2]))
    block_builder :=
      { block_size := bs, data := entriesData st.2,
        offsets := entryOffsetsFrom 0 st.2 }
    blocks := encConcat st.1
    block_size := bs }

/-- Invariants of a packing state: groups are non-empty and respect the size
target, and the open block is empty only in the initial state. -/
def packWf (bs : Nat) (st : List (List (List Nat × List Nat)) ×
    List (List Nat × List Nat)) : Prop :=
  (st.2 = [] → st.1 = []) ∧
  (∀ g ∈ st.1, g ≠ [] ∧ (entriesData g).length + 2 * g.length ≤ bs) ∧
  (st.2 ≠ [] → (entriesData st.2).length + 2 * st.2.length ≤ bs)

/-- The SST `SsTableBuilder::build` produces from the sealed block list
`gs`. -/
def sstOfGroups (gs : List (List (List Nat × List Nat))) : SsTable :=
  { file := encConcat gs ++ encodeBlockMeta (metasOfFrom 0 gs) ++
      u32be ((encConcat gs).length % 4294967296)
    block_metas := metasOfFrom 0 gs
    block_meta_offset := (encConcat gs).length }

/-- The blocks `SsTableBuilder` packs a list of entries into. -/
def packGroups (bs : Nat) (es : List (List Nat × List Nat)) :
    List (List (List Nat × List Nat)) :=
  (es.foldl (packStep bs) ([], [])).1 ++ [(es.foldl (packStep bs) ([], [])).2]

/-- The SST built from the single oversized entry `(bigKey, "v")` with block
size 1000000. -/
def bigSst : SsTable :=
  { file := Block.encode bigKeyBlock ++
      encodeBlockMeta [{ offset := 0, first_key := bigKey }] ++
      u32be ((Block.encode bigKeyBlock).length % 4294967296)
    block_metas := [{ offset := 0, first_key := bigKey }]
    block_meta_offset := (Block.encode bigKeyBlock).length }

/-- The key the claims' successor function: the first entry whose key is
`≥ k` (in a sorted list, the least such). -/
def succEntry (es : List (List Nat × List Nat)) (k : List Nat) :
    Option (List Nat × List Nat) :=
  es.find? fun e => bytesLeB k e.1

/-! # Helper lemmas -/

/-! ## C4: MergeIterator enumerates the sorted union -/

def mtEntries (it : MemTableIterator) : List (List Nat × List Nat) :=
  it.item :: it.rest

def heapLists (l : List (Nat × MemTableIterator)) :
    List (List (List Nat × List Nat)) :=
  l.map fun w => mtEntries w.2

def advStep (k : List Nat) (w : Nat × MemTableIterator) :
    Option (Nat × MemTableIterator) :=
  if StorageIterator.key w.2 = k then
    (if StorageIterator.isValid (MemTableIterator.next w.2) = true then
      some (w.1, MemTableIterator.next w.2)
    else none)
  else some w

def advanceHeap (k : List Nat) (l : List (Nat × MemTableIterator)) :
    List (Nat × MemTableIterator) :=
  l.filterMap (advStep k)

def totalEntries (l : List (Nat × MemTableIterator)) : Nat :=
  (l.map fun w => (mtEntries w.2).length).sum

def heapWf (l : List (Nat × MemTableIterator)) : Prop :=
  (∀ w ∈ l, (∀ e ∈ mtEntries w.2, e.1 ≠ []) ∧ strictAscending (mtEntries w.2))
  ∧ (l.map Prod.fst).Pairwise (fun a b => a < b)

def heapInv (k : List Nat) (l : List (Nat × MemTableIterator)) : Prop :=
  ∀ w ∈ l, (∀ e ∈ mtEntries w.2, e.1 ≠ []) ∧ strictAscending (mtEntries w.2) ∧
    bytesLeP k w.2.item.1

theorem mem_mtPut (m : Memtable) (k v : List Nat) : (k, v) ∈ mtPut m k v := by
  induction m with
  | nil => simp [mtPut]
  | cons e rest ih =>
    obtain ⟨k', v'⟩ := e
    unfold mtPut
    cases h : bytesCmp k k' <;> simp [ih]

theorem getImm_all_none (l : List Memtable) (k : List Nat)
    (h : ∀ mt ∈ l, mtGet mt k = none) : getImm l k = none := by
  induction l with
  | nil => rfl
  | cons mt rest ih =>
    unfold getImm
    rw [h mt (List.mem_cons_self mt rest)]
    exact ih fun mt' hm => h mt' (List.mem_cons_of_mem mt hm)

theorem bb_add_oversized (b : BlockBuilder) (k v : List Nat) (hk : k ≠ [])
    (h : k.length + v.length + 6 > b.block_size) :
    b.add k v = Except.ok (false, b) := by
  unfold BlockBuilder.add
  rw [if_neg hk, if_pos]
  omega

theorem bb_add_ok_cases (b : BlockBuilder) (k v : List Nat) (r : Bool × BlockBuilder)
    (h : b.add k v = Except.ok r) :
    (r.1 = false ∧ r.2 = b) ∨
      (r.1 = true ∧ r.2.block_size = b.block_size ∧ r.2.data ≠ []) := by
  unfold BlockBuilder.add at h
  by_cases hk : k = []
  · rw [if_pos hk] at h; cases h
  · rw [if_neg hk] at h
    by_cases hsz : b.estimated_size + k.length + v.length + 3 * 2 > b.block_size
    · rw [if_pos hsz] at h
      cases h
      exact Or.inl ⟨rfl, rfl⟩
    · rw [if_neg hsz] at h
      cases h
      refine Or.inr ⟨rfl, rfl, ?_⟩
      simp [u16be]

theorem pushMeta_block_builder (b : SsTableBuilder) (k : List Nat) :
    (b.pushMetaIfEmpty k).block_builder = b.block_builder := by
  unfold SsTableBuilder.pushMetaIfEmpty
  split <;> rfl

theorem pushMeta_block_size (b : SsTableBuilder) (k : List Nat) :
    (b.pushMetaIfEmpty k).block_size = b.block_size := by
  unfold SsTableBuilder.pushMetaIfEmpty
  split <;> rfl

theorem ssb_add_cases (b : SsTableBuilder) (k v : List Nat) (hwf : ssbWf b) :
    (∃ b', b.add k v = Except.ok b' ∧ ssbWf b' ∧ b'.block_size = b.block_size) ∨
      (∃ msg, b.add k v = Except.error (RustErr.panicked msg)) := by
  unfold SsTableBuilder.add
  simp only [SsTableBuilder.addFuel]
  rcases hr : (b.pushMetaIfEmpty k).block_builder.add k v with e | ⟨fl, bb⟩
  · rcases e with msg | msg
    · right
      exact ⟨msg, rfl⟩
    · exfalso
      unfold BlockBuilder.add at hr
      split at hr
      · cases hr
      · split at hr <;> cases hr
  · rcases bb_add_ok_cases _ _ _ _ hr with ⟨hf, hbb⟩ | ⟨hf, hbs, hne⟩
    · subst hf
      by_cases hemp : (b.pushMetaIfEmpty k).block_builder.isEmpty
      · right
        refine ⟨msgBlockEmpty, ?_⟩
        simp only [BlockBuilder.build, if_pos hemp]
      · simp only [BlockBuilder.build, if_neg hemp]
        rw [pushMeta_block_builder]
        rcases hr2 : (BlockBuilder.new
            { meta := (b.pushMetaIfEmpty k).meta,
              block_builder := BlockBuilder.new (b.pushMetaIfEmpty k).block_size,
              blocks := (b.pushMetaIfEmpty k).blocks ++
                Block.encode { data := (b.pushMetaIfEmpty k).block_builder.data,
                               offsets := (b.pushMetaIfEmpty k).block_builder.offsets },
              block_size := (b.pushMetaIfEmpty k).block_size : SsTableBuilder}.block_size).add
            k v with e2 | ⟨fl2, bb2⟩
        · rcases e2 with msg2 | msg2
          · right
            exact ⟨msg2, rfl⟩
          · exfalso
            unfold BlockBuilder.add at hr2
            split at hr2
            · cases hr2
            · split at hr2 <;> cases hr2
        · rcases bb_add_ok_cases _ _ _ _ hr2 with ⟨hf2, hbb2⟩ | ⟨hf2, hbs2, hne2⟩
          · subst hf2
            right
            exact ⟨msgBlockEmpty, rfl⟩
          · subst hf2
            left
            refine ⟨_, rfl, ?_, ?_⟩
            · show bb2.block_size = _
              rw [hbs2]
              rfl
            · exact pushMeta_block_size b k
    · subst hf
      left
      exact ⟨{ b.pushMetaIfEmpty k with block_builder := bb }, rfl,
        by show bb.block_size = _; rw [hbs, pushMeta_block_builder, pushMeta_block_size, hwf],
        pushMeta_block_size b k⟩

theorem ssb_add_oversized (b : SsTableBuilder) (k v : List Nat) (hk : k ≠ [])
    (hwf : ssbWf b) (h : k.length + v.length + 6 > b.block_size) :
    ∃ msg, b.add k v = Except.error (RustErr.panicked msg) := by
  unfold SsTableBuilder.add
  simp only [SsTableBuilder.addFuel]
  have hr : (b.pushMetaIfEmpty k).block_builder.add k v =
      Except.ok (false, (b.pushMetaIfEmpty k).block_builder) := by
    apply bb_add_oversized _ _ _ hk
    rw [pushMeta_block_builder, hwf]
    exact h
  rw [hr]
  by_cases hemp : (b.pushMetaIfEmpty k).block_builder.isEmpty
  · refine ⟨msgBlockEmpty, ?_⟩
    simp only [BlockBuilder.build, if_pos hemp]
  · simp only [BlockBuilder.build, if_neg hemp]
    rw [pushMeta_block_builder]
    have hr2 : (BlockBuilder.new
        { meta := (b.pushMetaIfEmpty k).meta,
          block_builder := BlockBuilder.new (b.pushMetaIfEmpty k).block_size,
          blocks := (b.pushMetaIfEmpty k).blocks ++
            Block.encode { data := (b.pushMetaIfEmpty k).block_builder.data,
                           offsets := (b.pushMetaIfEmpty k).block_builder.offsets },
          block_size := (b.pushMetaIfEmpty k).block_size : SsTableBuilder}.block_size).add
        k v = Except.ok (false, BlockBuilder.new
        { meta := (b.pushMetaIfEmpty k).meta,
          block_builder := BlockBuilder.new (b.pushMetaIfEmpty k).block_size,
          blocks := (b.pushMetaIfEmpty k).blocks ++
            Block.encode { data := (b.pushMetaIfEmpty k).block_builder.data,
                           offsets := (b.pushMetaIfEmpty k).block_builder.offsets },
          block_size := (b.pushMetaIfEmpty k).block_size : SsTableBuilder}.block_size) := by
      apply bb_add_oversized _ _ _ hk
      show k.length + v.length + 6 > (b.pushMetaIfEmpty k).block_size
      rw [pushMeta_block_size]
      exact h
    rw [hr2]
    exact ⟨msgBlockEmpty, rfl⟩

theorem mtFlush_panics (m : Memtable) : ∀ (b : SsTableBuilder), ssbWf b →
    (∃ e ∈ m, e.1 ≠ [] ∧ e.1.length + e.2.length + 6 > b.block_size) →
    ∃ msg, mtFlush m b = Except.error (RustErr.panicked msg) := by
  induction m with
  | nil =>
    intro b _ h
    obtain ⟨e, he, _⟩ := h
    cases he
  | cons e' m' ih =>
    intro b hwf h
    unfold mtFlush
    rw [List.foldlM_cons]
    by_cases hov : e'.1 ≠ [] ∧ e'.1.length + e'.2.length + 6 > b.block_size
    · obtain ⟨msg, hm⟩ := ssb_add_oversized b e'.1 e'.2 hov.1 hwf hov.2
      refine ⟨msg, ?_⟩
      rw [hm]
      rfl
    · obtain ⟨e, he, hek, hesz⟩ := h
      have hem : e ∈ m' := by
        rcases List.mem_cons.mp he with rfl | hm
        · exact absurd ⟨hek, hesz⟩ hov
        · exact hm
      rcases ssb_add_cases b e'.1 e'.2 hwf with ⟨b', hb', hwf', hbs'⟩ | ⟨msg, hm⟩
      · rw [hb']
        obtain ⟨msg, hm⟩ := ih b' hwf' ⟨e, hem, hek, by rw [hbs']; exact hesz⟩
        exact ⟨msg, by unfold mtFlush at hm; rw [show (Except.ok b' >>= fun b'' =>
          List.foldlM (fun b e => b.add e.1 e.2) b'' m') =
          List.foldlM (fun (b : SsTableBuilder) (e : List Nat × List Nat) =>
            b.add e.1 e.2) b' m' from rfl, hm]⟩
      · refine ⟨msg, ?_⟩
        rw [hm]
        rfl

theorem sync_eq (s : LsmStorageInner) :
    LsmStorage.sync s =
      match mtFlush s.memtable
        { meta := [], block_builder := BlockBuilder.new 4096, blocks := [],
          block_size := 4096 } with
      | .error e => .error e
      | .ok builder =>
        match builder.build with
        | .error e => .error e
        | .ok sst =>
          .ok { s with memtable := [], l0_sstables := s.l0_sstables ++ [sst],
                       next_sst_id := s.next_sst_id + 1 } := rfl

theorem sync_panics_on_oversized (s : LsmStorageInner)
    (h : ∃ e ∈ s.memtable, e.1 ≠ [] ∧ e.1.length + e.2.length + 6 > 4096) :
    isPanickedE (LsmStorage.sync s) = true := by
  obtain ⟨msg, hm⟩ := mtFlush_panics s.memtable
    { meta := [], block_builder := BlockBuilder.new 4096, blocks := [],
      block_size := 4096 } rfl h
  rw [sync_eq, hm]
  rfl

/-- C10: for every entry with `key.len() + value.len() + 6 > block_size`,
`SsTableBuilder::add` panics (the inner `BlockBuilder` refuses the entry even
into an empty block, so `add` seals the current block and
`BlockBuilder::build`'s non-empty assertion fails), and since `sync()` builds
with `block_size = 4096`, a put whose key plus value exceeds 4090 bytes makes
the next `sync()` panic instead of returning an error. -/
theorem c10_oversized_entry_panics :
    (∀ (b : SsTableBuilder) (key value : List Nat), key ≠ [] → ssbWf b →
        key.length + value.length + 6 > b.block_size →
        isPanickedE (b.add key value) = true) ∧
    (∀ (s : LsmStorageInner) (key value : List Nat), key ≠ [] → value ≠ [] →
        key.length + value.length > 4090 →
        ∀ s', LsmStorage.put s key value = Except.ok s' →
          isPanickedE (LsmStorage.sync s') = true) := by
  constructor
  · intro b k v hk hwf h
    obtain ⟨msg, hm⟩ := ssb_add_oversized b k v hk hwf h
    rw [hm]
    rfl
  · intro s k v hk hv hsz s' hput
    unfold LsmStorage.put at hput
    rw [if_neg hv, if_neg hk] at hput
    cases hput
    exact sync_panics_on_oversized _ ⟨(k, v), mem_mtPut _ _ _, hk,
      by show k.length + v.length + 6 > 4096; omega⟩

/-- C10 witness: a concrete oversized entry makes `SsTableBuilder::add`
panic (block size 16, 21-byte key). -/
theorem c10_witness :
    isPanickedE
      (SsTableBuilder.add
        { meta := [], block_builder := BlockBuilder.new 16, blocks := [],
          block_size := 16 } (List.replicate 21 97) []) = true :=
  c10_oversized_entry_panics.1
    { meta := [], block_builder := BlockBuilder.new 16, blocks := [], block_size := 16 }
    (List.replicate 21 97) [] (by decide) rfl (by decide)

/-- C1 (code bug): on a fresh store, after `put("b","v"); sync(); put("a","w");
sync()`, the probe `get("b")` returns `Ok(None)` even though the older L0 SST
holds `"b" -> "v"`: seeking the newer SST (whose only key `"a"` is smaller)
leaves its iterator invalid and the L0 loop `break`s instead of probing the
older SST. The third conjunct shows the same store answers correctly before
the second sync, isolating the break as the cause. -/
theorem c1_get_break_skips_older_sst :
    (applyOps LsmStorageInner.create
      [Op.put [98] [118], Op.sync, Op.put [97] [119], Op.sync]).bind
        (fun s => LsmStorage.get s [98]) = Except.ok none ∧
    isOkB (applyOps LsmStorageInner.create
      [Op.put [98] [118], Op.sync, Op.put [97] [119], Op.sync]) = true ∧
    (applyOps LsmStorageInner.create [Op.put [98] [118], Op.sync]).bind
      (fun s => LsmStorage.get s [98]) = Except.ok (some [118]) := by
  exact ⟨rfl, rfl, rfl⟩

/-- C3 counterexample: with `block_size = 4`, the very first `add` into an
empty block (key `"a"`, empty value) is refused, contradicting the claim that
the first entry is admitted regardless of its size. -/
theorem c3_counterexample :
    (BlockBuilder.new 4).add [97] [] = Except.ok (false, BlockBuilder.new 4) := by
  rfl

/-- C3 (amended): `add` returns false exactly when
`estimated_size + key_len + value_len + 3*2 > block_size`, where
`estimated_size` is `0` for an empty block and
`data_len + offsets_len*2 + 2` otherwise; in particular an oversized first
entry into an empty block is refused (`key_len + value_len + 6 > block_size`),
not admitted. -/
theorem c3_add_refusal_iff (b : BlockBuilder) (key value : List Nat)
    (hk : key ≠ []) :
    (b.add key value = Except.ok (false, b) ↔
      b.estimated_size + key.length + value.length + 3 * 2 > b.block_size) ∧
    (b.isEmpty = false →
      (b.add key value = Except.ok (false, b) ↔
        b.data.length + key.length + value.length + 3 * 2 +
          b.offsets.length * 2 + 2 > b.block_size)) ∧
    (b.isEmpty = true →
      (b.add key value = Except.ok (false, b) ↔
        key.length + value.length + 3 * 2 > b.block_size)) := by
  have base : b.add key value = Except.ok (false, b) ↔
      b.estimated_size + key.length + value.length + 3 * 2 > b.block_size := by
    constructor
    · intro h
      by_contra hc
      unfold BlockBuilder.add at h
      rw [if_neg hk, if_neg hc] at h
      have := (Except.ok.injEq _ _).mp h
      have hfst := congrArg Prod.fst this
      simp at hfst
    · intro h
      unfold BlockBuilder.add
      rw [if_neg hk, if_pos h]
  refine ⟨base, ?_, ?_⟩
  · intro hne
    rw [base]
    unfold BlockBuilder.estimated_size
    rw [hne]
    simp only [Bool.false_eq_true, if_false]
    omega
  · intro hemp
    rw [base]
    unfold BlockBuilder.estimated_size
    rw [hemp]
    simp only [if_true]
    omega

/-- C3 witness: a non-trivially-sized refusal instance of the amended rule
(block size 5, two-byte key, empty value: `0 + 2 + 0 + 6 > 5`). -/
theorem c3_witness :
    (BlockBuilder.new 5).add [97, 98] [] = Except.ok (false, BlockBuilder.new 5) :=
  ((c3_add_refusal_iff (BlockBuilder.new 5) [97, 98] [] (by decide)).1).mpr
    (by decide)

theorem emptySst_seek_err (key : List Nat) :
    SsTableIterator.createAndSeekToKey emptySst key =
      Except.error (RustErr.dataErr msgBlockIdxOverflow) := rfl

theorem getL0_emptySst_err (rest : List SsTable) (key : List Nat) :
    getL0 (emptySst :: rest) key =
      Except.error (RustErr.dataErr msgBlockIdxOverflow) := by
  unfold getL0
  rw [emptySst_seek_err]

theorem scanSstSeek_emptySst_err (lower : RBound) :
    scanSstSeek lower emptySst =
      Except.error (RustErr.dataErr msgBlockIdxOverflow) := by
  rcases lower with k | k | _
  · exact emptySst_seek_err k
  · show (match SsTableIterator.createAndSeekToKey emptySst k with
      | Except.error e => Except.error e
      | Except.ok iter =>
        if iter.isValid = true ∧ iter.key = k then iter.next
        else Except.ok iter) = Except.error (RustErr.dataErr msgBlockIdxOverflow)
    rw [emptySst_seek_err]
  · rfl

theorem get_l0_of_misses (s : LsmStorageInner) (key : List Nat)
    (hmt : mtGet s.memtable key = none)
    (himm : ∀ m ∈ s.imm_memtables, mtGet m key = none) :
    LsmStorage.get s key = getL0 s.l0_sstables.reverse key := by
  unfold LsmStorage.get
  rw [hmt, getImm_all_none s.imm_memtables.reverse key
    (fun mt hm => himm mt (List.mem_reverse.mp hm))]

theorem scan_err_of_seek_err (s : LsmStorageInner) (lower upper : RBound)
    (sst : SsTable) (rest : List SsTable)
    (hrev : s.l0_sstables.reverse = sst :: rest)
    (hseek : ∃ msg, scanSstSeek lower sst = Except.error (RustErr.dataErr msg)) :
    isErrB (LsmStorage.scan s lower upper) = true := by
  unfold LsmStorage.scan
  rw [hrev, List.mapM_cons]
  obtain ⟨msg, hm⟩ := hseek
  rw [hm]
  rfl

/-- C9: calling `sync()` while the active memtable is empty still builds and
installs an SST with zero blocks into `l0_sstables`; in the resulting state,
every `get(k)` whose probe reaches the L0 loop (i.e. misses all memtable
layers) returns an error (seeking that SST calls `read_block(0)`, which fails
because the table has no block metas), and every `scan` returns an error
during construction. -/
theorem c9_empty_sync_installs_zero_block_sst (s : LsmStorageInner)
    (hmt : s.memtable = []) :
    isOkB (LsmStorage.sync s) = true ∧
    ∀ s', LsmStorage.sync s = Except.ok s' →
      ((s'.l0_sstables.getLast?).map SsTable.numOfBlocks = some 0 ∧
       (∀ key, (∀ mt ∈ s'.imm_memtables, mtGet mt key = none) →
          isErrB (LsmStorage.get s' key) = true) ∧
       (∀ lower upper, isErrB (LsmStorage.scan s' lower upper) = true)) := by
  have hsync : LsmStorage.sync s = Except.ok
      ⟨[], s.imm_memtables, s.l0_sstables ++ [emptySst], s.levels,
        s.next_sst_id + 1⟩ := by
    rw [sync_eq, hmt]
    rfl
  have hrev : (s.l0_sstables ++ [emptySst]).reverse =
      emptySst :: s.l0_sstables.reverse := by
    rw [List.reverse_append]
    rfl
  refine ⟨by rw [hsync]; rfl, ?_⟩
  intro s' heq
  rw [hsync] at heq
  cases heq
  refine ⟨?_, ?_, ?_⟩
  · show ((s.l0_sstables ++ [emptySst]).getLast?).map SsTable.numOfBlocks = some 0
    rw [List.getLast?_concat]
    rfl
  · intro key himm
    have hget := get_l0_of_misses
      ⟨[], s.imm_memtables, s.l0_sstables ++ [emptySst], s.levels,
        s.next_sst_id + 1⟩ key rfl himm
    rw [hget]
    show isErrB (getL0 ((s.l0_sstables ++ [emptySst]).reverse) key) = true
    rw [hrev, getL0_emptySst_err]
    rfl
  · intro lower upper
    refine scan_err_of_seek_err
      ⟨[], s.imm_memtables, s.l0_sstables ++ [emptySst], s.levels,
        s.next_sst_id + 1⟩ lower upper emptySst s.l0_sstables.reverse hrev
      ⟨msgBlockIdxOverflow, scanSstSeek_emptySst_err lower⟩

/-- C9 witness: on a fresh store, one `sync()` succeeds, installs the
zero-block SST, and afterwards a concrete `get` and `scan` both error. -/
theorem c9_witness :
    isOkB (LsmStorage.sync LsmStorageInner.create) = true ∧
    (((⟨[], [], [emptySst], [], 2⟩ : LsmStorageInner).l0_sstables.getLast?).map
      SsTable.numOfBlocks = some 0) ∧
    isErrB (LsmStorage.get ⟨[], [], [emptySst], [], 2⟩ [97]) = true ∧
    isErrB (LsmStorage.scan ⟨[], [], [emptySst], [], 2⟩ RBound.unbounded
      RBound.unbounded) = true := by
  have h := c9_empty_sync_installs_zero_block_sst LsmStorageInner.create rfl
  have h2 := h.2 ⟨[], [], [emptySst], [], 2⟩ (by rfl)
  exact ⟨h.1, h2.1, h2.2.1 [97] (fun mt hm => absurd hm (List.not_mem_nil mt)),
    h2.2.2 RBound.unbounded RBound.unbounded⟩

/-- C2 counterexample: on the store holding a single SST with `"b" -> "v"`,
`scan(Unbounded, Excluded("a"))` constructs successfully, and the entry
exposed immediately after construction, while the iterator is valid, has the
key `"b"`, which violates the upper bound `Excluded("a")` (the construction
path only advances past empty values and never checks the bound). -/
theorem c2_counterexample :
    ((applyOps LsmStorageInner.create [Op.put [98] [118], Op.sync]).bind
      (fun s => LsmStorage.scan s RBound.unbounded (RBound.excluded [97]))).map
      (fun it => (StorageIterator.isValid it, StorageIterator.key it,
        StorageIterator.value it)) = Except.ok (true, [98], [118]) ∧
    upperOk (RBound.excluded [97]) [98] = false := ⟨rfl, rfl⟩

theorem lsmNextLoop_invariant {ι : Type} [StorageIterator ι] :
    ∀ (fuel : Nat) (s s' : LsmIterator ι),
      lsmNextLoop fuel s = Except.ok s' → s'.is_valid = true →
      StorageIterator.value s'.iter ≠ [] ∧
        upperOkP s'.end_bound (StorageIterator.key s'.iter) := by
  intro fuel
  induction fuel with
  | zero =>
    intro s s' h
    cases h
  | succ f ih =>
    intro s s' h hv
    unfold lsmNextLoop at h
    by_cases hsv : s.is_valid = true
    · rw [if_pos hsv] at h
      rcases hnx : StorageIterator.next s.iter with e | it2
      · rw [hnx] at h
        cases h
      · rw [hnx] at h
        dsimp only at h
        by_cases hval2 : StorageIterator.isValid it2 = true
        · rw [if_neg (not_not_intro hval2)] at h
          rcases heb : s.end_bound with e | e | _
          all_goals rw [heb] at h
          all_goals dsimp only at h
          · by_cases hvne : StorageIterator.value it2 ≠ []
            · rw [if_pos hvne] at h
              cases h
              refine ⟨hvne, ?_⟩
              show upperOk (RBound.included e) _ = true
              exact hv
            · rw [if_neg hvne] at h
              by_cases hb : bytesLeB (StorageIterator.key it2) e = true
              · rw [if_pos hb] at h
                exact ih _ _ h hv
              · rw [if_neg hb] at h
                cases h
                exact absurd hv hb
          · by_cases hvne : StorageIterator.value it2 ≠ []
            · rw [if_pos hvne] at h
              cases h
              refine ⟨hvne, ?_⟩
              show upperOk (RBound.excluded e) _ = true
              exact hv
            · rw [if_neg hvne] at h
              by_cases hb : bytesLtB (StorageIterator.key it2) e = true
              · rw [if_pos hb] at h
                exact ih _ _ h hv
              · rw [if_neg hb] at h
                cases h
                exact absurd hv hb
          · by_cases hvne : StorageIterator.value it2 ≠ []
            · rw [if_pos hvne] at h
              cases h
              exact ⟨hvne, rfl⟩
            · rw [if_neg hvne] at h
              rw [if_pos hsv] at h
              exact ih _ _ h hv
        · rw [if_pos (by rw [Bool.not_eq_true] at hval2; rw [hval2]; exact Bool.false_ne_true)] at h
          cases h
          cases hv
    · rw [if_neg hsv] at h
      cases h
      exact absurd hv hsv

/-- C2 (amended): for every wrapped cursor, every entry `LsmIterator` exposes
while valid has a non-empty value, and every entry exposed after a call to
`next` also satisfies the upper bound; the entry exposed immediately after
construction, however, is only filtered for empty values, not against the
upper bound (the counterexample shows a construction-time violation). -/
theorem c2_lsm_iterator_exposure {ι : Type} [StorageIterator ι] :
    (∀ (iter : ι) (eb : RBound) (s' : LsmIterator ι),
        LsmIterator.new iter eb = Except.ok s' → s'.is_valid = true →
        LsmIterator.value s' ≠ []) ∧
    (∀ (s s' : LsmIterator ι),
        LsmIterator.next s = Except.ok s' → s'.is_valid = true →
        LsmIterator.value s' ≠ [] ∧
          upperOkP s'.end_bound (LsmIterator.key s')) := by
  constructor
  · intro iter eb s' hnew hv
    unfold LsmIterator.new at hnew
    dsimp only at hnew
    split at hnew
    · exact (lsmNextLoop_invariant _ _ _ hnew hv).1
    · cases hnew
      rename_i hcond
      intro hval
      exact hcond ⟨hv, hval⟩
  · intro s s' h hv
    exact lsmNextLoop_invariant _ _ _ h hv

/-- C2 witness: a memtable cursor starting on a tombstone; construction skips
it and the exposed entry has the non-empty value `"v"`. -/
theorem c2_witness :
    LsmIterator.value
      (⟨⟨([98], [118]), []⟩, RBound.unbounded, true⟩ :
        LsmIterator MemTableIterator) ≠ [] :=
  c2_lsm_iterator_exposure.1 (listCursor [([97], []), ([98], [118])])
    RBound.unbounded ⟨⟨([98], [118]), []⟩, RBound.unbounded, true⟩ rfl rfl

theorem compare_nat_self (n : Nat) : compare n n = Ordering.eq := by
  simp [Nat.compare_eq_eq]

theorem bytesCmp_refl (a : List Nat) : bytesCmp a a = Ordering.eq := by
  induction a with
  | nil => rfl
  | cons x xs ih =>
    unfold bytesCmp
    rw [compare_nat_self]
    exact ih

theorem bytesLeB_refl (a : List Nat) : bytesLeB a a = true := by
  unfold bytesLeB
  rw [bytesCmp_refl]
  rfl

/-- C8: on a fresh store, after `put("k","v1"); sync(); put("k","v2")`,
`get("k")` returns `"v2"` and an unbounded scan yields exactly one entry
`("k","v2")`; in general, when the two sides of a `TwoMergeIterator` are both
valid with equal current keys, the iterator exposes side A's entry, and a
single `next` advances both sides (B first, then A) past that key. -/
theorem c8_memtable_shadows_sst :
    ((applyOps LsmStorageInner.create
        [Op.put [107] [118, 49], Op.sync, Op.put [107] [118, 50]]).bind
      (fun s => LsmStorage.get s [107]) = Except.ok (some [118, 50]) ∧
     (applyOps LsmStorageInner.create
        [Op.put [107] [118, 49], Op.sync, Op.put [107] [118, 50]]).bind
      (fun s => (LsmStorage.scan s RBound.unbounded RBound.unbounded).bind
        (scanCollect 10)) = Except.ok [([107], [118, 50])]) ∧
    (∀ {α β : Type} [StorageIterator α] [StorageIterator β] (a : α) (b : β),
      StorageIterator.isValid a = true → StorageIterator.isValid b = true →
      StorageIterator.key a = StorageIterator.key b →
      (TwoMergeIterator.create a b).key = StorageIterator.key a ∧
      (TwoMergeIterator.create a b).value = StorageIterator.value a ∧
      (∀ a' b', StorageIterator.next a = Except.ok a' →
        StorageIterator.next b = Except.ok b' →
        (TwoMergeIterator.create a b).next =
          Except.ok (TwoMergeIterator.create a' b'))) := by
  refine ⟨⟨rfl, rfl⟩, ?_⟩
  intro α β instA instB a b hav hbv hk
  have hch : tmChooseA a b = true := by
    unfold tmChooseA
    rw [hav, hk, bytesLeB_refl]
    simp
  refine ⟨?_, ?_, ?_⟩
  · unfold TwoMergeIterator.key TwoMergeIterator.create
    dsimp only
    rw [hch]
    rfl
  · unfold TwoMergeIterator.value TwoMergeIterator.create
    dsimp only
    rw [hch]
    rfl
  · intro a' b' hna hnb
    unfold TwoMergeIterator.next TwoMergeIterator.create
    dsimp only
    rw [hch]
    rw [if_pos rfl]
    rw [if_pos ⟨hbv, hk⟩, hnb]
    dsimp only
    rw [hna]

/-- C8 witness: two concrete memtable cursors sitting on the same key `"a"`;
the fused cursor exposes A's value and one `next` advances both. -/
theorem c8_witness :
    (TwoMergeIterator.create (listCursor [([97], [49])])
      (listCursor [([97], [50]), ([99], [50])])).value = [49] ∧
    (TwoMergeIterator.create (listCursor [([97], [49])])
      (listCursor [([97], [50]), ([99], [50])])).next =
      Except.ok (TwoMergeIterator.create
        (⟨([], []), []⟩ : MemTableIterator)
        (⟨([99], [50]), []⟩ : MemTableIterator)) := by
  have h := c8_memtable_shadows_sst.2 (listCursor [([97], [49])])
    (listCursor [([97], [50]), ([99], [50])]) rfl rfl rfl
  exact ⟨h.2.1, h.2.2 ⟨([], []), []⟩ ⟨([99], [50]), []⟩ rfl rfl⟩

/-! ## Block shape and round trip -/

theorem entryBytes_length (e : List Nat × List Nat) :
    (entryBytes e).length = e.1.length + e.2.length + 4 := by
  simp [entryBytes, u16be]
  omega

theorem entriesData_append (xs : List (List Nat × List Nat))
    (e : List Nat × List Nat) :
    entriesData (xs ++ [e]) = entriesData xs ++ entryBytes e := by
  simp [entriesData]

theorem entriesData_ne_nil (es : List (List Nat × List Nat)) (h : es ≠ []) :
    entriesData es ≠ [] := by
  cases es with
  | nil => exact absurd rfl h
  | cons e rest =>
    show entryBytes e ++ entriesData rest ≠ []
    simp [entryBytes, u16be]

theorem entryOffsetsFrom_append (e : List Nat × List Nat) :
    ∀ (xs : List (List Nat × List Nat)) (off : Nat),
    entryOffsetsFrom off (xs ++ [e]) =
      entryOffsetsFrom off xs ++ [off + (entriesData xs).length] := by
  intro xs
  induction xs with
  | nil =>
    intro off
    simp [entryOffsetsFrom, entriesData]
  | cons x rest ih =>
    intro off
    show (entryOffsetsFrom off (x :: (rest ++ [e]))) = _
    unfold entryOffsetsFrom
    rw [ih]
    show _ = off :: entryOffsetsFrom (off + (entryBytes x).length) rest ++
      [off + (entriesData (x :: rest)).length]
    have : (entriesData (x :: rest)).length =
        (entryBytes x).length + (entriesData rest).length := by
      show (entryBytes x ++ entriesData rest).length = _
      simp
    rw [this]
    simp [Nat.add_assoc]

theorem entryOffsetsFrom_length (es : List (List Nat × List Nat)) :
    ∀ off, (entryOffsetsFrom off es).length = es.length := by
  induction es with
  | nil => intro off; rfl
  | cons e rest ih =>
    intro off
    show (off :: entryOffsetsFrom _ rest).length = _
    simp [ih]

theorem entriesData_length_ge (es : List (List Nat × List Nat))
    (e : List Nat × List Nat) (he : e ∈ es) :
    e.1.length + e.2.length + 4 ≤ (entriesData es).length := by
  induction es with
  | nil => cases he
  | cons x rest ih =>
    show _ ≤ (entryBytes x ++ entriesData rest).length
    rcases List.mem_cons.mp he with rfl | hm
    · rw [List.length_append, entryBytes_length]
      omega
    · have := ih hm
      rw [List.length_append]
      omega

/-- Shape of a `BlockBuilder` after a run of successful `add`s: its data is
the concatenation of the entry encodings and its offsets are the entry
starts; the estimated-size bound propagates (for `block_size ≤ 65535` no
`u16` cast ever truncates). -/
theorem bbAddAll_shape (bs : Nat) (hbs : bs ≤ 65535) :
    ∀ (es : List (List Nat × List Nat)) (es0 : List (List Nat × List Nat))
      (b0 bf : BlockBuilder),
      b0.block_size = bs →
      b0.data = entriesData es0 →
      b0.offsets = entryOffsetsFrom 0 es0 →
      (es0 = [] ∨ (entriesData es0).length + 2 * es0.length ≤ bs) →
      bbAddAll b0 es = some bf →
      bf.block_size = bs ∧ bf.data = entriesData (es0 ++ es) ∧
      bf.offsets = entryOffsetsFrom 0 (es0 ++ es) ∧
      ((es0 ++ es) = [] ∨
        (entriesData (es0 ++ es)).length + 2 * (es0 ++ es).length ≤ bs) ∧
      (∀ e ∈ es, e.1 ≠ []) := by
  intro es
  induction es with
  | nil =>
    intro es0 b0 bf hbsz hdata hoffs hbound h
    cases h
    refine ⟨hbsz, by rw [List.append_nil]; exact hdata,
      by rw [List.append_nil]; exact hoffs,
      by rw [List.append_nil]; exact hbound,
      fun e he => absurd he (List.not_mem_nil e)⟩
  | cons e rest ih =>
    intro es0 b0 bf hbsz hdata hoffs hbound h
    unfold bbAddAll at h
    rcases hr : b0.add e.1 e.2 with er | ⟨fl, b1⟩
    · rw [hr] at h
      cases h
    · rw [hr] at h
      cases fl with
      | false => cases h
      | true =>
        unfold BlockBuilder.add at hr
        by_cases hk : e.1 = []
        · rw [if_pos hk] at hr
          cases hr
        · rw [if_neg hk] at hr
          by_cases hsz : b0.estimated_size + e.1.length + e.2.length + 3 * 2 > b0.block_size
          · rw [if_pos hsz] at hr
            cases hr
          · rw [if_neg hsz] at hr
            have hb1' : b1 = { b0 with
                offsets := b0.offsets ++ [b0.data.length % 65536]
                data := b0.data ++ u16be (e.1.length % 65536) ++ e.1 ++
                  u16be (e.2.length % 65536) ++ e.2 } := by
              have := congrArg Prod.snd ((Except.ok.injEq _ _).mp hr)
              exact this.symm
            have hdlen : b0.data.length < 65536 := by
              rcases hbound with h0 | hb
              · rw [hdata, h0]
                show (entriesData []).length < 65536
                simp [entriesData]
              · rw [hdata]
                omega
            have hmod : b0.data.length % 65536 = b0.data.length :=
              Nat.mod_eq_of_lt hdlen
            have hempty_iff : b0.isEmpty = true ↔ es0 = [] := by
              constructor
              · intro hbe
                by_contra hne
                have hd := entriesData_ne_nil es0 hne
                rw [← hdata] at hd
                exact hd (by simpa [BlockBuilder.isEmpty] using hbe)
              · intro h0
                show decide (b0.data = []) = true
                rw [hdata, h0]
                rfl
            have hnewbound : (entriesData (es0 ++ [e])).length +
                2 * (es0 ++ [e]).length ≤ bs := by
              rw [entriesData_append, List.length_append, entryBytes_length,
                List.length_append]
              by_cases hes0 : es0 = []
              · have hest : b0.estimated_size = 0 := by
                  unfold BlockBuilder.estimated_size
                  rw [if_pos (hempty_iff.mpr hes0)]
                rw [hest, hbsz] at hsz
                subst hes0
                simp only [entriesData, List.flatMap_nil, List.length_nil,
                  List.length_cons]
                omega
              · have hbnd : (entriesData es0).length + 2 * es0.length ≤ bs := by
                  rcases hbound with h0 | hb
                  · exact absurd h0 hes0
                  · exact hb
                have hest : b0.estimated_size =
                    b0.offsets.length * 2 + b0.data.length + 2 := by
                  unfold BlockBuilder.estimated_size
                  rw [if_neg (fun hc => hes0 (hempty_iff.mp hc))]
                rw [hest, hoffs, hdata, entryOffsetsFrom_length, hbsz] at hsz
                simp only [List.length_cons, List.length_nil]
                omega
            have hnext : bbAddAll b1 rest = some bf := h
            obtain ⟨hc1, hc2, hc3, hc4, hc5⟩ := ih (es0 ++ [e]) b1 bf
              (by rw [hb1']; exact hbsz)
              (by rw [hb1', hdata, entriesData_append]
                  show entriesData es0 ++ u16be (e.1.length % 65536) ++ e.1 ++
                    u16be (e.2.length % 65536) ++ e.2 = _
                  simp [entryBytes, List.append_assoc])
              (by rw [hb1', hoffs, entryOffsetsFrom_append]
                  show entryOffsetsFrom 0 es0 ++ [b0.data.length % 65536] = _
                  rw [hmod, hdata]
                  simp)
              (Or.inr hnewbound) hnext
            have heq : (es0 ++ [e]) ++ rest = es0 ++ (e :: rest) := by simp
            rw [heq] at hc2 hc3 hc4
            refine ⟨hc1, hc2, hc3, hc4, ?_⟩
            intro x hx
            rcases List.mem_cons.mp hx with rfl | hm
            · exact hk
            · exact hc5 x hm

theorem readU16be_u16be (n : Nat) (hn : n < 65536) (s : List Nat) :
    readU16be (u16be n ++ s) = n := by
  show readU16be (n / 256 % 256 :: n % 256 :: s) = n
  show n / 256 % 256 % 256 * 256 + n % 256 % 256 = n
  omega

theorem flatMap_u16le_length (offs : List Nat) :
    (offs.flatMap u16leBytes).length = 2 * offs.length := by
  induction offs with
  | nil => rfl
  | cons o rest ih =>
    show (u16leBytes o ++ rest.flatMap u16leBytes).length = _
    rw [List.length_append, ih]
    show 2 + 2 * rest.length = 2 * (rest.length + 1)
    omega

theorem parseU16s_flat (offs : List Nat) (h : ∀ o ∈ offs, o < 65536) :
    parseU16s (offs.flatMap u16leBytes) = offs := by
  induction offs with
  | nil => rfl
  | cons o rest ih =>
    show parseU16s (u16leBytes o ++ rest.flatMap u16leBytes) = o :: rest
    show (o % 256 % 256 + 256 * (o / 256 % 256 % 256)) :: parseU16s (rest.flatMap u16leBytes) = _
    rw [ih fun x hx => h x (List.mem_cons_of_mem o hx)]
    have ho := h o (List.mem_cons_self o rest)
    congr 1
    omega

theorem u16be_length (n : Nat) : (u16be n).length = 2 := rfl

theorem readU16be_u16be' (n : Nat) (hn : n < 65536) :
    readU16be (u16be n) = n := by
  show n / 256 % 256 % 256 * 256 + n % 256 % 256 = n
  omega

/-- Round trip of the block byte format: `decode (encode b) = b` whenever the
entry count and every stored offset fit in a `u16` (which every block built
under a `block_size ≤ 65535` satisfies). -/
theorem block_decode_encode (b : Block) (hc : b.offsets.length < 65536)
    (ho : ∀ o ∈ b.offsets, o < 65536) :
    Block.decode (Block.encode b) = b := by
  simp only [Block.encode, Block.decode]
  have hL : (b.data ++ b.offsets.flatMap u16leBytes ++
      u16be (b.offsets.length % 65536)).length =
      b.data.length + 2 * b.offsets.length + 2 := by
    rw [List.length_append, List.length_append, flatMap_u16le_length,
      u16be_length]
  rw [hL]
  have hdrop : (b.data ++ b.offsets.flatMap u16leBytes ++
      u16be (b.offsets.length % 65536)).drop
        (b.data.length + 2 * b.offsets.length + 2 - 2) =
      u16be (b.offsets.length % 65536) := by
    have h1 : b.data.length + 2 * b.offsets.length + 2 - 2 =
        (b.data ++ b.offsets.flatMap u16leBytes).length := by
      rw [List.length_append, flatMap_u16le_length]
      omega
    rw [h1, List.drop_left]
  rw [hdrop]
  have hcnt : readU16be (u16be (b.offsets.length % 65536)) =
      b.offsets.length := by
    rw [readU16be_u16be' _ (Nat.mod_lt _ (by omega))]
    exact Nat.mod_eq_of_lt hc
  rw [hcnt]
  have hrde : b.data.length + 2 * b.offsets.length + 2 - 2 -
      b.offsets.length * 2 = b.data.length := by omega
  rw [hrde]
  have h1 : b.data.length + 2 * b.offsets.length + 2 - 2 =
      (b.data ++ b.offsets.flatMap u16leBytes).length := by
    rw [List.length_append, flatMap_u16le_length]
    omega
  rw [h1, List.take_left, List.drop_left, parseU16s_flat b.offsets ho]
  rw [List.append_assoc, List.take_left]

theorem entry_parse (e : List Nat × List Nat) (s : List Nat)
    (hk : e.1.length < 65536) (hv : e.2.length < 65536) :
    readU16be (entryBytes e ++ s) = e.1.length ∧
    ((entryBytes e ++ s).drop 2).take e.1.length = e.1 ∧
    readU16be ((entryBytes e ++ s).drop (2 + e.1.length)) = e.2.length ∧
    ((entryBytes e ++ s).drop (2 + e.1.length + 2)).take e.2.length = e.2 := by
  have hform : entryBytes e ++ s = u16be (e.1.length % 65536) ++
      (e.1 ++ (u16be (e.2.length % 65536) ++ (e.2 ++ s))) := by
    simp [entryBytes, List.append_assoc]
  have hmk : e.1.length % 65536 = e.1.length := Nat.mod_eq_of_lt hk
  have hmv : e.2.length % 65536 = e.2.length := Nat.mod_eq_of_lt hv
  refine ⟨?_, ?_, ?_, ?_⟩
  · rw [hform, readU16be_u16be _ (by omega) _]
    exact hmk
  · rw [hform]
    rw [show (2 : Nat) = (u16be (e.1.length % 65536)).length from rfl,
      List.drop_left]
    exact List.take_left e.1 _
  · rw [hform, ← List.append_assoc]
    rw [show 2 + e.1.length =
      (u16be (e.1.length % 65536) ++ e.1).length from by
        rw [List.length_append, u16be_length]]
    rw [List.drop_left, readU16be_u16be _ (by omega) _]
    exact hmv
  · rw [hform, ← List.append_assoc, ← List.append_assoc]
    rw [show 2 + e.1.length + 2 =
      ((u16be (e.1.length % 65536) ++ e.1) ++
        u16be (e.2.length % 65536)).length from by
        rw [List.length_append, List.length_append, u16be_length,
          u16be_length]]
    rw [List.drop_left]
    exact List.take_left e.2 _

theorem entryOffsets_get (e : List Nat × List Nat) :
    ∀ (es : List (List Nat × List Nat)) (i : Nat) (off : Nat),
      es.get? i = some e →
      ∃ rel, (entryOffsetsFrom off es).get? i = some (off + rel) ∧
        (entriesData es).drop rel = entryBytes e ++ entriesData (es.drop (i + 1)) ∧
        rel + (entryBytes e).length ≤ (entriesData es).length := by
  intro es
  induction es with
  | nil =>
    intro i off h
    cases h
  | cons x rest ih =>
    intro i off h
    cases i with
    | zero =>
      cases h
      refine ⟨0, by simp [entryOffsetsFrom], ?_, ?_⟩
      · show (entriesData (e :: rest)).drop 0 = _
        rw [List.drop_zero]
        rfl
      · show 0 + (entryBytes e).length ≤ (entryBytes e ++ entriesData rest).length
        rw [List.length_append]
        omega
    | succ j =>
      obtain ⟨rel, hget, hdrop, hle⟩ :=
        ih j (off + (entryBytes x).length) (by simpa using h)
      refine ⟨(entryBytes x).length + rel, ?_, ?_, ?_⟩
      · show (entryOffsetsFrom off (x :: rest)).get? (j + 1) = _
        unfold entryOffsetsFrom
        rw [List.get?_cons_succ, hget]
        exact congrArg some (by omega)
      · show (entryBytes x ++ entriesData rest).drop ((entryBytes x).length + rel) = _
        rw [← List.drop_drop, List.drop_left]
        exact hdrop
      · show _ ≤ (entryBytes x ++ entriesData rest).length
        rw [List.length_append]
        omega

theorem seekTo_spec (es : List (List Nat × List Nat)) (hwf : entriesWf es)
    (it : BlockIterator) (hb : it.block = blockOfEntries es) (i : Nat) :
    (∀ e, es.get? i = some e →
      (it.seekTo i).key = e.1 ∧ (it.seekTo i).value = e.2 ∧
      (it.seekTo i).idx = i ∧ (it.seekTo i).block = it.block) ∧
    (es.get? i = none →
      (it.seekTo i).key = [] ∧ (it.seekTo i).value = [] ∧
      (it.seekTo i).block = it.block) := by
  have hlen : it.block.offsets.length = es.length := by
    rw [hb]
    exact entryOffsetsFrom_length es 0
  constructor
  · intro e hgete
    have hi : i < es.length := List.get?_eq_some.mp hgete |>.1
    obtain ⟨rel, hoget, hodrop, hole⟩ := entryOffsets_get e es i 0 hgete
    rw [Nat.zero_add] at hoget
    have hwe := hwf e (List.get?_mem hgete)
    unfold BlockIterator.seekTo
    rw [if_neg (by omega)]
    have hgetD : it.block.offsets.getD i 0 = rel := by
      rw [hb]
      show (entryOffsetsFrom 0 es).getD i 0 = rel
      rw [List.getD_eq_getD_get?, hoget]
      rfl
    have hdata : it.block.data.drop rel =
        entryBytes e ++ entriesData (es.drop (i + 1)) := by
      rw [hb]
      exact hodrop
    obtain ⟨hp1, hp2, hp3, hp4⟩ :=
      entry_parse e (entriesData (es.drop (i + 1))) hwe.2.1 hwe.2.2
    rw [hgetD]
    have hkey : readU16be (it.block.data.drop rel) = e.1.length := by
      rw [hdata]
      exact hp1
    dsimp only
    rw [hkey]
    have hkeyv : (it.block.data.drop (rel + 2)).take e.1.length = e.1 := by
      rw [← List.drop_drop, hdata]
      exact hp2
    have hvlen : readU16be (it.block.data.drop (rel + 2 + e.1.length)) =
        e.2.length := by
      rw [show rel + 2 + e.1.length = rel + (2 + e.1.length) from by omega,
        ← List.drop_drop, hdata]
      exact hp3
    have hvval : (it.block.data.drop (rel + 2 + e.1.length + 2)).take
        e.2.length = e.2 := by
      rw [show rel + 2 + e.1.length + 2 = rel + (2 + e.1.length + 2) from by
        omega, ← List.drop_drop, hdata]
      exact hp4
    rw [hkeyv, hvlen, hvval]
    exact ⟨rfl, rfl, rfl, rfl⟩
  · intro hnone
    have hi : ¬ i < es.length := by
      intro hc
      rw [List.get?_eq_get hc] at hnone
      cases hnone
    unfold BlockIterator.seekTo
    rw [if_pos (by omega)]
    exact ⟨rfl, rfl, rfl⟩

theorem entryOffsetsFrom_mem_le (es : List (List Nat × List Nat)) :
    ∀ (off o : Nat), o ∈ entryOffsetsFrom off es →
      off ≤ o ∧ o ≤ off + (entriesData es).length := by
  induction es with
  | nil =>
    intro off o h
    cases h
  | cons e rest ih =>
    intro off o h
    rcases List.mem_cons.mp h with rfl | hm
    · constructor
      · exact Nat.le_refl o
      · exact Nat.le_add_right o _
    · obtain ⟨h1, h2⟩ := ih (off + (entryBytes e).length) o hm
      refine ⟨by omega, ?_⟩
      have : (entriesData (e :: rest)).length =
          (entryBytes e).length + (entriesData rest).length := by
        show (entryBytes e ++ entriesData rest).length = _
        rw [List.length_append]
      omega

theorem blockIterCollect_from (es : List (List Nat × List Nat))
    (hwf : entriesWf es) :
    ∀ (fuel i : Nat) (it : BlockIterator), it.block = blockOfEntries es →
      es.length ≤ i + fuel →
      blockIterCollect fuel (it.seekTo i) = es.drop i := by
  intro fuel
  induction fuel with
  | zero =>
    intro i it hb hle
    rw [List.drop_eq_nil_of_le (by omega)]
    rfl
  | succ f ih =>
    intro i it hb hle
    unfold blockIterCollect
    rcases hget : es.get? i with _ | e
    · have hkey := ((seekTo_spec es hwf it hb i).2 hget).1
      rw [if_neg (by
        show ¬ (it.seekTo i).isValid = true
        unfold BlockIterator.isValid
        rw [hkey]
        simp)]
      have hi : es.length ≤ i := by
        by_contra hc
        rw [List.get?_eq_get (by omega)] at hget
        cases hget
      rw [List.drop_eq_nil_of_le hi]
    · obtain ⟨hkey, hval, hidx, hblk⟩ := (seekTo_spec es hwf it hb i).1 e hget
      have hkne := (hwf e (List.get?_mem hget)).1
      rw [if_pos (by
        show (it.seekTo i).isValid = true
        unfold BlockIterator.isValid
        rw [hkey]
        simpa using hkne)]
      have hnext : (it.seekTo i).next =
          ({ it.seekTo i with idx := i + 1 }).seekTo (i + 1) := by
        unfold BlockIterator.next
        rw [hidx]
      rw [hnext]
      rw [ih (i + 1) ({ it.seekTo i with idx := i + 1 })
        (by show (it.seekTo i).block = _; rw [hblk, hb]) (by omega)]
      rw [hkey, hval]
      have hi : i < es.length := (List.get?_eq_some.mp hget).1
      rw [List.drop_eq_getElem_cons hi]
      congr 1
      have := List.get?_eq_get hi
      rw [this] at hget
      have : es.get ⟨i, hi⟩ = e := by
        injection hget
      rw [← this]
      rfl

theorem bbAddAll_blockOf (bs : Nat) (hbs : bs ≤ 65535)
    (es : List (List Nat × List Nat)) (bf : BlockBuilder)
    (h : bbAddAll (BlockBuilder.new bs) es = some bf) :
    bf.block_size = bs ∧ bf.data = entriesData es ∧
    bf.offsets = entryOffsetsFrom 0 es ∧
    (es = [] ∨ (entriesData es).length + 2 * es.length ≤ bs) ∧
    (∀ e ∈ es, e.1 ≠ []) := by
  have := bbAddAll_shape bs hbs es [] (BlockBuilder.new bs) bf rfl rfl rfl
    (Or.inl rfl) h
  simpa using this

/-- C7 (amended): for every block built by `BlockBuilder::build` from a
sequence of successful `add` calls with `block_size ≤ 65535`,
`decode(encode(b))` equals `b`, and iterating the decoded block enumerates
exactly the added key-value pairs in insertion order. (Without the size cap
the `u16` casts in the entry headers truncate: see the counterexample, where
a 65536-byte key is stored with `key_len = 0` and the iteration no longer
reproduces the added pair.) -/
theorem c7_roundtrip_and_enumeration (bs : Nat)
    (es : List (List Nat × List Nat)) (bf : BlockBuilder) (blk : Block)
    (hbs : bs ≤ 65535)
    (hadds : bbAddAll (BlockBuilder.new bs) es = some bf)
    (hbuild : bf.build = Except.ok blk) :
    Block.decode (Block.encode blk) = blk ∧
    blockIterCollect (es.length + 1)
      (BlockIterator.createAndSeekToFirst (Block.decode (Block.encode blk))) =
      es := by
  obtain ⟨hbsz, hdata, hoffs, hbound, hkeys⟩ := bbAddAll_blockOf bs hbs es bf hadds
  unfold BlockBuilder.build at hbuild
  by_cases hemp : bf.isEmpty
  · rw [if_pos hemp] at hbuild
    cases hbuild
  · rw [if_neg hemp] at hbuild
    have hblk : blk = blockOfEntries es := by
      have := (Except.ok.injEq _ _).mp hbuild
      rw [← this, hdata, hoffs]
      rfl
    have hne : es ≠ [] := by
      intro h0
      apply hemp
      show decide (bf.data = []) = true
      rw [hdata, h0]
      rfl
    have hbnd : (entriesData es).length + 2 * es.length ≤ bs := by
      rcases hbound with h0 | hb
      · exact absurd h0 hne
      · exact hb
    have heslen : 1 ≤ es.length := by
      cases es with
      | nil => exact absurd rfl hne
      | cons x r => simp
    have hwf : entriesWf es := by
      intro e he
      have hge := entriesData_length_ge es e he
      exact ⟨hkeys e he, by omega, by omega⟩
    have hc : blk.offsets.length < 65536 := by
      rw [hblk]
      show (entryOffsetsFrom 0 es).length < 65536
      rw [entryOffsetsFrom_length]
      omega
    have ho : ∀ o ∈ blk.offsets, o < 65536 := by
      intro o hmem
      rw [hblk] at hmem
      have := entryOffsetsFrom_mem_le es 0 o hmem
      omega
    have hrt := block_decode_encode blk hc ho
    refine ⟨hrt, ?_⟩
    rw [hrt]
    show blockIterCollect (es.length + 1)
      (BlockIterator.seekTo { block := blk, key := [], value := [], idx := 0 } 0) = es
    rw [blockIterCollect_from es hwf (es.length + 1) 0
      { block := blk, key := [], value := [], idx := 0 } hblk (by omega)]
    rfl

theorem bigKey_length : bigKey.length = 65536 := by
  unfold bigKey
  exact List.length_replicate 65536 97

theorem bigKey_ne_nil : bigKey ≠ [] := by
  intro h
  have hlen := congrArg List.length h
  rw [bigKey_length] at hlen
  cases hlen

theorem bigKeyBlock_data :
    bigKeyBlock.data = u16be 0 ++ (bigKey ++ (u16be 1 ++ [118])) := by
  show entriesData [(bigKey, [118])] = _
  simp [entriesData, entryBytes, bigKey_length, List.append_assoc]

theorem bigKey_add_ok :
    (BlockBuilder.new 1000000).add bigKey [118] =
      Except.ok (true, bigKeyBuilder) := by
  unfold BlockBuilder.add
  rw [if_neg bigKey_ne_nil]
  rw [if_neg (by
    show ¬ (BlockBuilder.new 1000000).estimated_size + bigKey.length +
      ([118] : List Nat).length + 3 * 2 > (BlockBuilder.new 1000000).block_size
    rw [bigKey_length]
    show ¬ (0 + 65536 + 1 + 3 * 2 > 1000000)
    omega)]
  show Except.ok (true, _) = Except.ok (true, bigKeyBuilder)
  refine congrArg Except.ok (congrArg (Prod.mk true) ?_)
  have hdata : ([] : List Nat) ++ u16be (bigKey.length % 65536) ++ bigKey ++
      u16be (([118] : List Nat).length % 65536) ++ [118] =
      entriesData [(bigKey, [118])] := by
    simp [entriesData, entryBytes, List.append_assoc]
  show ({ block_size := 1000000,
          data := ([] : List Nat) ++ u16be (bigKey.length % 65536) ++ bigKey ++
            u16be (([118] : List Nat).length % 65536) ++ [118],
          offsets := ([] : List Nat) ++ [(([] : List Nat)).length % 65536] } :
      BlockBuilder) = bigKeyBuilder
  rw [hdata]
  rfl

theorem bbAddAll_cons (b : BlockBuilder) (k v : List Nat)
    (rest : List (List Nat × List Nat)) :
    bbAddAll b ((k, v) :: rest) =
      match b.add k v with
      | .ok (true, b') => bbAddAll b' rest
      | _ => none := rfl

theorem bigKey_addAll :
    bbAddAll (BlockBuilder.new 1000000) [(bigKey, [118])] =
      some bigKeyBuilder := by
  rw [bbAddAll_cons, bigKey_add_ok]
  rfl

theorem bigKey_build :
    bigKeyBuilder.build = Except.ok bigKeyBlock := by
  unfold BlockBuilder.build
  rw [if_neg (by
    show ¬ bigKeyBuilder.isEmpty = true
    unfold BlockBuilder.isEmpty bigKeyBuilder
    simp only [decide_eq_true_eq]
    exact entriesData_ne_nil _ (by simp))]
  rfl

theorem bigKeyBlock_offsets : bigKeyBlock.offsets = [0] := rfl

theorem bigKeyBlock_roundtrip :
    Block.decode (Block.encode bigKeyBlock) = bigKeyBlock := by
  apply block_decode_encode
  · rw [bigKeyBlock_offsets]
    decide
  · intro o h
    rw [bigKeyBlock_offsets] at h
    rcases List.mem_singleton.mp h with rfl
    decide

theorem bigKey_seek_invalid :
    (BlockIterator.createAndSeekToFirst bigKeyBlock).isValid = false := by
  show (BlockIterator.seekTo
    { block := bigKeyBlock, key := [], value := [], idx := 0 } 0).isValid = false
  unfold BlockIterator.seekTo
  rw [if_neg (by rw [bigKeyBlock_offsets]; decide)]
  have hklen : readU16be (bigKeyBlock.data.drop
      ((({ block := bigKeyBlock, key := [], value := [], idx := 0 } :
        BlockIterator)).block.offsets.getD 0 0)) = 0 := by
    show readU16be (bigKeyBlock.data.drop (bigKeyBlock.offsets.getD 0 0)) = 0
    rw [bigKeyBlock_offsets]
    show readU16be (bigKeyBlock.data.drop 0) = 0
    rw [List.drop_zero, bigKeyBlock_data]
    exact readU16be_u16be 0 (by omega) _
  dsimp only
  rw [hklen]
  show decide (¬ (bigKeyBlock.data.drop (bigKeyBlock.offsets.getD 0 0 + 2)).take 0 = []) = false
  rw [List.take_zero]
  simp

/-- C7 counterexample: a single successful `add` of a 65536-byte key (block
size 1000000) builds a block whose `key_len` header wraps to zero (`as u16`),
so iterating the decoded block does not enumerate the added pair: the cursor
is immediately invalid and yields nothing. -/
theorem c7_counterexample :
    bbAddAll (BlockBuilder.new 1000000) [(bigKey, [118])] = some bigKeyBuilder ∧
    bigKeyBuilder.build = Except.ok bigKeyBlock ∧
    blockIterCollect 2 (BlockIterator.createAndSeekToFirst
      (Block.decode (Block.encode bigKeyBlock))) = [] ∧
    [(bigKey, [118])] ≠ ([] : List (List Nat × List Nat)) := by
  refine ⟨bigKey_addAll, bigKey_build, ?_, by simp⟩
  rw [bigKeyBlock_roundtrip]
  unfold blockIterCollect
  rw [if_neg (by rw [bigKey_seek_invalid]; exact Bool.false_ne_true)]

/-- C7 witness: a two-entry block (keys `"11"`, `"22"`) round-trips and its
decoded iterator enumerates exactly the two added pairs in order. -/
theorem c7_witness :
    Block.decode (Block.encode
      (blockOfEntries [([49, 49], [49, 49]), ([50, 50], [50, 50])])) =
      blockOfEntries [([49, 49], [49, 49]), ([50, 50], [50, 50])] ∧
    blockIterCollect 3 (BlockIterator.createAndSeekToFirst
      (Block.decode (Block.encode
        (blockOfEntries [([49, 49], [49, 49]), ([50, 50], [50, 50])])))) =
      [([49, 49], [49, 49]), ([50, 50], [50, 50])] :=
  c7_roundtrip_and_enumeration 4096
    [([49, 49], [49, 49]), ([50, 50], [50, 50])]
    { block_size := 4096,
      data := entriesData [([49, 49], [49, 49]), ([50, 50], [50, 50])],
      offsets := entryOffsetsFrom 0 [([49, 49], [49, 49]), ([50, 50], [50, 50])] }
    (blockOfEntries [([49, 49], [49, 49]), ([50, 50], [50, 50])])
    (by omega) (by rfl) (by rfl)

/-! ## Byte-order theory -/

theorem bytesCmp_cons_lt (x y : Nat) (xs ys : List Nat) :
    bytesCmp (x :: xs) (y :: ys) = Ordering.lt ↔
      x < y ∨ (x = y ∧ bytesCmp xs ys = Ordering.lt) := by
  show (match compare x y with | .eq => bytesCmp xs ys | o => o) =
    Ordering.lt ↔ _
  cases hc : compare x y with
  | lt =>
    have hxy := Nat.compare_eq_lt.mp hc
    exact ⟨fun _ => Or.inl hxy, fun _ => rfl⟩
  | eq =>
    have hxy := Nat.compare_eq_eq.mp hc
    constructor
    · intro h
      exact Or.inr ⟨hxy, h⟩
    · rintro (h | ⟨_, h⟩)
      · omega
      · exact h
  | gt =>
    have hxy := Nat.compare_eq_gt.mp hc
    constructor
    · intro h
      cases h
    · rintro (h | ⟨h, _⟩) <;> omega

theorem bytesCmp_eq_iff (a : List Nat) :
    ∀ b, bytesCmp a b = Ordering.eq ↔ a = b := by
  induction a with
  | nil =>
    intro b
    cases b with
    | nil => simp [bytesCmp]
    | cons y ys => simp [bytesCmp]
  | cons x xs ih =>
    intro b
    cases b with
    | nil => simp [bytesCmp]
    | cons y ys =>
      show (match compare x y with | .eq => bytesCmp xs ys | o => o) =
        Ordering.eq ↔ _
      cases hc : compare x y with
      | lt =>
        have hxy := Nat.compare_eq_lt.mp hc
        constructor
        · intro h
          cases h
        · intro h
          injection h with h1 _
          omega
      | eq =>
        have hxy := Nat.compare_eq_eq.mp hc
        subst hxy
        show bytesCmp xs ys = Ordering.eq ↔ x :: xs = x :: ys
        rw [ih ys]
        simp
      | gt =>
        have hxy := Nat.compare_eq_gt.mp hc
        constructor
        · intro h
          cases h
        · intro h
          injection h with h1 _
          omega

theorem bytesCmp_swap (a : List Nat) :
    ∀ b, bytesCmp b a = (bytesCmp a b).swap := by
  induction a with
  | nil =>
    intro b
    cases b <;> rfl
  | cons x xs ih =>
    intro b
    cases b with
    | nil => rfl
    | cons y ys =>
      show (match compare y x with | .eq => bytesCmp ys xs | o => o) =
        (match compare x y with | .eq => bytesCmp xs ys | o => o).swap
      cases hc : compare x y with
      | lt =>
        have h2 : compare y x = Ordering.gt :=
          Nat.compare_eq_gt.mpr (Nat.compare_eq_lt.mp hc)
        rw [h2]
        rfl
      | eq =>
        have h2 : compare y x = Ordering.eq :=
          Nat.compare_eq_eq.mpr (Nat.compare_eq_eq.mp hc).symm
        rw [h2]
        exact ih ys
      | gt =>
        have h2 : compare y x = Ordering.lt :=
          Nat.compare_eq_lt.mpr (Nat.compare_eq_gt.mp hc)
        rw [h2]
        rfl

theorem bytesCmp_lt_trans : ∀ (a b c : List Nat),
    bytesCmp a b = Ordering.lt → bytesCmp b c = Ordering.lt →
    bytesCmp a c = Ordering.lt := by
  intro a
  induction a with
  | nil =>
    intro b c h1 h2
    cases b with
    | nil => cases h1
    | cons y ys =>
      cases c with
      | nil => cases h2
      | cons z zs => rfl
  | cons x xs ih =>
    intro b c h1 h2
    cases b with
    | nil => cases h1
    | cons y ys =>
      cases c with
      | nil => cases h2
      | cons z zs =>
        rcases (bytesCmp_cons_lt x y xs ys).mp h1 with hxy | ⟨hxy, hxs⟩ <;>
          rcases (bytesCmp_cons_lt y z ys zs).mp h2 with hyz | ⟨hyz, hys⟩
        · exact (bytesCmp_cons_lt x z xs zs).mpr (Or.inl (by omega))
        · exact (bytesCmp_cons_lt x z xs zs).mpr (Or.inl (by omega))
        · exact (bytesCmp_cons_lt x z xs zs).mpr (Or.inl (by omega))
        · exact (bytesCmp_cons_lt x z xs zs).mpr
            (Or.inr ⟨by omega, ih ys zs hxs hys⟩)

theorem bytesLe_iff (a b : List Nat) :
    bytesLeP a b ↔ bytesLtP a b ∨ a = b := by
  unfold bytesLeP bytesLtP
  cases h : bytesCmp a b with
  | lt => simp
  | eq =>
    have := (bytesCmp_eq_iff a b).mp h
    simp [this]
  | gt =>
    constructor
    · intro hc
      exact absurd rfl hc
    · rintro (hc | rfl)
      · cases hc
      · rw [bytesCmp_refl] at h
        cases h

theorem bytesLe_iff_not_lt (a b : List Nat) : bytesLeP a b ↔ ¬ bytesLtP b a := by
  unfold bytesLeP bytesLtP
  rw [bytesCmp_swap a b]
  cases h : bytesCmp a b <;> simp [Ordering.swap]

theorem bytesLt_of_lt_of_le {a b c : List Nat}
    (h1 : bytesLtP a b) (h2 : bytesLeP b c) : bytesLtP a c := by
  rcases (bytesLe_iff b c).mp h2 with h | rfl
  · exact bytesCmp_lt_trans a b c h1 h
  · exact h1

theorem bytesLt_of_le_of_lt {a b c : List Nat}
    (h1 : bytesLeP a b) (h2 : bytesLtP b c) : bytesLtP a c := by
  rcases (bytesLe_iff a b).mp h1 with h | rfl
  · exact bytesCmp_lt_trans a b c h h2
  · exact h2

theorem bytesLe_trans {a b c : List Nat}
    (h1 : bytesLeP a b) (h2 : bytesLeP b c) : bytesLeP a c := by
  rcases (bytesLe_iff a b).mp h1 with h | rfl
  · exact (bytesLe_iff a c).mpr (Or.inl (bytesLt_of_lt_of_le h h2))
  · exact h2

theorem bytesLe_of_lt {a b : List Nat} (h : bytesLtP a b) : bytesLeP a b :=
  (bytesLe_iff a b).mpr (Or.inl h)

theorem bytesLeB_iff (a b : List Nat) : bytesLeB a b = true ↔ bytesLeP a b := by
  unfold bytesLeB bytesLeP
  exact decide_eq_true_iff

theorem bytesLeB_false_iff (a b : List Nat) :
    bytesLeB a b = false ↔ bytesLtP b a := by
  unfold bytesLeB
  rw [decide_eq_false_iff_not]
  constructor
  · intro h
    by_contra hc
    exact h ((bytesLe_iff_not_lt a b).mpr hc)
  · intro h hc
    exact (bytesLe_iff_not_lt a b).mp hc h

/-! ## `findIdx` and `find?` characterizations -/

theorem findIdx_spec_lt {α : Type} (p : α → Bool) :
    ∀ (es : List α) (j : Nat) (e : α), j < es.findIdx p →
      es.get? j = some e → p e = false := by
  intro es
  induction es with
  | nil =>
    intro j e _ h
    cases h
  | cons x rest ih =>
    intro j e hj hget
    rw [List.findIdx_cons] at hj
    by_cases hp : p x
    · rw [hp] at hj
      simp at hj
    · rw [Bool.not_eq_true] at hp
      rw [hp] at hj
      simp only [cond_false] at hj
      cases j with
      | zero =>
        simp only [List.get?_cons_zero] at hget
        injection hget with h
        rw [← h]
        exact hp
      | succ i =>
        exact ih i e (by omega) (by simpa using hget)

theorem findIdx_spec_at {α : Type} (p : α → Bool) :
    ∀ (es : List α) (e : α), es.get? (es.findIdx p) = some e → p e = true := by
  intro es
  induction es with
  | nil =>
    intro e h
    cases h
  | cons x rest ih =>
    intro e hget
    rw [List.findIdx_cons] at hget
    by_cases hp : p x
    · rw [hp] at hget
      simp only [cond_true, List.get?_cons_zero] at hget
      injection hget with h
      rw [← h]
      exact hp
    · rw [Bool.not_eq_true] at hp
      rw [hp] at hget
      simp only [cond_false, List.get?_cons_succ] at hget
      exact ih e hget

theorem findIdx_eq_of {α : Type} (p : α → Bool) :
    ∀ (es : List α) (i : Nat), i ≤ es.length →
      (∀ j e, j < i → es.get? j = some e → p e = false) →
      (∀ e, es.get? i = some e → p e = true) →
      es.findIdx p = i := by
  intro es
  induction es with
  | nil =>
    intro i hi _ _
    simp at hi
    rw [hi]
    rfl
  | cons x rest ih =>
    intro i hi h1 h2
    rw [List.findIdx_cons]
    cases i with
    | zero =>
      have hx : p x = true := h2 x rfl
      rw [hx]
      rfl
    | succ n =>
      have hx : p x = false := h1 0 x (by omega) rfl
      rw [hx]
      simp only [cond_false]
      rw [ih n (by simpa using hi)
        (fun j e hj hget => h1 (j + 1) e (by omega) (by simpa using hget))
        (fun e hget => h2 e (by simpa using hget))]

theorem find?_eq_get?_findIdx {α : Type} (p : α → Bool) :
    ∀ (es : List α), es.find? p = es.get? (es.findIdx p) := by
  intro es
  induction es with
  | nil => rfl
  | cons x rest ih =>
    rw [List.findIdx_cons]
    by_cases hp : p x
    · rw [List.find?_cons_of_pos _ hp, hp]
      rfl
    · rw [Bool.not_eq_true] at hp
      rw [List.find?_cons_of_neg _ (by rw [hp]; exact Bool.false_ne_true), hp]
      simpa using ih

theorem succEntry_eq_get?_leastGeIdx (es : List (List Nat × List Nat))
    (k : List Nat) : succEntry es k = es.get? (leastGeIdx es k) :=
  find?_eq_get?_findIdx _ es

theorem strictAscending_get_lt (es : List (List Nat × List Nat))
    (hs : strictAscending es) (i j : Nat) (ei ej : List Nat × List Nat)
    (hij : i < j) (hi : es.get? i = some ei) (hj : es.get? j = some ej) :
    bytesLtP ei.1 ej.1 := by
  have hi' : i < es.length := (List.get?_eq_some.mp hi).1
  have hj' : j < es.length := (List.get?_eq_some.mp hj).1
  have hrel := (List.pairwise_iff_get.mp hs) ⟨i, hi'⟩ ⟨j, hj'⟩ hij
  rw [List.get?_eq_get hi'] at hi
  rw [List.get?_eq_get hj'] at hj
  injection hi with hi
  injection hj with hj
  rw [← hi, ← hj]
  exact hrel

/-! ## Binary search of `BlockIterator::seek_to_key` -/

theorem seekToKeyLoop_spec (es : List (List Nat × List Nat))
    (hwf : entriesWf es) (hs : strictAscending es) (k : List Nat) :
    ∀ (fuel left right : Nat) (it : BlockIterator),
      it.block = blockOfEntries es →
      right ≤ es.length → left ≤ right → right - left < fuel →
      (∀ j e, j < left → es.get? j = some e → bytesLtP e.1 k) →
      (∀ j e, right ≤ j → es.get? j = some e → bytesLtP k e.1) →
      (BlockIterator.seekToKeyLoop fuel it k left right).block = it.block ∧
      (∀ e, es.get? (leastGeIdx es k) = some e →
        (BlockIterator.seekToKeyLoop fuel it k left right).key = e.1 ∧
        (BlockIterator.seekToKeyLoop fuel it k left right).value = e.2) ∧
      (es.get? (leastGeIdx es k) = none →
        (BlockIterator.seekToKeyLoop fuel it k left right).key = []) := by
  intro fuel
  induction fuel with
  | zero =>
    intro left right it _ _ _ hfuel _ _
    omega
  | succ f ih =>
    intro left right it hb hrlen hlr hfuel hlo hhi
    by_cases hlt : left < right
    · have hmid1 : left ≤ (left + right) / 2 := by omega
      have hmid2 : (left + right) / 2 < right := by omega
      have hmlen : (left + right) / 2 < es.length := by omega
      obtain ⟨emid, hemid⟩ : ∃ e, es.get? ((left + right) / 2) = some e := by
        rw [List.get?_eq_get hmlen]
        exact ⟨_, rfl⟩
      obtain ⟨hk1, hk2, hk3, hk4⟩ :=
        (seekTo_spec es hwf it hb ((left + right) / 2)).1 emid hemid
      have hstep : BlockIterator.seekToKeyLoop (f + 1) it k left right =
          match bytesCmp (it.seekTo ((left + right) / 2)).key k with
          | .lt => BlockIterator.seekToKeyLoop f
              (it.seekTo ((left + right) / 2)) k ((left + right) / 2 + 1) right
          | .eq => it.seekTo ((left + right) / 2)
          | .gt => BlockIterator.seekToKeyLoop f
              (it.seekTo ((left + right) / 2)) k left ((left + right) / 2) := by
        show (if left < right then _ else _) = _
        rw [if_pos hlt]
      rw [hstep]
      cases hcmp : bytesCmp (it.seekTo ((left + right) / 2)).key k with
      | lt =>
        rw [hk1] at hcmp
        have hlo' : ∀ j e, j < (left + right) / 2 + 1 →
            es.get? j = some e → bytesLtP e.1 k := by
          intro j e hj hget
          by_cases hjm : j < (left + right) / 2
          · exact bytesCmp_lt_trans _ _ _
              (strictAscending_get_lt es hs j ((left + right) / 2) e emid
                hjm hget hemid) hcmp
          · have : j = (left + right) / 2 := by omega
            rw [this] at hget
            rw [hget] at hemid
            injection hemid with he
            rw [he]
            exact hcmp
        obtain ⟨hc1, hc2, hc3⟩ := ih ((left + right) / 2 + 1) right
          (it.seekTo ((left + right) / 2)) (by rw [hk4, hb])
          hrlen (by omega) (by omega) hlo' hhi
        exact ⟨by rw [hc1, hk4], hc2, hc3⟩
      | eq =>
        rw [hk1] at hcmp
        have hek : emid.1 = k := (bytesCmp_eq_iff emid.1 k).mp hcmp
        have hg : leastGeIdx es k = (left + right) / 2 := by
          unfold leastGeIdx
          apply findIdx_eq_of
          · omega
          · intro j e hj hget
            rw [bytesLeB_false_iff]
            have hlt2 := strictAscending_get_lt es hs j ((left + right) / 2)
              e emid hj hget hemid
            rw [hek] at hlt2
            exact hlt2
          · intro e hget
            rw [hget] at hemid
            injection hemid with he
            rw [he, hek]
            exact bytesLeB_refl k
        refine ⟨hk4, ?_, ?_⟩
        · intro e hget
          rw [hg, hemid] at hget
          injection hget with he
          rw [← he]
          exact ⟨hk1, hk2⟩
        · intro hnone
          rw [hg, hemid] at hnone
          cases hnone
      | gt =>
        rw [hk1] at hcmp
        have hcmp2 : bytesLtP k emid.1 := by
          unfold bytesLtP
          rw [bytesCmp_swap emid.1 k, hcmp]
          rfl
        have hhi' : ∀ j e, (left + right) / 2 ≤ j →
            es.get? j = some e → bytesLtP k e.1 := by
          intro j e hj hget
          by_cases hje : (left + right) / 2 < j
          · exact bytesCmp_lt_trans _ _ _ hcmp2
              (strictAscending_get_lt es hs ((left + right) / 2) j emid e
                hje hemid hget)
          · have : j = (left + right) / 2 := by omega
            rw [this] at hget
            rw [hget] at hemid
            injection hemid with he
            rw [he]
            exact hcmp2
        obtain ⟨hc1, hc2, hc3⟩ := ih left ((left + right) / 2)
          (it.seekTo ((left + right) / 2)) (by rw [hk4, hb])
          (by omega) (by omega) (by omega) hlo hhi'
        exact ⟨by rw [hc1, hk4], hc2, hc3⟩
    · have hstep : BlockIterator.seekToKeyLoop (f + 1) it k left right =
          it.seekTo right := by
        show (if left < right then _ else _) = _
        rw [if_neg hlt]
      rw [hstep]
      have hg : leastGeIdx es k = right := by
        unfold leastGeIdx
        apply findIdx_eq_of
        · exact hrlen
        · intro j e hj hget
          rw [bytesLeB_false_iff]
          exact hlo j e (by omega) hget
        · intro e hget
          rw [bytesLeB_iff]
          exact bytesLe_of_lt (hhi right e (Nat.le_refl right) hget)
      refine ⟨?_, ?_, ?_⟩
      · rcases hgr : es.get? right with _ | e
        · exact ((seekTo_spec es hwf it hb right).2 hgr).2.2
        · exact ((seekTo_spec es hwf it hb right).1 e hgr).2.2.2
      · intro e hget
        rw [hg] at hget
        obtain ⟨h1, h2, _, _⟩ := (seekTo_spec es hwf it hb right).1 e hget
        exact ⟨h1, h2⟩
      · intro hnone
        rw [hg] at hnone
        exact ((seekTo_spec es hwf it hb right).2 hnone).1

theorem blockSeekToKey_spec (es : List (List Nat × List Nat))
    (hwf : entriesWf es) (hs : strictAscending es) (k : List Nat)
    (it : BlockIterator) (hb : it.block = blockOfEntries es) :
    (it.seekToKey k).block = it.block ∧
    (∀ e, es.get? (leastGeIdx es k) = some e →
      (it.seekToKey k).key = e.1 ∧ (it.seekToKey k).value = e.2) ∧
    (es.get? (leastGeIdx es k) = none → (it.seekToKey k).key = []) := by
  unfold BlockIterator.seekToKey
  have hlen : it.block.offsets.length = es.length := by
    rw [hb]
    exact entryOffsetsFrom_length es 0
  rw [hlen]
  exact seekToKeyLoop_spec es hwf hs k (es.length + 1) 0 es.length it hb
    (Nat.le_refl _) (Nat.zero_le _) (by omega)
    (fun j e hj _ => absurd hj (Nat.not_lt_zero j))
    (fun j e hj hget => by
      rw [List.get?_eq_none.mpr hj] at hget
      cases hget)

/-! ## The block-packing model of `SsTableBuilder` -/

theorem encConcat_cons (g : List (List Nat × List Nat))
    (gs : List (List (List Nat × List Nat))) :
    encConcat (g :: gs) = Block.encode (blockOfEntries g) ++ encConcat gs := rfl

theorem encConcat_append (gs1 gs2 : List (List (List Nat × List Nat))) :
    encConcat (gs1 ++ gs2) = encConcat gs1 ++ encConcat gs2 := by
  unfold encConcat
  exact List.flatMap_append gs1 gs2 _

theorem metasOfFrom_length (gs : List (List (List Nat × List Nat))) :
    ∀ off, (metasOfFrom off gs).length = gs.length := by
  induction gs with
  | nil => intro off; rfl
  | cons g rest ih =>
    intro off
    show (_ :: metasOfFrom _ rest).length = _
    simp [ih]

theorem metasOfFrom_append_one (gs : List (List (List Nat × List Nat))) :
    ∀ (off : Nat) (g : List (List Nat × List Nat)),
      metasOfFrom off (gs ++ [g]) = metasOfFrom off gs ++
        [{ offset := off + (encConcat gs).length,
           first_key := (g.headD ([], [])).1 }] := by
  induction gs with
  | nil =>
    intro off g
    simp [metasOfFrom, encConcat]
  | cons g0 rest ih =>
    intro off g
    show { offset := off, first_key := (g0.headD ([], [])).1 } ::
        metasOfFrom (off + (Block.encode (blockOfEntries g0)).length)
          (rest ++ [g]) = _
    rw [ih]
    show _ = { offset := off, first_key := (g0.headD ([], [])).1 } ::
      (metasOfFrom (off + (Block.encode (blockOfEntries g0)).length) rest ++
        [{ offset := off + (encConcat (g0 :: rest)).length,
           first_key := (g.headD ([], [])).1 }])
    rw [encConcat_cons, List.length_append]
    rw [show off + (Block.encode (blockOfEntries g0)).length +
      (encConcat rest).length = off + ((Block.encode (blockOfEntries g0)).length +
        (encConcat rest).length) from by omega]

theorem metasOfFrom_get (gs : List (List (List Nat × List Nat))) :
    ∀ (off i : Nat) (g : List (List Nat × List Nat)), gs.get? i = some g →
      (metasOfFrom off gs).get? i =
        some { offset := off + (encConcat (gs.take i)).length,
               first_key := (g.headD ([], [])).1 } := by
  induction gs with
  | nil =>
    intro off i g h
    cases h
  | cons g0 rest ih =>
    intro off i g h
    cases i with
    | zero =>
      simp only [List.get?_cons_zero] at h
      injection h with h
      subst h
      simp [metasOfFrom, encConcat]
    | succ j =>
      simp only [List.get?_cons_succ] at h
      show (metasOfFrom (off + (Block.encode (blockOfEntries g0)).length)
        rest).get? j = _
      rw [ih _ j g h]
      show some _ = some { offset := off +
        (encConcat (g0 :: rest.take j)).length, first_key := _ }
      rw [encConcat_cons, List.length_append]
      rw [show off + (Block.encode (blockOfEntries g0)).length +
        (encConcat (rest.take j)).length = off +
          ((Block.encode (blockOfEntries g0)).length +
            (encConcat (rest.take j)).length) from by omega]

theorem metasOfFrom_get_none (gs : List (List (List Nat × List Nat)))
    (off i : Nat) (h : gs.length ≤ i) : (metasOfFrom off gs).get? i = none := by
  rw [List.get?_eq_none]
  rw [metasOfFrom_length]
  exact h

theorem packStep_wf (bs : Nat)
    (st : List (List (List Nat × List Nat)) × List (List Nat × List Nat))
    (e : List Nat × List Nat) (hwf : packWf bs st)
    (hfit : e.1.length + e.2.length + 6 ≤ bs) :
    packWf bs (packStep bs st e) := by
  obtain ⟨hw1, hw2, hw3⟩ := hwf
  have hde : (entriesData [e]).length = e.1.length + e.2.length + 4 := by
    show (entryBytes e ++ entriesData []).length = _
    rw [List.length_append, entryBytes_length]
    rfl
  unfold packStep
  by_cases href : blockEst st.2 + e.1.length + e.2.length + 3 * 2 > bs
  · rw [if_pos href]
    have hcur : st.2 ≠ [] := by
      intro h0
      rw [h0] at href
      unfold blockEst at href
      rw [if_pos rfl] at href
      omega
    refine ⟨fun h => absurd h (by simp), ?_, ?_⟩
    · intro g hg
      rcases List.mem_append.mp hg with hg1 | hg2
      · exact hw2 g hg1
      · rcases List.mem_singleton.mp hg2 with rfl
        exact ⟨hcur, hw3 hcur⟩
    · intro _
      show (entriesData [e]).length + 2 * ([e] : List _).length ≤ bs
      rw [hde]
      simp only [List.length_cons, List.length_nil]
      omega
  · rw [if_neg href]
    refine ⟨fun h => absurd h (by simp), hw2, ?_⟩
    intro _
    show (entriesData (st.2 ++ [e])).length + 2 * (st.2 ++ [e]).length ≤ bs
    rw [entriesData_append, List.length_append, entryBytes_length,
      List.length_append]
    simp only [List.length_cons, List.length_nil]
    by_cases hcur : st.2 = []
    · rw [hcur] at href ⊢
      unfold blockEst at href
      rw [if_pos rfl] at href
      simp only [entriesData, List.flatMap_nil, List.length_nil]
      omega
    · unfold blockEst at href
      rw [if_neg hcur] at href
      omega

theorem packFold_wf (bs : Nat) :
    ∀ (es : List (List Nat × List Nat))
      (st : List (List (List Nat × List Nat)) × List (List Nat × List Nat)),
      packWf bs st → (∀ e ∈ es, e.1.length + e.2.length + 6 ≤ bs) →
      packWf bs (es.foldl (packStep bs) st) := by
  intro es
  induction es with
  | nil =>
    intro st hwf _
    exact hwf
  | cons e rest ih =>
    intro st hwf hfit
    show packWf bs (rest.foldl (packStep bs) (packStep bs st e))
    exact ih (packStep bs st e)
      (packStep_wf bs st e hwf (hfit e (List.mem_cons_self e rest)))
      (fun x hx => hfit x (List.mem_cons_of_mem e hx))

theorem packFold_entries (bs : Nat) :
    ∀ (es : List (List Nat × List Nat))
      (st : List (List (List Nat × List Nat)) × List (List Nat × List Nat)),
      (es.foldl (packStep bs) st).1.flatten ++ (es.foldl (packStep bs) st).2 =
        st.1.flatten ++ st.2 ++ es := by
  intro es
  induction es with
  | nil =>
    intro st
    simp
  | cons e rest ih =>
    intro st
    show (rest.foldl (packStep bs) (packStep bs st e)).1.flatten ++
      (rest.foldl (packStep bs) (packStep bs st e)).2 = _
    rw [ih (packStep bs st e)]
    have hstep : (packStep bs st e).1.flatten ++ (packStep bs st e).2 =
        st.1.flatten ++ st.2 ++ [e] := by
      unfold packStep
      by_cases href : blockEst st.2 + e.1.length + e.2.length + 3 * 2 > bs
      · rw [if_pos href]
        show (st.1 ++ [st.2]).flatten ++ [e] = _
        rw [List.flatten_append]
        show st.1.flatten ++ (st.2 ++ [].flatten) ++ [e] = _
        simp
      · rw [if_neg href]
        show st.1.flatten ++ (st.2 ++ [e]) = _
        simp
    calc (packStep bs st e).1.flatten ++ (packStep bs st e).2 ++ rest
        = (st.1.flatten ++ st.2 ++ [e]) ++ rest := by rw [hstep]
      _ = st.1.flatten ++ st.2 ++ (e :: rest) := by simp

/-! ## `SsTableBuilder` realises the packing model -/

theorem ssb_addFuel_empty (bs fuel : Nat)
    (acc : List (List (List Nat × List Nat))) (e : List Nat × List Nat)
    (hk : e.1 ≠ []) (hfit : e.1.length + e.2.length + 6 ≤ bs) :
    SsTableBuilder.addFuel (fuel + 1) (ssbStateOf bs (acc, [])) e.1 e.2 =
      Except.ok (ssbStateOf bs (acc, [e])) := by
  have hpush : (ssbStateOf bs (acc, [])).pushMetaIfEmpty e.1 =
      { meta := metasOfFrom 0 (acc ++ []) ++
          [{ offset := (encConcat acc).length, first_key := e.1 }],
        block_builder := { block_size := bs, data := [], offsets := [] },
        blocks := encConcat acc, block_size := bs } := by
    unfold SsTableBuilder.pushMetaIfEmpty
    rw [if_pos (show (ssbStateOf bs (acc, [])).block_builder.isEmpty = true
      from rfl)]
    rfl
  have hadd : ({ block_size := bs, data := [], offsets := [] } :
      BlockBuilder).add e.1 e.2 = Except.ok (true,
        { block_size := bs, data := entriesData [e], offsets := [0] }) := by
    unfold BlockBuilder.add
    rw [if_neg hk]
    rw [if_neg (show ¬ (({ block_size := bs, data := [], offsets := [] } :
        BlockBuilder).estimated_size + e.1.length + e.2.length + 3 * 2 > bs)
      from by
        show ¬ (0 + e.1.length + e.2.length + 3 * 2 > bs)
        omega)]
    refine congrArg Except.ok (congrArg (Prod.mk true) ?_)
    have hdata : ([] : List Nat) ++ u16be (e.1.length % 65536) ++ e.1 ++
        u16be (e.2.length % 65536) ++ e.2 = entriesData [e] := by
      simp [entriesData, entryBytes, List.append_assoc]
    show ({ block_size := bs,
            data := ([] : List Nat) ++ u16be (e.1.length % 65536) ++ e.1 ++
              u16be (e.2.length % 65536) ++ e.2,
            offsets := ([] : List Nat) ++ [([] : List Nat).length % 65536] } :
        BlockBuilder) =
      { block_size := bs, data := entriesData [e], offsets := [0] }
    rw [hdata]
    rfl
  have hmeta : metasOfFrom 0 (acc ++ []) ++
      [({ offset := (encConcat acc).length, first_key := e.1 } : BlockMeta)] =
      metasOfFrom 0 (acc ++ [[e]]) := by
    rw [List.append_nil, metasOfFrom_append_one acc 0 [e], Nat.zero_add]
    rfl
  have hbb : ({ meta := metasOfFrom 0 (acc ++ []) ++
                  [{ offset := (encConcat acc).length, first_key := e.1 }],
                block_builder :=
                  { block_size := bs, data := [], offsets := [] },
                blocks := encConcat acc, block_size := bs } :
      SsTableBuilder).block_builder =
      ({ block_size := bs, data := [], offsets := [] } : BlockBuilder) := rfl
  simp only [SsTableBuilder.addFuel]
  rw [hpush]
  rw [hbb]
  rw [hadd]
  refine congrArg Except.ok ?_
  show ({ meta := metasOfFrom 0 (acc ++ []) ++
            [{ offset := (encConcat acc).length, first_key := e.1 }],
          block_builder :=
            { block_size := bs, data := entriesData [e], offsets := [0] },
          blocks := encConcat acc, block_size := bs } : SsTableBuilder) =
    ssbStateOf bs (acc, [e])
  rw [hmeta]
  rfl

theorem addFuel_succ (fuel : Nat) (b0 : SsTableBuilder) (k v : List Nat) :
    SsTableBuilder.addFuel (fuel + 1) b0 k v =
      (match (b0.pushMetaIfEmpty k).block_builder.add k v with
       | .error er => .error er
       | .ok (true, bb) =>
         .ok { b0.pushMetaIfEmpty k with block_builder := bb }
       | .ok (false, _) =>
         match (b0.pushMetaIfEmpty k).block_builder.build with
         | .error er => .error er
         | .ok blk => SsTableBuilder.addFuel fuel
             { b0.pushMetaIfEmpty k with
               blocks := (b0.pushMetaIfEmpty k).blocks ++ blk.encode,
               block_builder :=
                 BlockBuilder.new (b0.pushMetaIfEmpty k).block_size }
             k v) := rfl

theorem ssb_add_stateOf (bs : Nat) (hbs : bs ≤ 65535)
    (st : List (List (List Nat × List Nat)) × List (List Nat × List Nat))
    (e : List Nat × List Nat) (hwf : packWf bs st) (hk : e.1 ≠ [])
    (hfit : e.1.length + e.2.length + 6 ≤ bs) :
    (ssbStateOf bs st).add e.1 e.2 =
      Except.ok (ssbStateOf bs (packStep bs st e)) := by
  obtain ⟨hw1, hw2, hw3⟩ := hwf
  by_cases hcur : st.2 = []
  · have hacc : st.1 = [] := hw1 hcur
    obtain ⟨a, c⟩ := st
    simp only at hacc hcur
    subst hacc
    subst hcur
    have hstep : packStep bs ([], []) e = ([], [e]) := by
      unfold packStep
      rw [if_neg (show ¬ (blockEst (([], []) :
          List (List (List Nat × List Nat)) ×
            List (List Nat × List Nat)).2 +
          e.1.length + e.2.length + 3 * 2 > bs) from by
        show ¬ (0 + e.1.length + e.2.length + 3 * 2 > bs)
        omega)]
      rfl
    rw [hstep]
    show SsTableBuilder.addFuel (1 + 1) (ssbStateOf bs ([], [])) e.1 e.2 = _
    exact ssb_addFuel_empty bs 1 [] e hk hfit
  · have hdne : entriesData st.2 ≠ [] := entriesData_ne_nil st.2 hcur
    have hemp : (ssbStateOf bs st).block_builder.isEmpty = false := by
      show decide (entriesData st.2 = []) = false
      rw [decide_eq_false_iff_not]
      exact hdne
    have hpush : (ssbStateOf bs st).pushMetaIfEmpty e.1 = ssbStateOf bs st := by
      unfold SsTableBuilder.pushMetaIfEmpty
      rw [if_neg (show ¬ ((ssbStateOf bs st).block_builder.isEmpty = true)
        from by
          rw [hemp]
          exact Bool.false_ne_true)]
    have hbb' : (ssbStateOf bs st).block_builder =
        ({ block_size := bs, data := entriesData st.2, offsets := entryOffsetsFrom 0 st.2 } : BlockBuilder) := rfl
    have hbound := hw3 hcur
    have hdlen : (entriesData st.2).length < 65536 := by omega
    have hemp2 : ({ block_size := bs, data := entriesData st.2, offsets := entryOffsetsFrom 0 st.2 } : BlockBuilder).isEmpty =
        false := by
      show decide (entriesData st.2 = []) = false
      rw [decide_eq_false_iff_not]
      exact hdne
    have hest : ({ block_size := bs, data := entriesData st.2, offsets := entryOffsetsFrom 0 st.2 } : BlockBuilder).estimated_size =
        (entriesData st.2).length + 2 * st.2.length + 2 := by
      unfold BlockBuilder.estimated_size
      rw [if_neg (show ¬ (({ block_size := bs, data := entriesData st.2, offsets := entryOffsetsFrom 0 st.2 } :
            BlockBuilder).isEmpty = true) from by
        rw [hemp2]
        exact Bool.false_ne_true)]
      show (entryOffsetsFrom 0 st.2).length * 2 + (entriesData st.2).length +
        2 = _
      rw [entryOffsetsFrom_length]
      omega
    have hblockEst : blockEst st.2 =
        (entriesData st.2).length + 2 * st.2.length + 2 := by
      unfold blockEst
      rw [if_neg hcur]
    have hbsz : ({ block_size := bs, data := entriesData st.2, offsets := entryOffsetsFrom 0 st.2 } : BlockBuilder).block_size = bs := rfl
    by_cases href : blockEst st.2 + e.1.length + e.2.length + 3 * 2 > bs
    · -- the current block refuses: seal it and retry into a fresh one
      have haddf : ({ block_size := bs, data := entriesData st.2, offsets := entryOffsetsFrom 0 st.2 } : BlockBuilder).add e.1 e.2 =
          Except.ok (false, { block_size := bs, data := entriesData st.2, offsets := entryOffsetsFrom 0 st.2 }) := by
        unfold BlockBuilder.add
        rw [if_neg hk]
        rw [if_pos (by
          rw [hest, hbsz]
          rw [hblockEst] at href
          omega)]
      have hbuild : ({ block_size := bs, data := entriesData st.2, offsets := entryOffsetsFrom 0 st.2 } : BlockBuilder).build =
          Except.ok (blockOfEntries st.2) := by
        unfold BlockBuilder.build
        rw [if_neg (show ¬ (({ block_size := bs, data := entriesData st.2, offsets := entryOffsetsFrom 0 st.2 } :
              BlockBuilder).isEmpty = true) from by
          rw [hemp2]
          exact Bool.false_ne_true)]
        rfl
      have henc : encConcat st.1 ++ (blockOfEntries st.2).encode =
          encConcat (st.1 ++ [st.2]) := by
        rw [encConcat_append]
        simp [encConcat]
      show SsTableBuilder.addFuel (1 + 1) (ssbStateOf bs st) e.1 e.2 = _
      rw [addFuel_succ 1 (ssbStateOf bs st) e.1 e.2]
      rw [hpush, hbb', haddf, hbuild]
      show SsTableBuilder.addFuel 1
        { meta := metasOfFrom 0 (st.1 ++ if st.2 = [] then [] else [st.2]),
          block_builder := BlockBuilder.new bs,
          blocks := encConcat st.1 ++ (blockOfEntries st.2).encode,
          block_size := bs } e.1 e.2 = _
      rw [show metasOfFrom 0 (st.1 ++ if st.2 = [] then [] else [st.2]) =
          metasOfFrom 0 ((st.1 ++ [st.2]) ++ []) from by
        rw [if_neg hcur, List.append_nil]]
      rw [henc]
      rw [show packStep bs st e = (st.1 ++ [st.2], [e]) from by
        unfold packStep
        rw [if_pos href]]
      show SsTableBuilder.addFuel (0 + 1) (ssbStateOf bs (st.1 ++ [st.2], []))
        e.1 e.2 = _
      exact ssb_addFuel_empty bs 0 (st.1 ++ [st.2]) e hk hfit
    · -- the current block accepts the entry
      have haddt : ({ block_size := bs, data := entriesData st.2, offsets := entryOffsetsFrom 0 st.2 } : BlockBuilder).add e.1 e.2 =
          Except.ok (true, { block_size := bs, data := entriesData (st.2 ++ [e]), offsets := entryOffsetsFrom 0 (st.2 ++ [e]) }) := by
        unfold BlockBuilder.add
        rw [if_neg hk]
        rw [if_neg (by
          rw [hest, hbsz]
          rw [hblockEst] at href
          omega)]
        refine congrArg Except.ok (congrArg (Prod.mk true) ?_)
        have hdata2 : entriesData st.2 ++ u16be (e.1.length % 65536) ++ e.1 ++
            u16be (e.2.length % 65536) ++ e.2 = entriesData (st.2 ++ [e]) := by
          rw [entriesData_append]
          simp [entryBytes, List.append_assoc]
        have hoffs2 : entryOffsetsFrom 0 st.2 ++
            [(entriesData st.2).length % 65536] =
            entryOffsetsFrom 0 (st.2 ++ [e]) := by
          rw [entryOffsetsFrom_append, Nat.zero_add,
            Nat.mod_eq_of_lt hdlen]
        show ({ block_size := bs,
                data := entriesData st.2 ++ u16be (e.1.length % 65536) ++
                  e.1 ++ u16be (e.2.length % 65536) ++ e.2,
                offsets := entryOffsetsFrom 0 st.2 ++
                  [(entriesData st.2).length % 65536] } : BlockBuilder) = _
        rw [hdata2, hoffs2]
      have hhead : ((st.2 ++ [e]).headD ([], [])) = st.2.headD ([], []) := by
        cases hs2 : st.2 with
        | nil => exact absurd hs2 hcur
        | cons x t => rfl
      have hmetaeq : metasOfFrom 0 (st.1 ++
          if st.2 = [] then [] else [st.2]) =
          metasOfFrom 0 (st.1 ++
            if st.2 ++ [e] = [] then [] else [st.2 ++ [e]]) := by
        rw [if_neg hcur, if_neg (show ¬ (st.2 ++ [e] = []) from by simp)]
        rw [metasOfFrom_append_one st.1 0 st.2,
          metasOfFrom_append_one st.1 0 (st.2 ++ [e]), hhead]
      show SsTableBuilder.addFuel (1 + 1) (ssbStateOf bs st) e.1 e.2 = _
      rw [addFuel_succ 1 (ssbStateOf bs st) e.1 e.2]
      rw [hpush, hbb', haddt]
      rw [show packStep bs st e = (st.1, st.2 ++ [e]) from by
        unfold packStep
        rw [if_neg href]]
      refine congrArg Except.ok ?_
      show ({ meta := metasOfFrom 0 (st.1 ++
                if st.2 = [] then [] else [st.2]),
              block_builder :=
                { block_size := bs, data := entriesData (st.2 ++ [e]),
                  offsets := entryOffsetsFrom 0 (st.2 ++ [e]) },
              blocks := encConcat st.1, block_size := bs } : SsTableBuilder) =
        ssbStateOf bs (st.1, st.2 ++ [e])
      rw [hmetaeq]
      rfl

theorem ssbFold_stateOf (bs : Nat) (hbs : bs ≤ 65535) :
    ∀ (es : List (List Nat × List Nat))
      (st : List (List (List Nat × List Nat)) × List (List Nat × List Nat)),
      packWf bs st →
      (∀ e ∈ es, e.1 ≠ [] ∧ e.1.length + e.2.length + 6 ≤ bs) →
      es.foldlM (fun b e => b.add e.1 e.2) (ssbStateOf bs st) =
        Except.ok (ssbStateOf bs (es.foldl (packStep bs) st)) := by
  intro es
  induction es with
  | nil =>
    intro st _ _
    rfl
  | cons e rest ih =>
    intro st hwf hfit
    rw [List.foldlM_cons]
    rw [ssb_add_stateOf bs hbs st e hwf (hfit e (List.mem_cons_self e rest)).1
      (hfit e (List.mem_cons_self e rest)).2]
    show rest.foldlM (fun b e => b.add e.1 e.2)
      (ssbStateOf bs (packStep bs st e)) = _
    rw [ih (packStep bs st e)
      (packStep_wf bs st e hwf (hfit e (List.mem_cons_self e rest)).2)
      (fun x hx => hfit x (List.mem_cons_of_mem e hx))]
    rfl

theorem ssb_new_stateOf (bs : Nat) (hbs : bs ≠ 0) :
    SsTableBuilder.new bs = Except.ok (ssbStateOf bs ([], [])) := by
  unfold SsTableBuilder.new
  rw [if_neg hbs]
  rfl

theorem ssb_build_stateOf (bs : Nat)
    (st : List (List (List Nat × List Nat)) × List (List Nat × List Nat))
    (hcur : st.2 ≠ []) :
    (ssbStateOf bs st).build = Except.ok (sstOfGroups (st.1 ++ [st.2])) := by
  have hdne : entriesData st.2 ≠ [] := entriesData_ne_nil st.2 hcur
  have hemp : (ssbStateOf bs st).block_builder.isEmpty = false := by
    show decide (entriesData st.2 = []) = false
    rw [decide_eq_false_iff_not]
    exact hdne
  have hbuildb : (ssbStateOf bs st).block_builder.build =
      Except.ok (blockOfEntries st.2) := by
    unfold BlockBuilder.build
    rw [if_neg (show ¬ ((ssbStateOf bs st).block_builder.isEmpty = true)
      from by
        rw [hemp]
        exact Bool.false_ne_true)]
    rfl
  have henc : encConcat st.1 ++ (blockOfEntries st.2).encode =
      encConcat (st.1 ++ [st.2]) := by
    rw [encConcat_append]
    simp [encConcat]
  have hmeta : metasOfFrom 0 (st.1 ++ if st.2 = [] then [] else [st.2]) =
      metasOfFrom 0 (st.1 ++ [st.2]) := by
    rw [if_neg hcur]
  unfold SsTableBuilder.build
  rw [show (if (ssbStateOf bs st).block_builder.isEmpty then
        Except.ok (ssbStateOf bs st).blocks
      else ((ssbStateOf bs st).block_builder.build).map fun blk =>
        (ssbStateOf bs st).blocks ++ blk.encode :
      Except RustErr (List Nat)) =
      Except.ok (encConcat (st.1 ++ [st.2])) from by
    rw [if_neg (show ¬ ((ssbStateOf bs st).block_builder.isEmpty = true)
      from by
        rw [hemp]
        exact Bool.false_ne_true)]
    rw [hbuildb]
    show Except.ok (encConcat st.1 ++ (blockOfEntries st.2).encode) = _
    rw [henc]]
  refine congrArg Except.ok ?_
  show ({ file := encConcat (st.1 ++ [st.2]) ++
            encodeBlockMeta (ssbStateOf bs st).meta ++
            u32be ((encConcat (st.1 ++ [st.2])).length % 4294967296),
          block_metas := (ssbStateOf bs st).meta,
          block_meta_offset := (encConcat (st.1 ++ [st.2])).length } :
      SsTable) = sstOfGroups (st.1 ++ [st.2])
  show ({ file := encConcat (st.1 ++ [st.2]) ++
            encodeBlockMeta (metasOfFrom 0
              (st.1 ++ if st.2 = [] then [] else [st.2])) ++
            u32be ((encConcat (st.1 ++ [st.2])).length % 4294967296),
          block_metas := metasOfFrom 0
            (st.1 ++ if st.2 = [] then [] else [st.2]),
          block_meta_offset := (encConcat (st.1 ++ [st.2])).length } :
      SsTable) = sstOfGroups (st.1 ++ [st.2])
  rw [hmeta]
  rfl

theorem packWf_init (bs : Nat) : packWf bs ([], []) :=
  ⟨fun _ => rfl, fun g h => absurd h (List.not_mem_nil g),
    fun h => absurd rfl h⟩

theorem sstOf_groups (bs : Nat) (es : List (List Nat × List Nat))
    (hbs : bs ≤ 65535) (hne : es ≠ [])
    (hfit : ∀ e ∈ es, e.1 ≠ [] ∧ e.1.length + e.2.length + 6 ≤ bs) :
    sstOf bs es = Except.ok (sstOfGroups (packGroups bs es)) := by
  have hbs0 : bs ≠ 0 := by
    cases es with
    | nil => exact absurd rfl hne
    | cons e rest =>
      have := (hfit e (List.mem_cons_self e rest)).2
      omega
  have hwf := packFold_wf bs es ([], []) (packWf_init bs)
    (fun e he => (hfit e he).2)
  have hflat := packFold_entries bs es ([], [])
  have hcur : (es.foldl (packStep bs) ([], [])).2 ≠ [] := by
    intro hc
    have hacc := hwf.1 hc
    rw [hacc, hc] at hflat
    simp at hflat
    exact hne hflat
  unfold sstOf
  rw [ssb_new_stateOf bs hbs0]
  show (match es.foldlM (fun b e => b.add e.1 e.2) (ssbStateOf bs ([], []))
    with
    | Except.error er => Except.error er
    | Except.ok b => b.build) = _
  rw [ssbFold_stateOf bs hbs es ([], []) (packWf_init bs) hfit]
  show (ssbStateOf bs (es.foldl (packStep bs) ([], []))).build = _
  rw [ssb_build_stateOf bs (es.foldl (packStep bs) ([], [])) hcur]
  rfl

theorem packGroups_spec (bs : Nat) (es : List (List Nat × List Nat))
    (hne : es ≠ [])
    (hfit : ∀ e ∈ es, e.1.length + e.2.length + 6 ≤ bs) :
    (packGroups bs es).flatten = es ∧
    (∀ g ∈ packGroups bs es, g ≠ []) ∧
    (∀ g ∈ packGroups bs es,
      (entriesData g).length + 2 * g.length ≤ bs) := by
  have hwf := packFold_wf bs es ([], []) (packWf_init bs) hfit
  have hflat := packFold_entries bs es ([], [])
  have hcur : (es.foldl (packStep bs) ([], [])).2 ≠ [] := by
    intro hc
    have hacc := hwf.1 hc
    rw [hacc, hc] at hflat
    simp at hflat
    exact hne hflat
  refine ⟨?_, ?_, ?_⟩
  · unfold packGroups
    rw [List.flatten_append]
    show _ ++ ((es.foldl (packStep bs) ([], [])).2 ++ [].flatten) = es
    rw [List.flatten_nil, List.append_nil]
    simpa using hflat
  · intro g hg
    rcases List.mem_append.mp hg with h1 | h2
    · exact (hwf.2.1 g h1).1
    · rcases List.mem_singleton.mp h2 with rfl
      exact hcur
  · intro g hg
    rcases List.mem_append.mp hg with h1 | h2
    · exact (hwf.2.1 g h1).2
    · rcases List.mem_singleton.mp h2 with rfl
      exact hwf.2.2 hcur

/-! ## Reading blocks back out of a built SST -/

theorem seekTo_block (it : BlockIterator) (i : Nat) :
    (it.seekTo i).block = it.block := by
  unfold BlockIterator.seekTo
  split <;> rfl

theorem encConcat_split (gs : List (List (List Nat × List Nat))) :
    ∀ (i : Nat) (g : List (List Nat × List Nat)), gs.get? i = some g →
      encConcat gs = encConcat (gs.take i) ++
        (Block.encode (blockOfEntries g) ++ encConcat (gs.drop (i + 1))) := by
  induction gs with
  | nil =>
    intro i g h
    cases h
  | cons g0 rest ih =>
    intro i g h
    cases i with
    | zero =>
      simp only [List.get?_cons_zero] at h
      injection h with h
      subst h
      show encConcat (g0 :: rest) = encConcat [] ++
        (Block.encode (blockOfEntries g0) ++ encConcat rest)
      rw [encConcat_cons]
      rfl
    | succ j =>
      simp only [List.get?_cons_succ] at h
      show encConcat (g0 :: rest) = encConcat (g0 :: rest.take j) ++
        (Block.encode (blockOfEntries g) ++ encConcat (rest.drop (j + 1)))
      rw [encConcat_cons, encConcat_cons, ih j g h, List.append_assoc]

theorem take_succ_of_get? {α : Type} (l : List α) (i : Nat) (x : α)
    (h : l.get? i = some x) : l.take (i + 1) = l.take i ++ [x] := by
  rw [List.get?_eq_getElem? l i] at h
  rw [List.take_succ, h]
  rfl

theorem readBlock_groups_gen (gs : List (List (List Nat × List Nat)))
    (i : Nat) (g : List (List Nat × List Nat)) (hget : gs.get? i = some g)
    (hcnt : (entryOffsetsFrom 0 g).length < 65536)
    (hoffb : ∀ o ∈ entryOffsetsFrom 0 g, o < 65536) :
    (sstOfGroups gs).readBlock i = Except.ok (blockOfEntries g) := by
  have hmetas : (sstOfGroups gs).block_metas = metasOfFrom 0 gs := rfl
  have hoff : (sstOfGroups gs).block_meta_offset = (encConcat gs).length := rfl
  unfold SsTable.readBlock
  rw [hmetas, metasOfFrom_get gs 0 i g hget]
  show Except.ok (Block.decode (((sstOfGroups gs).file.drop
      (0 + (encConcat (gs.take i)).length)).take
    ((((metasOfFrom 0 gs).get? (i + 1)).map BlockMeta.offset).getD
        (sstOfGroups gs).block_meta_offset -
      (0 + (encConcat (gs.take i)).length)))) = _
  have hoe : (((metasOfFrom 0 gs).get? (i + 1)).map BlockMeta.offset).getD
      (sstOfGroups gs).block_meta_offset =
      (encConcat (gs.take i)).length +
        (Block.encode (blockOfEntries g)).length := by
    rcases hnext : gs.get? (i + 1) with _ | g2
    · have hnone : (metasOfFrom 0 gs).get? (i + 1) = none :=
        metasOfFrom_get_none gs 0 (i + 1) (List.get?_eq_none.mp hnext)
      rw [hnone]
      show (sstOfGroups gs).block_meta_offset = _
      rw [hoff, encConcat_split gs i g hget]
      have hdrop : gs.drop (i + 1) = [] := by
        have h1 : i < gs.length := (List.get?_eq_some.mp hget).1
        have h2 : gs.length ≤ i + 1 := List.get?_eq_none.mp hnext
        exact List.drop_eq_nil_of_le h2
      rw [hdrop]
      show (encConcat (gs.take i) ++
        (Block.encode (blockOfEntries g) ++ encConcat [])).length = _
      rw [List.length_append, List.length_append]
      show _ + (_ + ([] : List Nat).length) = _
      simp
    · rw [metasOfFrom_get gs 0 (i + 1) g2 hnext]
      show 0 + (encConcat (gs.take (i + 1))).length = _
      rw [take_succ_of_get? gs i g hget, encConcat_append]
      show 0 + (encConcat (gs.take i) ++
        (Block.encode (blockOfEntries g) ++ encConcat [])).length = _
      rw [List.length_append, List.length_append]
      have hz : (encConcat ([] : List (List (List Nat × List Nat)))).length =
        0 := rfl
      omega
  rw [hoe]
  have hsub : (encConcat (gs.take i)).length +
      (Block.encode (blockOfEntries g)).length -
      (0 + (encConcat (gs.take i)).length) =
      (Block.encode (blockOfEntries g)).length := by omega
  rw [hsub, Nat.zero_add]
  have hslice : ((sstOfGroups gs).file.drop
      ((encConcat (gs.take i)).length)).take
      ((Block.encode (blockOfEntries g)).length) =
      Block.encode (blockOfEntries g) := by
    show ((encConcat gs ++ encodeBlockMeta (metasOfFrom 0 gs) ++
        u32be ((encConcat gs).length % 4294967296)).drop
      ((encConcat (gs.take i)).length)).take _ = _
    rw [List.append_assoc, encConcat_split gs i g hget, List.append_assoc,
      List.drop_left, List.append_assoc, List.take_left]
  rw [hslice]
  have hrt : Block.decode (Block.encode (blockOfEntries g)) =
      blockOfEntries g := by
    apply block_decode_encode
    · exact hcnt
    · exact hoffb
  rw [hrt]

theorem readBlock_groups (bs : Nat) (hbs : bs ≤ 65535)
    (gs : List (List (List Nat × List Nat)))
    (hbnd : ∀ g ∈ gs, (entriesData g).length + 2 * g.length ≤ bs)
    (i : Nat) (g : List (List Nat × List Nat)) (hget : gs.get? i = some g) :
    (sstOfGroups gs).readBlock i = Except.ok (blockOfEntries g) := by
  have hbg := hbnd g (List.get?_mem hget)
  apply readBlock_groups_gen gs i g hget
  · rw [entryOffsetsFrom_length]
    omega
  · intro o hmem
    have := entryOffsetsFrom_mem_le g 0 o hmem
    omega

/-! ## `slice::partition_point` characterization -/

theorem partitionPointLoop_succ (p : BlockMeta → Bool) (metas : List BlockMeta)
    (f left right : Nat) :
    partitionPointLoop p metas (f + 1) left right =
      if left < right then
        (if p (metas.getD ((left + right) / 2) { offset := 0, first_key := [] })
         then partitionPointLoop p metas f ((left + right) / 2 + 1) right
         else partitionPointLoop p metas f left ((left + right) / 2))
      else left := rfl

theorem partitionPointLoop_spec (p : BlockMeta → Bool) (metas : List BlockMeta)
    (hmono : ∀ (i j : Nat) (mi mj : BlockMeta), i ≤ j →
      metas.get? i = some mi → metas.get? j = some mj → p mj = true →
      p mi = true) :
    ∀ (fuel left right : Nat),
      right ≤ metas.length → left ≤ right → right - left < fuel →
      (∀ j m, j < left → metas.get? j = some m → p m = true) →
      (∀ j m, right ≤ j → metas.get? j = some m → p m = false) →
      partitionPointLoop p metas fuel left right ≤ metas.length ∧
      (∀ j m, j < partitionPointLoop p metas fuel left right →
        metas.get? j = some m → p m = true) ∧
      (∀ j m, partitionPointLoop p metas fuel left right ≤ j →
        metas.get? j = some m → p m = false) := by
  intro fuel
  induction fuel with
  | zero =>
    intro left right _ _ hf _ _
    omega
  | succ f ih =>
    intro left right hrlen hlr hfuel hlo hhi
    rw [partitionPointLoop_succ]
    by_cases hlt : left < right
    · rw [if_pos hlt]
      have hmlen : (left + right) / 2 < metas.length := by omega
      obtain ⟨m, hm⟩ : ∃ m, metas.get? ((left + right) / 2) = some m := by
        rw [List.get?_eq_get hmlen]
        exact ⟨_, rfl⟩
      have hgetD : metas.getD ((left + right) / 2)
          { offset := 0, first_key := [] } = m := by
        rw [List.getD_eq_getD_get?, hm]
        rfl
      rw [hgetD]
      by_cases hp : p m = true
      · rw [if_pos hp]
        have hlo' : ∀ j mj, j < (left + right) / 2 + 1 →
            metas.get? j = some mj → p mj = true := by
          intro j mj hj hgj
          exact hmono j ((left + right) / 2) mj m (by omega) hgj hm hp
        exact ih ((left + right) / 2 + 1) right hrlen (by omega) (by omega)
          hlo' hhi
      · rw [if_neg hp]
        rw [Bool.not_eq_true] at hp
        have hhi' : ∀ j mj, (left + right) / 2 ≤ j →
            metas.get? j = some mj → p mj = false := by
          intro j mj hj hgj
          by_contra hc
          rw [Bool.not_eq_false] at hc
          have := hmono ((left + right) / 2) j m mj hj hm hgj hc
          rw [this] at hp
          cases hp
        exact ih left ((left + right) / 2) (by omega) (by omega) (by omega)
          hlo hhi'
    · rw [if_neg hlt]
      have hleq : left = right := by omega
      exact ⟨by omega, fun j m hj hg => hlo j m hj hg,
        fun j m hj hg => hhi j m (by omega) hg⟩

theorem partitionPoint_spec (p : BlockMeta → Bool) (metas : List BlockMeta)
    (hmono : ∀ (i j : Nat) (mi mj : BlockMeta), i ≤ j →
      metas.get? i = some mi → metas.get? j = some mj → p mj = true →
      p mi = true) :
    partitionPoint p metas ≤ metas.length ∧
    (∀ j m, j < partitionPoint p metas → metas.get? j = some m →
      p m = true) ∧
    (∀ j m, partitionPoint p metas ≤ j → metas.get? j = some m →
      p m = false) := by
  unfold partitionPoint
  exact partitionPointLoop_spec p metas hmono (metas.length + 1) 0
    metas.length (Nat.le_refl _) (Nat.zero_le _) (by omega)
    (fun j m hj _ => absurd hj (Nat.not_lt_zero j))
    (fun j m hj hg => by
      rw [List.get?_eq_none.mpr hj] at hg
      cases hg)

/-! ## `create_and_seek_to_key` over a built SST -/

theorem headD_mem (g : List (List Nat × List Nat)) (hg : g ≠ []) :
    g.headD ([], []) ∈ g := by
  cases g with
  | nil => exact absurd rfl hg
  | cons x t => exact List.mem_cons_self x t

theorem get?_zero_headD (g : List (List Nat × List Nat)) (hg : g ≠ []) :
    g.get? 0 = some (g.headD ([], [])) := by
  cases g with
  | nil => exact absurd rfl hg
  | cons x t => rfl

theorem find?_headD (g : List (List Nat × List Nat)) (hg : g ≠ [])
    (p : List Nat × List Nat → Bool) (hp : p (g.headD ([], [])) = true) :
    g.find? p = some (g.headD ([], [])) := by
  cases g with
  | nil => exact absurd rfl hg
  | cons x t => exact List.find?_cons_of_pos t hp

theorem flatten_cross_lt (gs : List (List (List Nat × List Nat)))
    (hsorted : strictAscending gs.flatten) :
    ∀ (i j : Nat) (gi gj : List (List Nat × List Nat)), i < j →
      gs.get? i = some gi → gs.get? j = some gj →
      ∀ x ∈ gi, ∀ y ∈ gj, bytesLtP x.1 y.1 := by
  have hpw := (List.pairwise_flatten.mp hsorted).2
  intro i j gi gj hij hgi hgj x hx y hy
  have hi2 : i < gs.length := (List.get?_eq_some.mp hgi).1
  have hj2 : j < gs.length := (List.get?_eq_some.mp hgj).1
  have hrel := (List.pairwise_iff_get.mp hpw) ⟨i, hi2⟩ ⟨j, hj2⟩ hij
  rw [List.get?_eq_get hi2] at hgi
  rw [List.get?_eq_get hj2] at hgj
  injection hgi with hgi
  injection hgj with hgj
  rw [← hgi] at hx
  rw [← hgj] at hy
  exact hrel x hx y hy

theorem seekToKeyInner_eq (table : SsTable) (key : List Nat) :
    SsTableIterator.seekToKeyInner table key =
      (match table.readBlock (table.findBlockIdx key) with
       | .error e => .error e
       | .ok blk =>
         if ¬ (BlockIterator.createAndSeekToKey blk key).isValid ∧
             table.findBlockIdx key + 1 < table.numOfBlocks then
           (table.readBlock (table.findBlockIdx key + 1)).map fun blk2 =>
             (table.findBlockIdx key + 1,
               BlockIterator.createAndSeekToFirst blk2)
         else .ok (table.findBlockIdx key,
           BlockIterator.createAndSeekToKey blk key)) := rfl

theorem sstSeek_spec (bs : Nat) (hbs : bs ≤ 65535)
    (gs : List (List (List Nat × List Nat))) (k : List Nat)
    (hne : gs ≠ [])
    (hgne : ∀ g ∈ gs, g ≠ [])
    (hbnd : ∀ g ∈ gs, (entriesData g).length + 2 * g.length ≤ bs)
    (hsorted : strictAscending gs.flatten)
    (hkeys : ∀ e ∈ gs.flatten, e.1 ≠ []) :
    ∃ it, SsTableIterator.createAndSeekToKey (sstOfGroups gs) k =
        Except.ok it ∧
      (∀ e, succEntry gs.flatten k = some e →
        it.isValid = true ∧ it.key = e.1 ∧ it.value = e.2) ∧
      (succEntry gs.flatten k = none → it.isValid = false) := by
  have hlen1 : 1 ≤ gs.length := by
    cases gs with
    | nil => exact absurd rfl hne
    | cons g t => simp
  have hsub : ∀ g ∈ gs, strictAscending g :=
    fun g hg => (List.pairwise_flatten.mp hsorted).1 g hg
  have hcross := flatten_cross_lt gs hsorted
  have hmemflat : ∀ g ∈ gs, ∀ e ∈ g, e ∈ gs.flatten :=
    fun g hg e he => List.mem_flatten.mpr ⟨g, hg, he⟩
  have hwfg : ∀ g ∈ gs, entriesWf g := by
    intro g hg e he
    have h1 := entriesData_length_ge g e he
    have h2 := hbnd g hg
    exact ⟨hkeys e (hmemflat g hg e he), by omega, by omega⟩
  have hmlen : (metasOfFrom 0 gs).length = gs.length := metasOfFrom_length gs 0
  have hmono : ∀ (i j : Nat) (mi mj : BlockMeta), i ≤ j →
      (metasOfFrom 0 gs).get? i = some mi →
      (metasOfFrom 0 gs).get? j = some mj →
      bytesLeB mi.first_key k = true → bytesLeB mi.first_key k = true := by
    intro _ _ _ _ _ _ _ h
    exact h
  have hmono2 : ∀ (i j : Nat) (mi mj : BlockMeta), i ≤ j →
      (metasOfFrom 0 gs).get? i = some mi →
      (metasOfFrom 0 gs).get? j = some mj →
      bytesLeB mj.first_key k = true → bytesLeB mi.first_key k = true := by
    intro i j mi mj hij hmi hmj hpj
    have hi2 : i < gs.length := by
      have := (List.get?_eq_some.mp hmi).1
      omega
    have hj2 : j < gs.length := by
      have := (List.get?_eq_some.mp hmj).1
      omega
    obtain ⟨gi, hgi⟩ : ∃ g, gs.get? i = some g := by
      rw [List.get?_eq_get hi2]
      exact ⟨_, rfl⟩
    obtain ⟨gj, hgj⟩ : ∃ g, gs.get? j = some g := by
      rw [List.get?_eq_get hj2]
      exact ⟨_, rfl⟩
    rw [metasOfFrom_get gs 0 i gi hgi] at hmi
    rw [metasOfFrom_get gs 0 j gj hgj] at hmj
    injection hmi with hmi
    injection hmj with hmj
    rcases Nat.eq_or_lt_of_le hij with rfl | hlt
    · rw [hgi] at hgj
      injection hgj with hgj
      subst hgj
      rw [← hmi]
      rw [← hmj] at hpj
      exact hpj
    · have hx := hcross i j gi gj hlt hgi hgj
        (gi.headD ([], [])) (headD_mem gi (hgne gi (List.get?_mem hgi)))
        (gj.headD ([], [])) (headD_mem gj (hgne gj (List.get?_mem hgj)))
      rw [← hmi]
      rw [← hmj] at hpj
      have hpj2 : bytesLeB (gj.headD ([], [])).1 k = true := hpj
      show bytesLeB (gi.headD ([], [])).1 k = true
      rw [bytesLeB_iff]
      rw [bytesLeB_iff] at hpj2
      exact bytesLe_trans (bytesLe_of_lt hx) hpj2
  obtain ⟨hple, hch1, hch2⟩ := partitionPoint_spec
    (fun m => bytesLeB m.first_key k) (metasOfFrom 0 gs) hmono2
  rw [hmlen] at hple
  set t1 := partitionPoint (fun m => bytesLeB m.first_key k)
    (metasOfFrom 0 gs) with ht1
  have hjlen : t1 - 1 < gs.length := by omega
  obtain ⟨gj, hgj⟩ : ∃ g, gs.get? (t1 - 1) = some g := by
    rw [List.get?_eq_get hjlen]
    exact ⟨_, rfl⟩
  have hgjne : gj ≠ [] := hgne gj (List.get?_mem hgj)
  have hgjwf : entriesWf gj := hwfg gj (List.get?_mem hgj)
  have hgjsorted : strictAscending gj := hsub gj (List.get?_mem hgj)
  have hrb : (sstOfGroups gs).readBlock (t1 - 1) =
      Except.ok (blockOfEntries gj) := readBlock_groups bs hbs gs hbnd _ gj hgj
  have hbi : (sstOfGroups gs).findBlockIdx k = t1 - 1 := by
    show partitionPoint (fun m => bytesLeB m.first_key k)
      (sstOfGroups gs).block_metas - 1 = t1 - 1
    rw [show (sstOfGroups gs).block_metas = metasOfFrom 0 gs from rfl, ← ht1]
  have hblk0 : (BlockIterator.createAndSeekToFirst
      (blockOfEntries gj)).block = blockOfEntries gj := by
    show (({ block := blockOfEntries gj, key := [], value := [], idx := 0 } : BlockIterator).seekTo 0).block = blockOfEntries gj
    rw [seekTo_block]
  obtain ⟨hsb, hsome, hnone⟩ := blockSeekToKey_spec gj hgjwf hgjsorted k
    (BlockIterator.createAndSeekToFirst (blockOfEntries gj)) hblk0
  have hnum : (sstOfGroups gs).numOfBlocks = gs.length := by
    show (metasOfFrom 0 gs).length = gs.length
    exact hmlen
  -- every entry of a group before the candidate is strictly below the key
  have hbefore : ∀ x ∈ (gs.take (t1 - 1)).flatten, bytesLtP x.1 k := by
    intro x hx
    obtain ⟨g1, hg1, hxg⟩ := List.mem_flatten.mp hx
    obtain ⟨i, hi⟩ := List.mem_iff_get?.mp hg1
    have hilt : i < t1 - 1 := by
      have h1 : i < (gs.take (t1 - 1)).length :=
        (List.get?_eq_some.mp hi).1
      rw [List.length_take] at h1
      omega
    have hgs1 : gs.get? i = some g1 := by
      rw [← List.get?_take hilt]
      exact hi
    have hnextlen : i + 1 < gs.length := by omega
    obtain ⟨gn, hgn⟩ : ∃ g, gs.get? (i + 1) = some g := by
      rw [List.get?_eq_get hnextlen]
      exact ⟨_, rfl⟩
    have hmn : (metasOfFrom 0 gs).get? (i + 1) =
        some { offset := 0 + (encConcat (gs.take (i + 1))).length,
               first_key := (gn.headD ([], [])).1 } :=
      metasOfFrom_get gs 0 (i + 1) gn hgn
    have hptrue := hch1 (i + 1) _ (by omega) hmn
    have hle2 : bytesLeB (gn.headD ([], [])).1 k = true := hptrue
    have hltx : bytesLtP x.1 (gn.headD ([], [])).1 :=
      hcross i (i + 1) g1 gn (by omega) hgs1 hgn x hxg
        (gn.headD ([], [])) (headD_mem gn (hgne gn (List.get?_mem hgn)))
    rw [bytesLeB_iff] at hle2
    exact bytesLt_of_lt_of_le hltx hle2
  have hAnone : (gs.take (t1 - 1)).flatten.find?
      (fun e => bytesLeB k e.1) = none := by
    rw [List.find?_eq_none]
    intro x hx hc
    rw [bytesLeB_iff] at hc
    exact (bytesLe_iff_not_lt k x.1).mp hc (hbefore x hx)
  have hsplit : gs = gs.take (t1 - 1) ++ (gj :: gs.drop (t1 - 1 + 1)) := by
    have h1 : gs.drop (t1 - 1) = gj :: gs.drop (t1 - 1 + 1) := by
      rw [List.drop_eq_getElem_cons hjlen]
      have h2 := List.get?_eq_get hjlen
      rw [h2] at hgj
      injection hgj with hgj
      rw [← hgj]
      rfl
    rw [← h1, List.take_append_drop]
  have hfind : succEntry gs.flatten k =
      (gj.find? (fun e => bytesLeB k e.1)).or
        ((gs.drop (t1 - 1 + 1)).flatten.find? (fun e => bytesLeB k e.1)) := by
    unfold succEntry
    conv_lhs => rw [hsplit]
    rw [List.flatten_append, List.flatten_cons, List.find?_append,
      List.find?_append, hAnone, Option.none_or]
  have hfj : gj.find? (fun e => bytesLeB k e.1) =
      gj.get? (leastGeIdx gj k) := find?_eq_get?_findIdx _ gj
  rcases hgl : gj.get? (leastGeIdx gj k) with _ | e0
  · -- the candidate block holds no key ≥ k
    have hkey0 : ((BlockIterator.createAndSeekToFirst
        (blockOfEntries gj)).seekToKey k).key = [] := hnone hgl
    have hinvalid : (BlockIterator.createAndSeekToKey
        (blockOfEntries gj) k).isValid = false := by
      show decide (¬ ((BlockIterator.createAndSeekToFirst
        (blockOfEntries gj)).seekToKey k).key = []) = false
      rw [hkey0]
      simp
    by_cases hmore : t1 - 1 + 1 < gs.length
    · obtain ⟨g2, hg2⟩ : ∃ g, gs.get? (t1 - 1 + 1) = some g := by
        rw [List.get?_eq_get hmore]
        exact ⟨_, rfl⟩
      have hg2ne : g2 ≠ [] := hgne g2 (List.get?_mem hg2)
      have hwf2 : entriesWf g2 := hwfg g2 (List.get?_mem hg2)
      have hrb2 : (sstOfGroups gs).readBlock (t1 - 1 + 1) =
          Except.ok (blockOfEntries g2) :=
        readBlock_groups bs hbs gs hbnd _ g2 hg2
      have hg20 : g2.get? 0 = some (g2.headD ([], [])) :=
        get?_zero_headD g2 hg2ne
      obtain ⟨hs1, hs2, hs3, hs4⟩ := (seekTo_spec g2 hwf2
        ({ block := blockOfEntries g2, key := [], value := [], idx := 0 })
        rfl 0).1 (g2.headD ([], [])) hg20
      have hk2ne : (g2.headD ([], [])).1 ≠ [] :=
        (hwf2 _ (headD_mem g2 hg2ne)).1
      have hmn2 : (metasOfFrom 0 gs).get? (t1 - 1 + 1) =
          some { offset := 0 + (encConcat (gs.take (t1 - 1 + 1))).length,
                 first_key := (g2.headD ([], [])).1 } :=
        metasOfFrom_get gs 0 (t1 - 1 + 1) g2 hg2
      have hpfalse := hch2 (t1 - 1 + 1) _ (by omega) hmn2
      have hq2true : bytesLeB k (g2.headD ([], [])).1 = true := by
        have hpfalse2 : bytesLeB (g2.headD ([], [])).1 k = false := hpfalse
        rw [bytesLeB_false_iff] at hpfalse2
        rw [bytesLeB_iff]
        exact bytesLe_of_lt hpfalse2
      have hdropsplit : gs.drop (t1 - 1 + 1) =
          g2 :: gs.drop (t1 - 1 + 1 + 1) := by
        rw [List.drop_eq_getElem_cons hmore]
        have h2 := List.get?_eq_get hmore
        rw [h2] at hg2
        injection hg2 with hg2
        rw [← hg2]
        rfl
      have hfind2 : succEntry gs.flatten k = some (g2.headD ([], [])) := by
        rw [hfind, hfj, hgl, Option.none_or, hdropsplit, List.flatten_cons,
          List.find?_append, find?_headD g2 hg2ne _ hq2true]
        rfl
      have hinner : SsTableIterator.seekToKeyInner (sstOfGroups gs) k =
          Except.ok (t1 - 1 + 1,
            BlockIterator.createAndSeekToFirst (blockOfEntries g2)) := by
        rw [seekToKeyInner_eq, hbi, hrb]
        show (if ¬ (BlockIterator.createAndSeekToKey (blockOfEntries gj)
              k).isValid ∧
            t1 - 1 + 1 < (sstOfGroups gs).numOfBlocks then
          ((sstOfGroups gs).readBlock (t1 - 1 + 1)).map fun blk2 =>
            (t1 - 1 + 1, BlockIterator.createAndSeekToFirst blk2)
        else Except.ok (t1 - 1,
          BlockIterator.createAndSeekToKey (blockOfEntries gj) k)) = _
        rw [if_pos ⟨by
            rw [hinvalid]
            exact Bool.false_ne_true, by
            rw [hnum]
            exact hmore⟩]
        rw [hrb2]
        rfl
      refine ⟨{ table := sstOfGroups gs, block_iter := BlockIterator.createAndSeekToFirst (blockOfEntries g2), block_idx := t1 - 1 + 1 }, ?_, ?_, ?_⟩
      · unfold SsTableIterator.createAndSeekToKey
        rw [hinner]
        rfl
      · intro e he
        rw [hfind2] at he
        injection he with he
        subst he
        refine ⟨?_, hs1, hs2⟩
        show decide (¬ (({ block := blockOfEntries g2, key := [], value := [], idx := 0 } : BlockIterator).seekTo 0).key = []) = true
        rw [hs1]
        simpa using hk2ne
      · intro hc
        rw [hfind2] at hc
        cases hc
    · have hdropnil : gs.drop (t1 - 1 + 1) = [] :=
        List.drop_eq_nil_of_le (by omega)
      have hfindnone : succEntry gs.flatten k = none := by
        rw [hfind, hfj, hgl, Option.none_or, hdropnil]
        rfl
      have hinner : SsTableIterator.seekToKeyInner (sstOfGroups gs) k =
          Except.ok (t1 - 1,
            BlockIterator.createAndSeekToKey (blockOfEntries gj) k) := by
        rw [seekToKeyInner_eq, hbi, hrb]
        show (if ¬ (BlockIterator.createAndSeekToKey (blockOfEntries gj)
              k).isValid ∧
            t1 - 1 + 1 < (sstOfGroups gs).numOfBlocks then
          ((sstOfGroups gs).readBlock (t1 - 1 + 1)).map fun blk2 =>
            (t1 - 1 + 1, BlockIterator.createAndSeekToFirst blk2)
        else Except.ok (t1 - 1,
          BlockIterator.createAndSeekToKey (blockOfEntries gj) k)) = _
        rw [if_neg (fun hc => by
          rw [hnum] at hc
          exact hmore hc.2)]
      refine ⟨{ table := sstOfGroups gs, block_iter := BlockIterator.createAndSeekToKey (blockOfEntries gj) k, block_idx := t1 - 1 }, ?_, ?_, ?_⟩
      · unfold SsTableIterator.createAndSeekToKey
        rw [hinner]
        rfl
      · intro e he
        rw [hfindnone] at he
        cases he
      · intro _
        exact hinvalid
  · -- the candidate block holds the least key ≥ k
    obtain ⟨hq1, hq2⟩ := hsome e0 hgl
    have hkne : e0.1 ≠ [] := (hgjwf e0 (List.get?_mem hgl)).1
    have hvalid : (BlockIterator.createAndSeekToKey
        (blockOfEntries gj) k).isValid = true := by
      show decide (¬ ((BlockIterator.createAndSeekToFirst
        (blockOfEntries gj)).seekToKey k).key = []) = true
      rw [hq1]
      simpa using hkne
    have hinner : SsTableIterator.seekToKeyInner (sstOfGroups gs) k =
        Except.ok (t1 - 1,
          BlockIterator.createAndSeekToKey (blockOfEntries gj) k) := by
      rw [seekToKeyInner_eq, hbi, hrb]
      show (if ¬ (BlockIterator.createAndSeekToKey (blockOfEntries gj)
            k).isValid ∧
          t1 - 1 + 1 < (sstOfGroups gs).numOfBlocks then
        ((sstOfGroups gs).readBlock (t1 - 1 + 1)).map fun blk2 =>
          (t1 - 1 + 1, BlockIterator.createAndSeekToFirst blk2)
      else Except.ok (t1 - 1,
        BlockIterator.createAndSeekToKey (blockOfEntries gj) k)) = _
      rw [if_neg (fun hc => hc.1 hvalid)]
    refine ⟨{ table := sstOfGroups gs, block_iter := BlockIterator.createAndSeekToKey (blockOfEntries gj) k, block_idx := t1 - 1 }, ?_, ?_, ?_⟩
    · unfold SsTableIterator.createAndSeekToKey
      rw [hinner]
      rfl
    · intro e he
      rw [hfind, hfj, hgl] at he
      rw [show (some e0).or ((gs.drop (t1 - 1 + 1)).flatten.find?
        (fun e => bytesLeB k e.1)) = some e0 from rfl] at he
      injection he with he
      subst he
      exact ⟨hvalid, hq1, hq2⟩
    · intro hc
      rw [hfind, hfj, hgl] at hc
      rw [show (some e0).or ((gs.drop (t1 - 1 + 1)).flatten.find?
        (fun e => bytesLeB k e.1)) = some e0 from rfl] at hc
      cases hc

/-! ## C6: the four-case landing of `create_and_seek_to_key` -/

/-- C6 (amended): for every SST built by `SsTableBuilder` (block size at most
65535) from a strictly ascending entry sequence whose entries each have a
non-empty key and fit a block (`key_len + value_len + 6 ≤ block_size`), and
for every probe key `k`, `create_and_seek_to_key(k)` succeeds and lands
exactly on the first stored entry with key `≥ k`: on `k` itself when `k` is
present, on the smallest key when `k` is less than all keys, and on the least
key greater than `k` when `k` lies strictly between stored keys; when `k` is
greater than all keys the iterator is invalid (`succEntry es k` is the first
entry of `es` with key `≥ k`, covering the claim's four cases at once).
Without the size hypotheses the claim is false: see the counterexample,
where the probed key is present in the SST but the seek lands invalid. -/
theorem c6_seek_four_cases (bs : Nat) (es : List (List Nat × List Nat))
    (k : List Nat) (sst : SsTable)
    (hbs : bs ≤ 65535) (hne : es ≠ [])
    (hsorted : strictAscending es)
    (hfit : ∀ e ∈ es, e.1 ≠ [] ∧ e.1.length + e.2.length + 6 ≤ bs)
    (hsst : sstOf bs es = Except.ok sst) :
    ∃ it, SsTableIterator.createAndSeekToKey sst k = Except.ok it ∧
      (∀ e, succEntry es k = some e →
        it.isValid = true ∧ it.key = e.1 ∧ it.value = e.2) ∧
      (succEntry es k = none → it.isValid = false) := by
  rw [sstOf_groups bs es hbs hne hfit] at hsst
  injection hsst with hsst
  subst hsst
  obtain ⟨hflat, hgne, hbnd⟩ := packGroups_spec bs es hne
    (fun e he => (hfit e he).2)
  have hpgne : packGroups bs es ≠ [] := by
    unfold packGroups
    simp
  have h1 := sstSeek_spec bs hbs (packGroups bs es) k hpgne hgne hbnd
    (by rw [hflat]; exact hsorted)
    (by rw [hflat]; intro e he; exact (hfit e he).1)
  rw [hflat] at h1
  exact h1

/-! ### The oversized-key counterexample -/

theorem seekTo_out_of_range (it : BlockIterator) (i : Nat)
    (h : i ≥ it.block.offsets.length) : (it.seekTo i).key = [] := by
  unfold BlockIterator.seekTo
  rw [if_pos h]

theorem bigKeyBlock_seekTo0 (it : BlockIterator) (hb : it.block = bigKeyBlock) :
    (it.seekTo 0).key = [] := by
  unfold BlockIterator.seekTo
  rw [if_neg (by
    rw [hb, bigKeyBlock_offsets]
    decide)]
  have hklen : readU16be (it.block.data.drop (it.block.offsets.getD 0 0)) =
      0 := by
    rw [hb, bigKeyBlock_offsets]
    show readU16be (bigKeyBlock.data.drop 0) = 0
    rw [List.drop_zero, bigKeyBlock_data]
    exact readU16be_u16be 0 (by omega) _
  dsimp only
  rw [hklen, List.take_zero]

theorem sstOf_unfold (bs : Nat) (hbs0 : ¬ (bs = 0))
    (es : List (List Nat × List Nat)) :
    sstOf bs es =
      (match es.foldlM (fun b e => SsTableBuilder.add b e.1 e.2)
          ({ meta := [], block_builder := BlockBuilder.new bs, blocks := [], block_size := bs } : SsTableBuilder) with
       | Except.error er => Except.error er
       | Except.ok b => b.build) := by
  unfold sstOf
  rw [show SsTableBuilder.new bs = Except.ok { meta := [], block_builder := BlockBuilder.new bs, blocks := [], block_size := bs } from by
    unfold SsTableBuilder.new
    rw [if_neg hbs0]]

theorem except_bind_ok {α β : Type} (x : α) (f : α → Except RustErr β) :
    (Except.ok x >>= f) = f x := rfl

theorem except_map_ok {α β : Type} (f : α → β) (x : α) :
    (Except.ok x : Except RustErr α).map f = Except.ok (f x) := rfl

theorem sstIsValid_mk (t : SsTable) (bi : BlockIterator) (i : Nat) :
    SsTableIterator.isValid
      { table := t, block_iter := bi, block_idx := i } = bi.isValid := rfl

theorem prodSnd_mk {α β : Type} (a : α) (b : β) : (a, b).2 = b := rfl

theorem ssb_foldlM_nil (b : SsTableBuilder) :
    List.foldlM (fun (b : SsTableBuilder) (e : List Nat × List Nat) =>
      SsTableBuilder.add b e.1 e.2) b
      ([] : List (List Nat × List Nat)) = Except.ok b := rfl

theorem sstOfGroups_bigKey :
    sstOfGroups [[(bigKey, [118])]] = bigSst := by
  have henc1 : encConcat [[(bigKey, [118])]] = Block.encode bigKeyBlock := by
    rw [encConcat_cons]
    show Block.encode bigKeyBlock ++ encConcat [] = _
    rw [show encConcat ([] :
      List (List (List Nat × List Nat))) = ([] : List Nat) from rfl]
    rw [List.append_nil]
  unfold sstOfGroups
  rw [henc1]
  rfl

theorem bigSst_eq : sstOf 1000000 [(bigKey, [118])] = Except.ok bigSst := by
  have hfit1 : (bigKey, ([118] : List Nat)).1.length +
      (bigKey, ([118] : List Nat)).2.length + 6 ≤ 1000000 := by
    have hp1 : (bigKey, ([118] : List Nat)).1 = bigKey := rfl
    have hp2 : (bigKey, ([118] : List Nat)).2 = [118] := rfl
    rw [hp1, hp2, bigKey_length]
    have h118 : ([118] : List Nat).length = 1 := rfl
    rw [h118]
    omega
  have hstep := ssb_addFuel_empty 1000000 1 [] (bigKey, [118])
    bigKey_ne_nil hfit1
  rw [show (1 + 1 : Nat) = 2 from rfl] at hstep
  have hadd : SsTableBuilder.add (ssbStateOf 1000000 ([], []))
      (bigKey, ([118] : List Nat)).1 (bigKey, ([118] : List Nat)).2 =
      Except.ok (ssbStateOf 1000000 ([], [(bigKey, [118])])) := by
    unfold SsTableBuilder.add
    exact hstep
  rw [sstOf_unfold 1000000 (by omega) [(bigKey, [118])]]
  rw [List.foldlM_cons]
  rw [show ({ meta := [], block_builder := BlockBuilder.new 1000000, blocks := [], block_size := 1000000 } : SsTableBuilder) =
      ssbStateOf 1000000 ([], []) from rfl]
  rw [hadd, except_bind_ok, ssb_foldlM_nil]
  show SsTableBuilder.build (ssbStateOf 1000000 ([], [(bigKey, [118])])) = _
  rw [ssb_build_stateOf 1000000 ([], [(bigKey, [118])]) (by simp)]
  refine congrArg Except.ok ?_
  show sstOfGroups [[(bigKey, [118])]] = bigSst
  exact sstOfGroups_bigKey

theorem seekToKeyLoop_succ (f : Nat) (it : BlockIterator) (key : List Nat)
    (left right : Nat) :
    BlockIterator.seekToKeyLoop (f + 1) it key left right =
      if left < right then
        (match bytesCmp (it.seekTo ((left + right) / 2)).key key with
         | .lt => BlockIterator.seekToKeyLoop f
             (it.seekTo ((left + right) / 2)) key
             ((left + right) / 2 + 1) right
         | .eq => it.seekTo ((left + right) / 2)
         | .gt => BlockIterator.seekToKeyLoop f
             (it.seekTo ((left + right) / 2)) key left
             ((left + right) / 2))
      else it.seekTo right := rfl

theorem seekToKeyLoop_step_lt (f : Nat) (it : BlockIterator) (key : List Nat)
    (left right : Nat) (hlr : left < right)
    (hcmp : bytesCmp (it.seekTo ((left + right) / 2)).key key =
      Ordering.lt) :
    BlockIterator.seekToKeyLoop (f + 1) it key left right =
      BlockIterator.seekToKeyLoop f (it.seekTo ((left + right) / 2)) key
        ((left + right) / 2 + 1) right := by
  have h := seekToKeyLoop_succ f it key left right
  rw [if_pos hlr, hcmp] at h
  exact h.trans rfl

theorem seekToKeyLoop_exit (f : Nat) (it : BlockIterator) (key : List Nat)
    (left right : Nat) (h : ¬ left < right) :
    BlockIterator.seekToKeyLoop (f + 1) it key left right =
      it.seekTo right := by
  have h2 := seekToKeyLoop_succ f it key left right
  rw [if_neg h] at h2
  exact h2

theorem bytesCmp_nil_bigKey : bytesCmp [] bigKey = Ordering.lt := by
  cases hbk : bigKey with
  | nil => exact absurd hbk bigKey_ne_nil
  | cons x t => rfl

theorem bigKeyBlock_createSeek_key :
    (BlockIterator.createAndSeekToKey bigKeyBlock bigKey).key = [] := by
  have hb0 : (BlockIterator.createAndSeekToFirst bigKeyBlock).block =
      bigKeyBlock := by
    show ((({ block := bigKeyBlock, key := [], value := [], idx := 0 }) :
      BlockIterator).seekTo 0).block = _
    rw [seekTo_block]
  unfold BlockIterator.createAndSeekToKey BlockIterator.seekToKey
  rw [hb0, bigKeyBlock_offsets]
  rw [show ([0] : List Nat).length = 1 from rfl]
  have hstep := seekToKeyLoop_step_lt 1
    (BlockIterator.createAndSeekToFirst bigKeyBlock) bigKey 0 1
    (by omega)
    (by
      rw [show ((0 : Nat) + 1) / 2 = 0 from rfl]
      rw [bigKeyBlock_seekTo0 (BlockIterator.createAndSeekToFirst
        bigKeyBlock) hb0]
      exact bytesCmp_nil_bigKey)
  rw [show (1 + 1 : Nat) = 2 from rfl] at hstep
  rw [show ((0 : Nat) + 1) / 2 = 0 from rfl] at hstep
  rw [show (0 + 1 : Nat) = 1 from rfl] at hstep
  rw [hstep]
  have hexit := seekToKeyLoop_exit 0
    ((BlockIterator.createAndSeekToFirst bigKeyBlock).seekTo 0) bigKey 1 1
    (by omega)
  rw [show (0 + 1 : Nat) = 1 from rfl] at hexit
  rw [hexit]
  apply seekTo_out_of_range
  rw [seekTo_block, hb0, bigKeyBlock_offsets]
  decide

theorem partitionPointLoop_step_true (p : BlockMeta → Bool)
    (metas : List BlockMeta) (f left right : Nat) (hlr : left < right)
    (hp : p (metas.getD ((left + right) / 2)
      { offset := 0, first_key := [] }) = true) :
    partitionPointLoop p metas (f + 1) left right =
      partitionPointLoop p metas f ((left + right) / 2 + 1) right := by
  have h := partitionPointLoop_succ p metas f left right
  rw [if_pos hlr, if_pos hp] at h
  exact h

theorem partitionPointLoop_exit (p : BlockMeta → Bool)
    (metas : List BlockMeta) (f left right : Nat) (h : ¬ left < right) :
    partitionPointLoop p metas (f + 1) left right = left := by
  have h2 := partitionPointLoop_succ p metas f left right
  rw [if_neg h] at h2
  exact h2

theorem bigSst_findBlockIdx : bigSst.findBlockIdx bigKey = 0 := by
  unfold SsTable.findBlockIdx partitionPoint
  rw [show bigSst.block_metas =
    [{ offset := 0, first_key := bigKey }] from rfl]
  rw [show ([{ offset := 0, first_key := bigKey }] :
    List BlockMeta).length = 1 from rfl]
  have hstep := partitionPointLoop_step_true
    (fun m => bytesLeB m.first_key bigKey)
    [{ offset := 0, first_key := bigKey }] 1 0 1 (by omega)
    (by
      rw [show (([{ offset := 0, first_key := bigKey }] :
        List BlockMeta).getD ((0 + 1) / 2) { offset := 0, first_key := [] })
        = { offset := 0, first_key := bigKey } from rfl]
      exact bytesLeB_refl bigKey)
  rw [show (1 + 1 : Nat) = 2 from rfl] at hstep
  rw [show ((0 : Nat) + 1) / 2 = 0 from rfl] at hstep
  rw [show (0 + 1 : Nat) = 1 from rfl] at hstep
  rw [hstep]
  have hexit := partitionPointLoop_exit
    (fun m => bytesLeB m.first_key bigKey)
    [{ offset := 0, first_key := bigKey }] 0 1 1 (by omega)
  rw [show (0 + 1 : Nat) = 1 from rfl] at hexit
  rw [hexit]

theorem readBlock_of_get? (t : SsTable) (i : Nat) (m : BlockMeta)
    (h : t.block_metas.get? i = some m) :
    t.readBlock i = Except.ok (Block.decode ((t.file.drop m.offset).take
      ((((t.block_metas.get? (i + 1)).map BlockMeta.offset).getD
        t.block_meta_offset) - m.offset))) := by
  unfold SsTable.readBlock
  rw [h]

theorem bigSst_readBlock : bigSst.readBlock 0 = Except.ok bigKeyBlock := by
  rw [← sstOfGroups_bigKey]
  have h := readBlock_groups_gen [[(bigKey, [118])]] 0 [(bigKey, [118])] rfl
    (by
      rw [entryOffsetsFrom_length]
      decide)
    (by
      intro o hmem
      rw [show entryOffsetsFrom 0 [(bigKey, [118])] = [0] from rfl] at hmem
      rcases List.mem_singleton.mp hmem with rfl
      omega)
  exact h

theorem seekToKeyInner_no_fallthrough (table : SsTable) (key : List Nat)
    (blk : Block)
    (hrb : table.readBlock (table.findBlockIdx key) = Except.ok blk)
    (hcond : ¬ (¬ ((BlockIterator.createAndSeekToKey blk key).isValid =
        true) ∧ table.findBlockIdx key + 1 < table.numOfBlocks)) :
    SsTableIterator.seekToKeyInner table key =
      Except.ok (table.findBlockIdx key,
        BlockIterator.createAndSeekToKey blk key) := by
  rw [seekToKeyInner_eq, hrb]
  show (if ¬ ((BlockIterator.createAndSeekToKey blk key).isValid = true) ∧
      table.findBlockIdx key + 1 < table.numOfBlocks then
    (table.readBlock (table.findBlockIdx key + 1)).map fun blk2 =>
      (table.findBlockIdx key + 1, BlockIterator.createAndSeekToFirst blk2)
  else Except.ok (table.findBlockIdx key,
    BlockIterator.createAndSeekToKey blk key)) = _
  rw [if_neg hcond]

theorem bigSst_seek_invalid :
    (SsTableIterator.createAndSeekToKey bigSst bigKey).map
      SsTableIterator.isValid = Except.ok false := by
  have hinvalid : (BlockIterator.createAndSeekToKey bigKeyBlock
      bigKey).isValid = false := by
    show decide (¬ (BlockIterator.createAndSeekToKey bigKeyBlock
      bigKey).key = []) = false
    rw [bigKeyBlock_createSeek_key]
    simp
  have hinner := seekToKeyInner_no_fallthrough bigSst bigKey bigKeyBlock
    (by
      rw [bigSst_findBlockIdx]
      exact bigSst_readBlock)
    (by
      rw [bigSst_findBlockIdx]
      intro hc
      rw [show bigSst.numOfBlocks = 1 from rfl] at hc
      exact absurd hc.2 (by omega))
  rw [bigSst_findBlockIdx] at hinner
  unfold SsTableIterator.createAndSeekToKey
  rw [hinner, except_map_ok, except_map_ok]
  simp only [sstIsValid_mk, prodSnd_mk]
  rw [hinvalid]

/-- C6 counterexample: the SST built from the single entry
`(bigKey, "v")` (a 65536-byte key, block size 1000000) holds `bigKey`, the
key sequence is strictly ascending, yet `create_and_seek_to_key(bigKey)`
leaves the iterator invalid instead of landing on the present key: the
`u16` cast truncates the stored key length to zero. -/
theorem c6_counterexample :
    sstOf 1000000 [(bigKey, [118])] = Except.ok bigSst ∧
    (SsTableIterator.createAndSeekToKey bigSst bigKey).map
      SsTableIterator.isValid = Except.ok false ∧
    (bigKey, [118]) ∈ [(bigKey, [118])] ∧
    strictAscending [(bigKey, [118])] := by
  refine ⟨bigSst_eq, bigSst_seek_invalid, List.mem_cons_self _ _, ?_⟩
  unfold strictAscending
  exact List.pairwise_singleton _ _

/-- C6 witness: a two-entry SST (keys `"a"`, `"c"`) probed at `"b"` lands on
the least key greater than the probe, `"c"`. -/
theorem c6_witness :
    ∃ it, SsTableIterator.createAndSeekToKey
        (sstOfGroups (packGroups 4096 [([97], [49]), ([99], [50])])) [98] =
        Except.ok it ∧
      (∀ e, succEntry [([97], [49]), ([99], [50])] [98] = some e →
        it.isValid = true ∧ it.key = e.1 ∧ it.value = e.2) ∧
      (succEntry [([97], [49]), ([99], [50])] [98] = none →
        it.isValid = false) :=
  c6_seek_four_cases 4096 [([97], [49]), ([99], [50])] [98]
    (sstOfGroups (packGroups 4096 [([97], [49]), ([99], [50])]))
    (by omega) (by decide) (by decide) (by decide) (by rfl)
/-! ## C5: delete visibility -/

theorem mtPut_lt {k k' : List Nat} (h : bytesCmp k k' = Ordering.lt)
    (v v' : List Nat) (rest : Memtable) :
    mtPut ((k', v') :: rest) k v = (k, v) :: (k', v') :: rest := by
  unfold mtPut
  rw [h]

theorem mtPut_eq {k k' : List Nat} (h : bytesCmp k k' = Ordering.eq)
    (v v' : List Nat) (rest : Memtable) :
    mtPut ((k', v') :: rest) k v = (k, v) :: rest := by
  unfold mtPut
  rw [h]

theorem mtPut_gt {k k' : List Nat} (h : bytesCmp k k' = Ordering.gt)
    (v v' : List Nat) (rest : Memtable) :
    mtPut ((k', v') :: rest) k v = (k', v') :: mtPut rest k v := by
  conv_lhs => unfold mtPut
  rw [h]

theorem mtGet_mtPut (m : Memtable) (k v : List Nat) :
    mtGet (mtPut m k v) k = some v := by
  induction m with
  | nil => simp [mtPut, mtGet]
  | cons e rest ih =>
    obtain ⟨k', v'⟩ := e
    cases h : bytesCmp k k' with
    | lt => rw [mtPut_lt h]; simp [mtGet]
    | eq => rw [mtPut_eq h]; simp [mtGet]
    | gt =>
      have hne : k ≠ k' := by
        intro hc
        rw [hc, bytesCmp_refl] at h
        cases h
      rw [mtPut_gt h]
      unfold mtGet
      rw [if_neg hne]
      exact ih

theorem mtPut_ne_nil (m : Memtable) (k v : List Nat) : mtPut m k v ≠ [] := by
  cases m with
  | nil => simp [mtPut]
  | cons e rest =>
    obtain ⟨k', v'⟩ := e
    cases h : bytesCmp k k' with
    | lt => rw [mtPut_lt h]; simp
    | eq => rw [mtPut_eq h]; simp
    | gt => rw [mtPut_gt h]; simp

theorem mtPut_subset (m : Memtable) (k v : List Nat) :
    ∀ e ∈ mtPut m k v, e = (k, v) ∨ e ∈ m := by
  induction m with
  | nil =>
    intro e he
    simp [mtPut] at he
    exact Or.inl he
  | cons p rest ih =>
    obtain ⟨k', v'⟩ := p
    intro e he
    cases h : bytesCmp k k' with
    | lt =>
      rw [mtPut_lt h] at he
      rcases List.mem_cons.mp he with rfl | he2
      · exact Or.inl rfl
      · exact Or.inr he2
    | eq =>
      rw [mtPut_eq h] at he
      rcases List.mem_cons.mp he with rfl | he2
      · exact Or.inl rfl
      · exact Or.inr (List.mem_cons_of_mem _ he2)
    | gt =>
      rw [mtPut_gt h] at he
      rcases List.mem_cons.mp he with rfl | he2
      · exact Or.inr (List.mem_cons_self _ _)
      · rcases ih e he2 with h1 | h1
        · exact Or.inl h1
        · exact Or.inr (List.mem_cons_of_mem _ h1)

theorem mtPut_sorted (m : Memtable) (k v : List Nat) :
    strictAscending m → strictAscending (mtPut m k v) := by
  unfold strictAscending
  induction m with
  | nil =>
    intro _
    unfold mtPut
    exact List.pairwise_singleton _ _
  | cons p rest ih =>
    obtain ⟨k', v'⟩ := p
    intro hs
    rw [List.pairwise_cons] at hs
    obtain ⟨hhead, htail⟩ := hs
    cases h : bytesCmp k k' with
    | lt =>
      rw [mtPut_lt h, List.pairwise_cons]
      refine ⟨?_, ?_⟩
      · intro b hb
        rcases List.mem_cons.mp hb with rfl | hb2
        · exact h
        · exact bytesCmp_lt_trans _ _ _ h (hhead b hb2)
      · rw [List.pairwise_cons]
        exact ⟨hhead, htail⟩
    | eq =>
      have hkk : k = k' := (bytesCmp_eq_iff k k').mp h
      rw [mtPut_eq h, List.pairwise_cons]
      refine ⟨?_, htail⟩
      intro b hb
      show bytesLtP k b.1
      rw [hkk]
      exact hhead b hb
    | gt =>
      have hk'k : bytesCmp k' k = Ordering.lt := by
        rw [bytesCmp_swap k k', h]
        rfl
      rw [mtPut_gt h, List.pairwise_cons]
      refine ⟨?_, ih htail⟩
      intro b hb
      rcases mtPut_subset rest k v b hb with rfl | hb2
      · exact hk'k
      · exact hhead b hb2

theorem succEntry_self (es : List (List Nat × List Nat)) (k v : List Nat)
    (hs : strictAscending es) (hmem : (k, v) ∈ es) :
    succEntry es k = some (k, v) := by
  induction es with
  | nil => cases hmem
  | cons e rest ih =>
    unfold strictAscending at hs
    rw [List.pairwise_cons] at hs
    obtain ⟨hhead, htail⟩ := hs
    rcases List.mem_cons.mp hmem with heq | hmem2
    · subst heq
      show ((k, v) :: rest).find? (fun e => bytesLeB k e.1) = some (k, v)
      exact List.find?_cons_of_pos rest (bytesLeB_refl k)
    · have hlt : bytesLtP e.1 k := hhead (k, v) hmem2
      have hfalse : bytesLeB k e.1 = false :=
        (bytesLeB_false_iff k e.1).mpr hlt
      show (e :: rest).find? (fun e => bytesLeB k e.1) = some (k, v)
      rw [List.find?_cons_of_neg _ (by
        rw [hfalse]
        exact Bool.false_ne_true)]
      exact ih htail hmem2

theorem get_memtable_hit (s : LsmStorageInner) (k v : List Nat)
    (h : mtGet s.memtable k = some v) :
    LsmStorage.get s k = Except.ok (if v = [] then none else some v) := by
  unfold LsmStorage.get
  rw [h]

theorem get_l0_path (s : LsmStorageInner) (k : List Nat)
    (hmt : mtGet s.memtable k = none)
    (himm : s.imm_memtables = []) :
    LsmStorage.get s k = getL0 s.l0_sstables.reverse k := by
  unfold LsmStorage.get
  rw [hmt, himm]
  rfl

theorem getL0_cons_tombstone (sst : SsTable) (rest : List SsTable)
    (k : List Nat) (it : SsTableIterator)
    (hseek : SsTableIterator.createAndSeekToKey sst k = Except.ok it)
    (hval : it.isValid = true) (hkey : it.key = k) (hv : it.value = []) :
    getL0 (sst :: rest) k = Except.ok none := by
  unfold getL0
  rw [hseek]
  show (if it.isValid = true then
      if it.key = k then
        if it.value = [] then Except.ok none else Except.ok (some it.value)
      else getL0 rest k
    else Except.ok none) = Except.ok none
  rw [hval, hkey, hv]
  simp

theorem sync_as_sstOf (s : LsmStorageInner) (sst : SsTable)
    (h : sstOf 4096 s.memtable = Except.ok sst) :
    LsmStorage.sync s = Except.ok
      { s with memtable := [],
               l0_sstables := s.l0_sstables ++ [sst],
               next_sst_id := s.next_sst_id + 1 } := by
  have hnew : SsTableBuilder.new 4096 = Except.ok (ssbStateOf 4096 ([], [])) :=
    ssb_new_stateOf 4096 (by decide)
  unfold sstOf at h
  rw [hnew] at h
  have h2 : (match s.memtable.foldlM (fun b e => b.add e.1 e.2)
      (ssbStateOf 4096 ([], [])) with
    | Except.error e => Except.error e
    | Except.ok b => b.build) = Except.ok sst := h
  cases hf : s.memtable.foldlM (fun b e => b.add e.1 e.2)
      (ssbStateOf 4096 ([], [])) with
  | error e =>
    rw [hf] at h2
    have h3 : (Except.error e : Except RustErr SsTable) = Except.ok sst := h2
    exact Except.noConfusion h3
  | ok b =>
    rw [hf] at h2
    have hb : b.build = Except.ok sst := h2
    unfold LsmStorage.sync
    rw [hnew]
    show (match mtFlush s.memtable (ssbStateOf 4096 ([], [])) with
      | Except.error e => Except.error e
      | Except.ok builder =>
        match builder.build with
        | Except.error e => Except.error e
        | Except.ok sst2 =>
          Except.ok { s with
            memtable := []
            l0_sstables := s.l0_sstables ++ [sst2]
            next_sst_id := s.next_sst_id + 1 }) = _
    have hf2 : mtFlush s.memtable (ssbStateOf 4096 ([], [])) = Except.ok b := hf
    rw [hf2]
    show (match b.build with
      | Except.error e => Except.error e
      | Except.ok sst2 =>
        Except.ok { s with
          memtable := []
          l0_sstables := s.l0_sstables ++ [sst2]
          next_sst_id := s.next_sst_id + 1 }) = _
    rw [hb]

/-- C5: delete visibility fails as stated — after `delete(k)` a second
immediate `sync()` flushes an empty memtable, installing a zero-block SST
whose probe makes `get(k)` return an error rather than `None`. -/
theorem c5_counterexample :
    isOkB (applyOps LsmStorageInner.create
      [Op.del [97], Op.sync, Op.sync]) = true ∧
    (applyOps LsmStorageInner.create [Op.del [97], Op.sync, Op.sync]).bind
      (fun s => LsmStorage.get s [97]) =
    Except.error (RustErr.dataErr msgBlockIdxOverflow) := ⟨rfl, rfl⟩

/-- C5 (corrected): from any state with no immutable memtables, a sorted
active memtable of fitting entries, and a non-empty key that fits a flush
block, `delete(k)` succeeds, `get(k)` immediately returns `None`, one
`sync()` succeeds, and `get(k)` still returns `None` afterwards (the flushed
SST is the newest L0 table and holds the tombstone). -/
theorem c5_delete_visibility (s : LsmStorageInner) (k : List Nat)
    (hk : k ≠ [])
    (hklen : k.length + 6 ≤ 4096)
    (himm : s.imm_memtables = [])
    (hsorted : strictAscending s.memtable)
    (hfit : ∀ e ∈ s.memtable, e.1 ≠ [] ∧ e.1.length + e.2.length + 6 ≤ 4096) :
    ∃ s1 s2, LsmStorage.delete s k = Except.ok s1 ∧
      LsmStorage.get s1 k = Except.ok none ∧
      LsmStorage.sync s1 = Except.ok s2 ∧
      LsmStorage.get s2 k = Except.ok none := by
  have hdel : LsmStorage.delete s k =
      Except.ok { s with memtable := mtPut s.memtable k [] } := by
    unfold LsmStorage.delete
    rw [if_neg hk]
  have hsorted' : strictAscending (mtPut s.memtable k []) :=
    mtPut_sorted s.memtable k [] hsorted
  have hfit' : ∀ e ∈ mtPut s.memtable k [],
      e.1 ≠ [] ∧ e.1.length + e.2.length + 6 ≤ 4096 := by
    intro e he
    rcases mtPut_subset s.memtable k [] e he with rfl | he2
    · exact ⟨hk, by simpa using hklen⟩
    · exact hfit e he2
  have hne' : mtPut s.memtable k [] ≠ [] := mtPut_ne_nil s.memtable k []
  have hsst := sstOf_groups 4096 (mtPut s.memtable k []) (by omega) hne' hfit'
  have hsync := sync_as_sstOf { s with memtable := mtPut s.memtable k [] }
    (sstOfGroups (packGroups 4096 (mtPut s.memtable k []))) hsst
  refine ⟨_, _, hdel, ?_, hsync, ?_⟩
  · rw [get_memtable_hit _ k []
      (show mtGet (mtPut s.memtable k []) k = some [] from
        mtGet_mtPut s.memtable k [])]
    rfl
  · refine Eq.trans (get_l0_path _ k ?_ ?_) ?_
    · rfl
    · exact himm
    · obtain ⟨hflat, hgne, hbnd⟩ := packGroups_spec 4096
        (mtPut s.memtable k []) hne' (fun e he => (hfit' e he).2)
      have hpgne : packGroups 4096 (mtPut s.memtable k []) ≠ [] := by
        unfold packGroups
        simp
      obtain ⟨it, hseek, hsome, hnone⟩ := sstSeek_spec 4096 (by omega)
        (packGroups 4096 (mtPut s.memtable k [])) k hpgne hgne hbnd
        (by rw [hflat]; exact hsorted')
        (by rw [hflat]; intro e he; exact (hfit' e he).1)
      rw [hflat] at hsome
      have hsucc : succEntry (mtPut s.memtable k []) k = some (k, []) :=
        succEntry_self _ k [] hsorted' (mem_mtPut s.memtable k [])
      obtain ⟨hval, hkey, hv⟩ := hsome (k, []) hsucc
      show getL0 ((s.l0_sstables ++
        [sstOfGroups (packGroups 4096 (mtPut s.memtable k []))]).reverse) k =
        Except.ok none
      rw [List.reverse_append]
      exact getL0_cons_tombstone _ _ k it hseek hval hkey hv

/-- Witness for C5 at a fresh store and key `[97]`. -/
theorem c5_witness :
    ∃ s1 s2, LsmStorage.delete LsmStorageInner.create [97] = Except.ok s1 ∧
      LsmStorage.get s1 [97] = Except.ok none ∧
      LsmStorage.sync s1 = Except.ok s2 ∧
      LsmStorage.get s2 [97] = Except.ok none :=
  c5_delete_visibility LsmStorageInner.create [97] (by decide) (by decide)
    rfl (by decide) (by decide)

/-! ## C4: MergeIterator proofs -/

theorem mtKey_eq (it : MemTableIterator) :
    StorageIterator.key it = it.item.1 := rfl

theorem wrapperCmp_self (x : Nat × MemTableIterator) :
    wrapperCmp x x = Ordering.eq := by
  unfold wrapperCmp
  rw [bytesCmp_refl]
  rw [show compare x.1 x.1 = Ordering.eq from Nat.compare_eq_eq.mpr rfl]
  rfl

theorem wrapperCmp_gt_iff (x y : Nat × MemTableIterator) :
    wrapperCmp x y = Ordering.gt ↔
      (bytesLtP (StorageIterator.key x.2) (StorageIterator.key y.2) ∨
        (StorageIterator.key x.2 = StorageIterator.key y.2 ∧ x.1 < y.1)) := by
  unfold wrapperCmp
  cases h : bytesCmp (StorageIterator.key x.2) (StorageIterator.key y.2) with
  | lt =>
    constructor
    · intro _
      exact Or.inl h
    · intro _
      rfl
  | eq =>
    have hkey : StorageIterator.key x.2 = StorageIterator.key y.2 :=
      (bytesCmp_eq_iff _ _).mp h
    constructor
    · intro hg
      cases hc : compare x.1 y.1 with
      | lt => exact Or.inr ⟨hkey, Nat.compare_eq_lt.mp hc⟩
      | eq =>
        rw [hc] at hg
        cases hg
      | gt =>
        rw [hc] at hg
        cases hg
    · rintro (hlt | ⟨_, hidx⟩)
      · rw [show bytesLtP (StorageIterator.key x.2)
            (StorageIterator.key y.2) =
          (bytesCmp (StorageIterator.key x.2)
            (StorageIterator.key y.2) = Ordering.lt) from rfl, h] at hlt
        cases hlt
      · rw [Nat.compare_eq_lt.mpr hidx]
        rfl
  | gt =>
    constructor
    · intro hg
      cases hg
    · rintro (hlt | ⟨hkey, _⟩)
      · rw [show bytesLtP (StorageIterator.key x.2)
            (StorageIterator.key y.2) =
          (bytesCmp (StorageIterator.key x.2)
            (StorageIterator.key y.2) = Ordering.lt) from rfl, h] at hlt
        cases hlt
      · rw [(bytesCmp_eq_iff _ _).mpr hkey] at h
        cases h

theorem wrapperCmp_gt_trans {a b c : Nat × MemTableIterator}
    (h1 : wrapperCmp a b = Ordering.gt) (h2 : wrapperCmp b c = Ordering.gt) :
    wrapperCmp a c = Ordering.gt := by
  rw [wrapperCmp_gt_iff] at h1 h2 ⊢
  rcases h1 with h1 | ⟨hk1, hi1⟩
  · rcases h2 with h2 | ⟨hk2, hi2⟩
    · exact Or.inl (bytesCmp_lt_trans _ _ _ h1 h2)
    · rw [hk2] at h1
      exact Or.inl h1
  · rcases h2 with h2 | ⟨hk2, hi2⟩
    · rw [hk1]
      exact Or.inl h2
    · exact Or.inr ⟨hk1.trans hk2, Nat.lt_trans hi1 hi2⟩

theorem heapMaxIdxGo_spec (l : List (Nat × MemTableIterator)) :
    ∀ (ys : List (Nat × MemTableIterator)), ∀ (i bi : Nat),
      ∀ (b : Nat × MemTableIterator),
      l.drop i = ys → bi < i → l.get? bi = some b →
      (∀ p, p < i → ∀ q, l.get? p = some q →
        ¬ wrapperCmp q b = Ordering.gt) →
      ∃ w, l.get? (heapMaxIdxGo bi b i ys) = some w ∧
        (∀ q ∈ l, ¬ wrapperCmp q w = Ordering.gt) := by
  intro ys
  induction ys with
  | nil =>
    intro i bi b hdrop hbi hget hseen
    refine ⟨b, hget, ?_⟩
    intro q hq
    obtain ⟨p, hp⟩ := List.mem_iff_get?.mp hq
    have hplen : p < l.length := by
      by_contra hc
      rw [List.get?_eq_none.mpr (Nat.le_of_not_lt hc)] at hp
      cases hp
    have hlen : l.length ≤ i := by
      have hcg := congrArg List.length hdrop
      rw [List.length_drop] at hcg
      simp at hcg
      omega
    exact hseen p (by omega) q hp
  | cons y ytl ih =>
    intro i bi b hdrop hbi hget hseen
    have hgi : l.get? i = some y := by
      have h0 : (l.drop i).get? 0 = some y := by
        rw [hdrop]
        rfl
      rw [List.get?_drop] at h0
      simpa using h0
    have hdrop2 : l.drop (i + 1) = ytl := by
      have h1 : (l.drop i).drop 1 = ytl := by
        rw [hdrop]
        rfl
      rw [List.drop_drop] at h1
      simpa [Nat.add_comm] using h1
    unfold heapMaxIdxGo
    by_cases hc : wrapperCmp y b = Ordering.gt
    · rw [if_pos hc]
      refine ih (i + 1) i y hdrop2 (by omega) hgi ?_
      intro p hp q hq
      by_cases hpi : p = i
      · subst hpi
        rw [hgi] at hq
        injection hq with hq
        subst hq
        rw [wrapperCmp_self]
        intro hfalse
        cases hfalse
      · intro hqy
        exact hseen p (by omega) q hq (wrapperCmp_gt_trans hqy hc)
    · rw [if_neg hc]
      refine ih (i + 1) bi b hdrop2 (by omega) hget ?_
      intro p hp q hq
      by_cases hpi : p = i
      · subst hpi
        rw [hgi] at hq
        injection hq with hq
        subst hq
        exact hc
      · exact hseen p (by omega) q hq

theorem heapMax_spec (l : List (Nat × MemTableIterator)) (hne : l ≠ []) :
    ∃ j w, heapMaxIdx l = some j ∧ l.get? j = some w ∧
      (∀ q ∈ l, ¬ wrapperCmp q w = Ordering.gt) := by
  cases l with
  | nil => exact absurd rfl hne
  | cons x xs =>
    obtain ⟨w, hw, hmin⟩ := heapMaxIdxGo_spec (x :: xs) xs 1 0 x rfl
      (by omega) rfl (by
        intro p hp q hq
        have hp0 : p = 0 := by omega
        subst hp0
        injection hq with hq
        subst hq
        rw [wrapperCmp_self]
        intro hfalse
        cases hfalse)
    exact ⟨heapMaxIdxGo 0 x 1 xs, w, rfl, hw, hmin⟩

theorem bytesLtP_ne {a b : List Nat} (h : bytesLtP a b) : a ≠ b := by
  intro hc
  subst hc
  rw [show bytesLtP a a = (bytesCmp a a = Ordering.lt) from rfl,
    bytesCmp_refl] at h
  cases h

theorem bytesLt_of_le_of_ne {a b : List Nat} (h1 : bytesLeP a b)
    (h2 : a ≠ b) : bytesLtP a b := by
  rcases (bytesLe_iff a b).mp h1 with h | rfl
  · exact h
  · exact absurd rfl h2

theorem mtNext_ok (it : MemTableIterator) :
    StorageIterator.next it = Except.ok (MemTableIterator.next it) := rfl

theorem mtEntries_next (it : MemTableIterator) (h : it.rest ≠ []) :
    mtEntries (MemTableIterator.next it) = it.rest := by
  unfold mtEntries MemTableIterator.next
  cases hr : it.rest with
  | nil => exact absurd hr h
  | cons x t => rfl

theorem mtNext_valid_true_iff (it : MemTableIterator)
    (hkeys : ∀ e ∈ mtEntries it, e.1 ≠ []) :
    StorageIterator.isValid (MemTableIterator.next it) = true ↔
      it.rest ≠ [] := by
  show decide (¬ (MemTableIterator.next it).item.1 = []) = true ↔ it.rest ≠ []
  rw [decide_eq_true_iff]
  unfold MemTableIterator.next
  cases hr : it.rest with
  | nil =>
    simp
  | cons x t =>
    have hx : x.1 ≠ [] := by
      refine hkeys x ?_
      unfold mtEntries
      rw [hr]
      exact List.mem_cons_of_mem _ (List.mem_cons_self x t)
    simp [hx]

theorem mtNext_key_gt (it : MemTableIterator)
    (hsort : strictAscending (mtEntries it)) (hrest : it.rest ≠ []) :
    bytesLtP it.item.1 (MemTableIterator.next it).item.1 := by
  unfold strictAscending mtEntries at hsort
  rw [List.pairwise_cons] at hsort
  unfold MemTableIterator.next
  cases hr : it.rest with
  | nil => exact absurd hr hrest
  | cons x t =>
    show bytesLtP it.item.1 x.1
    refine hsort.1 x ?_
    rw [hr]
    exact List.mem_cons_self x t

theorem filterMap_set_eq {α β : Type} (f : α → Option β) (l : List α) :
    ∀ (i : Nat) (x y : α), l.get? i = some x → f x = f y →
    (l.set i y).filterMap f = l.filterMap f := by
  induction l with
  | nil =>
    intro i x y hget _
    cases hget
  | cons a t ih =>
    intro i x y hget hf
    cases i with
    | zero =>
      injection hget with hget
      subst hget
      show (y :: t).filterMap f = (a :: t).filterMap f
      rw [List.filterMap_cons, List.filterMap_cons, ← hf]
    | succ i =>
      show (a :: t.set i y).filterMap f = (a :: t).filterMap f
      rw [List.filterMap_cons, List.filterMap_cons,
        ih i x y hget hf]

theorem filterMap_eraseIdx_eq {α β : Type} (f : α → Option β) (l : List α) :
    ∀ (i : Nat) (x : α), l.get? i = some x → f x = none →
    (l.eraseIdx i).filterMap f = l.filterMap f := by
  induction l with
  | nil =>
    intro i x hget _
    cases hget
  | cons a t ih =>
    intro i x hget hf
    cases i with
    | zero =>
      injection hget with hget
      subst hget
      show t.filterMap f = (a :: t).filterMap f
      rw [List.filterMap_cons, hf]
    | succ i =>
      show (a :: t.eraseIdx i).filterMap f = (a :: t).filterMap f
      rw [List.filterMap_cons, List.filterMap_cons, ih i x hget hf]

theorem filterMap_some_id {α : Type} (f : α → Option α) (l : List α)
    (h : ∀ x ∈ l, f x = some x) : l.filterMap f = l := by
  induction l with
  | nil => rfl
  | cons a t ih =>
    rw [List.filterMap_cons, h a (List.mem_cons_self a t),
      ih fun x hx => h x (List.mem_cons_of_mem _ hx)]

theorem totalEntries_set_lt (l : List (Nat × MemTableIterator)) :
    ∀ (i : Nat) (w x : Nat × MemTableIterator), l.get? i = some w →
    (mtEntries x.2).length < (mtEntries w.2).length →
    totalEntries (l.set i x) < totalEntries l := by
  induction l with
  | nil =>
    intro i w x hget _
    cases hget
  | cons a t ih =>
    intro i w x hget hlt
    cases i with
    | zero =>
      injection hget with hget
      subst hget
      show totalEntries (x :: t) < totalEntries (a :: t)
      unfold totalEntries
      rw [List.map_cons, List.map_cons, List.sum_cons, List.sum_cons]
      omega
    | succ i =>
      show totalEntries (a :: t.set i x) < totalEntries (a :: t)
      unfold totalEntries
      rw [List.map_cons, List.map_cons, List.sum_cons, List.sum_cons]
      have := ih i w x hget hlt
      unfold totalEntries at this
      omega

theorem totalEntries_eraseIdx_lt (l : List (Nat × MemTableIterator)) :
    ∀ (i : Nat) (w : Nat × MemTableIterator), l.get? i = some w →
    totalEntries (l.eraseIdx i) < totalEntries l := by
  induction l with
  | nil =>
    intro i w hget
    cases hget
  | cons a t ih =>
    intro i w hget
    cases i with
    | zero =>
      injection hget with hget
      subst hget
      show totalEntries t < totalEntries (a :: t)
      unfold totalEntries
      rw [List.map_cons, List.sum_cons]
      have hlen : 0 < (mtEntries a.2).length := by
        unfold mtEntries
        simp
      omega
    | succ i =>
      show totalEntries (a :: t.eraseIdx i) < totalEntries (a :: t)
      unfold totalEntries
      rw [List.map_cons, List.map_cons, List.sum_cons, List.sum_cons]
      have := ih i w hget
      unfold totalEntries at this
      omega

theorem mergeNextLoop_spec : ∀ (fuel : Nat) (k : List Nat)
    (l : List (Nat × MemTableIterator)),
    heapInv k l → totalEntries l < fuel →
    mergeNextLoop fuel k l = Except.ok (advanceHeap k l) := by
  intro fuel
  induction fuel with
  | zero =>
    intro k l _ hfuel
    omega
  | succ fuel ih =>
    intro k l hinv hfuel
    cases hl : l with
    | nil => rfl
    | cons a t =>
    rw [← hl]
    have hne : l ≠ [] := by
      rw [hl]
      exact List.cons_ne_nil a t
    obtain ⟨j, w, hmax, hget, hmin⟩ := heapMax_spec l hne
    have hwmem : w ∈ l := List.get?_mem hget
    obtain ⟨hkeys, hsort, hge⟩ := hinv w hwmem
    simp only [mergeNextLoop, hmax, hget]
    by_cases hkey : StorageIterator.key w.2 = k
    · rw [if_pos hkey]
      by_cases hval :
          StorageIterator.isValid (MemTableIterator.next w.2) = true
      · rw [if_pos hval]
        have hrest : w.2.rest ≠ [] := (mtNext_valid_true_iff w.2 hkeys).mp hval
        have hkgt : bytesLtP w.2.item.1 (MemTableIterator.next w.2).item.1 :=
          mtNext_key_gt w.2 hsort hrest
        have hkne : StorageIterator.key (MemTableIterator.next w.2) ≠ k := by
          rw [mtKey_eq]
          intro hc
          rw [mtKey_eq] at hkey
          rw [← hkey] at hc
          exact bytesLtP_ne hkgt hc.symm
        have hstep : advStep k w = some (w.1, MemTableIterator.next w.2) := by
          unfold advStep
          rw [if_pos hkey, if_pos hval]
        have hstep2 : advStep k (w.1, MemTableIterator.next w.2) =
            some (w.1, MemTableIterator.next w.2) := by
          unfold advStep
          rw [if_neg hkne]
        have hadv : advanceHeap k (l.set j (w.1, MemTableIterator.next w.2)) =
            advanceHeap k l :=
          filterMap_set_eq (advStep k) l j w _ hget (hstep.trans hstep2.symm)
        have hinv2 : heapInv k (l.set j (w.1, MemTableIterator.next w.2)) := by
          intro q hq
          rcases List.mem_or_eq_of_mem_set hq with hq2 | rfl
          · exact hinv q hq2
          · refine ⟨?_, ?_, ?_⟩
            · intro e he
              rw [mtEntries_next w.2 hrest] at he
              exact hkeys e (List.mem_cons_of_mem _ he)
            · show strictAscending (mtEntries (MemTableIterator.next w.2))
              rw [mtEntries_next w.2 hrest]
              unfold strictAscending mtEntries at hsort
              exact (List.pairwise_cons.mp hsort).2
            · show bytesLeP k (MemTableIterator.next w.2).item.1
              rw [mtKey_eq] at hkey
              rw [← hkey]
              exact bytesLe_of_lt hkgt
        have hterm : totalEntries (l.set j (w.1, MemTableIterator.next w.2)) <
            totalEntries l := by
          refine totalEntries_set_lt l j w _ hget ?_
          show (mtEntries (MemTableIterator.next w.2)).length <
            (mtEntries w.2).length
          rw [mtEntries_next w.2 hrest]
          unfold mtEntries
          simp
        rw [ih k _ hinv2 (by omega), hadv]
      · rw [if_neg hval]
        have hstep : advStep k w = none := by
          unfold advStep
          rw [if_pos hkey, if_neg hval]
        have hadv : advanceHeap k (l.eraseIdx j) = advanceHeap k l :=
          filterMap_eraseIdx_eq (advStep k) l j w hget hstep
        have hinv2 : heapInv k (l.eraseIdx j) := fun q hq =>
          hinv q (List.mem_of_mem_eraseIdx hq)
        have hterm : totalEntries (l.eraseIdx j) < totalEntries l :=
          totalEntries_eraseIdx_lt l j w hget
        rw [ih k _ hinv2 (by omega), hadv]
    · rw [if_neg hkey]
      have hnohit : ∀ q ∈ l, StorageIterator.key q.2 ≠ k := by
        intro q hq hc
        obtain ⟨hkq, hsq, hgq⟩ := hinv q hq
        have hqlt : bytesLtP (StorageIterator.key q.2)
            (StorageIterator.key w.2) := by
          refine bytesLt_of_le_of_ne ?_ ?_
          · rw [hc, mtKey_eq]
            exact hge
          · rw [hc]
            intro hc2
            exact hkey hc2.symm
        exact hmin q hq ((wrapperCmp_gt_iff q w).mpr (Or.inl hqlt))
      have hid : advanceHeap k l = l := by
        refine filterMap_some_id (advStep k) l ?_
        intro q hq
        unfold advStep
        rw [if_neg (hnohit q hq)]
      rw [hid]

theorem insert_lt {k k' : List Nat} (h : bytesCmp k k' = Ordering.lt)
    (rest : List (List Nat)) :
    insertKeySorted k (k' :: rest) = k :: k' :: rest := by
  unfold insertKeySorted
  rw [h]

theorem insert_eq {k k' : List Nat} (h : bytesCmp k k' = Ordering.eq)
    (rest : List (List Nat)) :
    insertKeySorted k (k' :: rest) = k' :: rest := by
  unfold insertKeySorted
  rw [h]

theorem insert_gt {k k' : List Nat} (h : bytesCmp k k' = Ordering.gt)
    (rest : List (List Nat)) :
    insertKeySorted k (k' :: rest) = k' :: insertKeySorted k rest := by
  conv_lhs => unfold insertKeySorted
  rw [h]

theorem mem_insertKeySorted (k : List Nat) :
    ∀ (l : List (List Nat)) (x : List Nat),
    x ∈ insertKeySorted k l ↔ x = k ∨ x ∈ l := by
  intro l
  induction l with
  | nil =>
    intro x
    simp [insertKeySorted]
  | cons k' rest ih =>
    intro x
    cases h : bytesCmp k k' with
    | lt =>
      rw [insert_lt h]
      simp [List.mem_cons]
    | eq =>
      have hkk : k = k' := (bytesCmp_eq_iff k k').mp h
      rw [insert_eq h]
      subst hkk
      simp [List.mem_cons]
    | gt =>
      rw [insert_gt h]
      rw [List.mem_cons, List.mem_cons, ih x]
      tauto

theorem insertKeySorted_sorted (k : List Nat) :
    ∀ (l : List (List Nat)), l.Pairwise bytesLtP →
    (insertKeySorted k l).Pairwise bytesLtP := by
  intro l
  induction l with
  | nil =>
    intro _
    unfold insertKeySorted
    exact List.pairwise_singleton _ _
  | cons k' rest ih =>
    intro hs
    rw [List.pairwise_cons] at hs
    obtain ⟨hhead, htail⟩ := hs
    cases h : bytesCmp k k' with
    | lt =>
      rw [insert_lt h, List.pairwise_cons]
      refine ⟨?_, ?_⟩
      · intro b hb
        rcases List.mem_cons.mp hb with rfl | hb2
        · exact h
        · exact bytesCmp_lt_trans _ _ _ h (hhead b hb2)
      · rw [List.pairwise_cons]
        exact ⟨hhead, htail⟩
    | eq =>
      rw [insert_eq h, List.pairwise_cons]
      exact ⟨hhead, htail⟩
    | gt =>
      have hk'k : bytesCmp k' k = Ordering.lt := by
        rw [bytesCmp_swap k k', h]
        rfl
      rw [insert_gt h, List.pairwise_cons]
      refine ⟨?_, ih htail⟩
      intro b hb
      rcases (mem_insertKeySorted k rest b).mp hb with rfl | hb2
      · exact hk'k
      · exact hhead b hb2

theorem foldr_insert_sorted (ks : List (List Nat)) :
    (ks.foldr insertKeySorted []).Pairwise bytesLtP := by
  induction ks with
  | nil => exact List.Pairwise.nil
  | cons k t ih => exact insertKeySorted_sorted k _ ih

theorem mem_foldr_insert (ks : List (List Nat)) (x : List Nat) :
    x ∈ ks.foldr insertKeySorted [] ↔ x ∈ ks := by
  induction ks with
  | nil => simp
  | cons k t ih =>
    show x ∈ insertKeySorted k (t.foldr insertKeySorted []) ↔ x ∈ k :: t
    rw [mem_insertKeySorted, ih, List.mem_cons]

theorem sortedKeyUnion_sorted (xss : List (List (List Nat × List Nat))) :
    (sortedKeyUnion xss).Pairwise bytesLtP :=
  foldr_insert_sorted _

theorem mem_sortedKeyUnion (xss : List (List (List Nat × List Nat)))
    (x : List Nat) :
    x ∈ sortedKeyUnion xss ↔ ∃ xs ∈ xss, ∃ e ∈ xs, e.1 = x := by
  unfold sortedKeyUnion
  rw [mem_foldr_insert]
  simp [List.mem_flatMap, List.mem_map]

theorem bytesLe_antisymm {a b : List Nat} (h1 : bytesLeP a b)
    (h2 : bytesLeP b a) : a = b := by
  rcases (bytesLe_iff a b).mp h1 with h1' | rfl
  · rcases (bytesLe_iff b a).mp h2 with h2' | rfl
    · exact absurd (bytesCmp_lt_trans a b a h1' h2') (by
        rw [show (bytesCmp a a = Ordering.lt) = bytesLtP a a from rfl]
        intro hc
        exact bytesLtP_ne hc rfl)
    · rfl
  · rfl

theorem sorted_nodup_ext (l1 l2 : List (List Nat))
    (h1 : l1.Pairwise bytesLtP) (h2 : l2.Pairwise bytesLtP)
    (hm : ∀ x, x ∈ l1 ↔ x ∈ l2) : l1 = l2 := by
  haveI : IsAntisymm (List Nat) bytesLtP :=
    ⟨fun a b hab hba => absurd (bytesCmp_lt_trans a b a hab hba) (by
      intro hc
      exact bytesLtP_ne hc rfl)⟩
  have hnd1 : l1.Nodup := List.Pairwise.imp (fun h => bytesLtP_ne h) h1
  have hnd2 : l2.Nodup := List.Pairwise.imp (fun h => bytesLtP_ne h) h2
  exact List.eq_of_perm_of_sorted
    ((List.perm_ext_iff_of_nodup hnd1 hnd2).mpr hm) h1 h2

theorem heapLists_cons (q : Nat × MemTableIterator)
    (t : List (Nat × MemTableIterator)) :
    heapLists (q :: t) = mtEntries q.2 :: heapLists t := rfl

theorem advStep_hit_live (k : List Nat) (q : Nat × MemTableIterator)
    (h1 : StorageIterator.key q.2 = k)
    (h2 : StorageIterator.isValid (MemTableIterator.next q.2) = true) :
    advStep k q = some (q.1, MemTableIterator.next q.2) := by
  unfold advStep
  rw [if_pos h1, if_pos h2]

theorem advStep_hit_dead (k : List Nat) (q : Nat × MemTableIterator)
    (h1 : StorageIterator.key q.2 = k)
    (h2 : ¬ StorageIterator.isValid (MemTableIterator.next q.2) = true) :
    advStep k q = none := by
  unfold advStep
  rw [if_pos h1, if_neg h2]

theorem advStep_miss (k : List Nat) (q : Nat × MemTableIterator)
    (h1 : ¬ StorageIterator.key q.2 = k) :
    advStep k q = some q := by
  unfold advStep
  rw [if_neg h1]

theorem advanceHeap_cons_some (k : List Nat) (q q' : Nat × MemTableIterator)
    (t : List (Nat × MemTableIterator)) (h : advStep k q = some q') :
    advanceHeap k (q :: t) = q' :: advanceHeap k t := by
  unfold advanceHeap
  rw [List.filterMap_cons, h]

theorem advanceHeap_cons_none (k : List Nat) (q : Nat × MemTableIterator)
    (t : List (Nat × MemTableIterator)) (h : advStep k q = none) :
    advanceHeap k (q :: t) = advanceHeap k t := by
  unfold advanceHeap
  rw [List.filterMap_cons, h]

theorem firstValueFor_cons_some (xs : List (List Nat × List Nat))
    (xss : List (List (List Nat × List Nat))) (k : List Nat)
    (e : List Nat × List Nat) (h : xs.find? (fun e => e.1 = k) = some e) :
    firstValueFor (xs :: xss) k = some e.2 := by
  conv_lhs => unfold firstValueFor
  rw [h]

theorem firstValueFor_cons_none (xs : List (List Nat × List Nat))
    (xss : List (List (List Nat × List Nat))) (k : List Nat)
    (h : xs.find? (fun e => e.1 = k) = none) :
    firstValueFor (xs :: xss) k = firstValueFor xss k := by
  conv_lhs => unfold firstValueFor
  rw [h]

theorem firstValueFor_advance (k x : List Nat) (hx : x ≠ k) :
    ∀ (l : List (Nat × MemTableIterator)),
    (∀ w ∈ l, ∀ e ∈ mtEntries w.2, e.1 ≠ []) →
    firstValueFor (heapLists (advanceHeap k l)) x =
      firstValueFor (heapLists l) x := by
  intro l
  induction l with
  | nil =>
    intro _
    rfl
  | cons q t ih =>
    intro hwf
    have hq := hwf q (List.mem_cons_self q t)
    have ht : ∀ w ∈ t, ∀ e ∈ mtEntries w.2, e.1 ≠ [] :=
      fun w hw => hwf w (List.mem_cons_of_mem _ hw)
    by_cases hkey : StorageIterator.key q.2 = k
    · have hfalse : decide (q.2.item.1 = x) = false := by
        rw [decide_eq_false_iff_not]
        intro hc
        rw [mtKey_eq] at hkey
        rw [hc] at hkey
        exact hx hkey
      by_cases hval : StorageIterator.isValid (MemTableIterator.next q.2) = true
      · rw [advanceHeap_cons_some k q _ t (advStep_hit_live k q hkey hval),
          heapLists_cons, heapLists_cons]
        have hrest : q.2.rest ≠ [] := (mtNext_valid_true_iff q.2 hq).mp hval
        rw [show (q.1, MemTableIterator.next q.2).2 =
          MemTableIterator.next q.2 from rfl, mtEntries_next q.2 hrest]
        cases hf : q.2.rest.find? (fun e => e.1 = x) with
        | some e =>
          rw [firstValueFor_cons_some _ _ _ e hf,
            firstValueFor_cons_some _ _ _ e (by
              show (q.2.item :: q.2.rest).find? (fun e => e.1 = x) = some e
              rw [List.find?_cons, hfalse]
              exact hf)]
        | none =>
          rw [firstValueFor_cons_none _ _ _ hf,
            firstValueFor_cons_none _ _ _ (by
              show (q.2.item :: q.2.rest).find? (fun e => e.1 = x) = none
              rw [List.find?_cons, hfalse]
              exact hf), ih ht]
      · rw [advanceHeap_cons_none k q t (advStep_hit_dead k q hkey hval),
          heapLists_cons]
        have hrest0 : q.2.rest = [] := by
          by_contra hc
          exact hval ((mtNext_valid_true_iff q.2 hq).mpr hc)
        rw [firstValueFor_cons_none _ _ _ (by
          show (q.2.item :: q.2.rest).find? (fun e => e.1 = x) = none
          rw [List.find?_cons, hfalse, hrest0]
          rfl), ih ht]
    · rw [advanceHeap_cons_some k q q t (advStep_miss k q hkey),
        heapLists_cons, heapLists_cons]
      cases hf : (mtEntries q.2).find? (fun e => e.1 = x) with
      | some e =>
        rw [firstValueFor_cons_some _ _ _ e hf,
          firstValueFor_cons_some _ _ _ e hf]
      | none =>
        rw [firstValueFor_cons_none _ _ _ hf,
          firstValueFor_cons_none _ _ _ hf, ih ht]

theorem firstValueFor_at (x : List Nat) :
    ∀ (l : List (Nat × MemTableIterator)) (j : Nat)
      (w : Nat × MemTableIterator),
    l.get? j = some w → w.2.item.1 = x →
    (∀ p, p < j → ∀ q, l.get? p = some q →
      ∀ e ∈ mtEntries q.2, e.1 ≠ x) →
    firstValueFor (heapLists l) x = some w.2.item.2 := by
  intro l
  induction l with
  | nil =>
    intro j w hget
    cases hget
  | cons a t ih =>
    intro j w hget hkey hpre
    cases j with
    | zero =>
      injection hget with hget
      subst hget
      rw [heapLists_cons]
      refine firstValueFor_cons_some _ _ _ a.2.item ?_
      show (a.2.item :: a.2.rest).find? (fun e => e.1 = x) = some a.2.item
      refine List.find?_cons_of_pos _ ?_
      show decide (a.2.item.1 = x) = true
      rw [hkey]
      simp
    | succ j =>
      rw [heapLists_cons]
      have h0 := hpre 0 (by omega) a rfl
      have hnone : (mtEntries a.2).find? (fun e => e.1 = x) = none := by
        rw [List.find?_eq_none]
        intro e he
        simp only [decide_eq_true_iff]
        exact h0 e he
      rw [firstValueFor_cons_none _ _ _ hnone]
      exact ih j w hget hkey (fun p hp q hq => hpre (p + 1) (by omega) q hq)

theorem advance_keys_gt (k : List Nat) (l : List (Nat × MemTableIterator))
    (hinv : heapInv k l) :
    ∀ q' ∈ advanceHeap k l, ∀ e ∈ mtEntries q'.2, bytesLtP k e.1 := by
  intro q' hq' e he
  obtain ⟨q, hq, hstep⟩ := List.mem_filterMap.mp hq'
  obtain ⟨hkeys, hsort, hge⟩ := hinv q hq
  by_cases hkey : StorageIterator.key q.2 = k
  · by_cases hval : StorageIterator.isValid (MemTableIterator.next q.2) = true
    · rw [advStep_hit_live k q hkey hval] at hstep
      injection hstep with hstep
      subst hstep
      have hrest : q.2.rest ≠ [] := (mtNext_valid_true_iff q.2 hkeys).mp hval
      rw [show (q.1, MemTableIterator.next q.2).2 =
        MemTableIterator.next q.2 from rfl,
        mtEntries_next q.2 hrest] at he
      have hlt : bytesLtP q.2.item.1 e.1 := by
        unfold strictAscending mtEntries at hsort
        rw [List.pairwise_cons] at hsort
        exact hsort.1 e he
      rw [mtKey_eq] at hkey
      rw [← hkey]
      exact hlt
    · rw [advStep_hit_dead k q hkey hval] at hstep
      cases hstep
  · rw [advStep_miss k q hkey] at hstep
    injection hstep with hstep
    subst hstep
    have hhead_gt : bytesLtP k q.2.item.1 := by
      refine bytesLt_of_le_of_ne hge ?_
      intro hc
      rw [mtKey_eq] at hkey
      exact hkey hc.symm
    have he2 : e ∈ q.2.item :: q.2.rest := he
    rcases List.mem_cons.mp he2 with rfl | he3
    · exact hhead_gt
    · have hlt : bytesLtP q.2.item.1 e.1 := by
        unfold strictAscending mtEntries at hsort
        rw [List.pairwise_cons] at hsort
        exact hsort.1 e he3
      exact bytesCmp_lt_trans _ _ _ hhead_gt hlt

theorem mtNext_valid_rest_ne (it : MemTableIterator)
    (h : StorageIterator.isValid (MemTableIterator.next it) = true) :
    it.rest ≠ [] := by
  intro hc
  rw [show StorageIterator.isValid (MemTableIterator.next it) =
    decide (¬ (MemTableIterator.next it).item.1 = []) from rfl] at h
  rw [decide_eq_true_iff] at h
  apply h
  show (it.rest.headD ([], [])).1 = []
  rw [hc]
  rfl

theorem no_k_before_max (k : List Nat) (l : List (Nat × MemTableIterator))
    (j : Nat) (w : Nat × MemTableIterator)
    (hidx : (l.map Prod.fst).Pairwise (fun a b => a < b))
    (hinv : heapInv k l)
    (hget : l.get? j = some w)
    (hmin : ∀ q ∈ l, ¬ wrapperCmp q w = Ordering.gt)
    (hkeyw : w.2.item.1 = k) :
    ∀ p, p < j → ∀ q, l.get? p = some q →
      ∀ e ∈ mtEntries q.2, e.1 ≠ k := by
  intro p hp q hq e he hek
  have hqmem : q ∈ l := List.get?_mem hq
  obtain ⟨hkq, hsq, hgq⟩ := hinv q hqmem
  have hheadk : q.2.item.1 = k := by
    have he2 : e ∈ q.2.item :: q.2.rest := he
    rcases List.mem_cons.mp he2 with rfl | he3
    · exact hek
    · exfalso
      have hlt : bytesLtP q.2.item.1 e.1 := by
        unfold strictAscending mtEntries at hsq
        rw [List.pairwise_cons] at hsq
        exact hsq.1 e he3
      have hkk : bytesLtP k e.1 := bytesLt_of_le_of_lt hgq hlt
      rw [hek] at hkk
      exact bytesLtP_ne hkk rfl
  have hpl : p < l.length := by
    by_contra hc
    rw [List.get?_eq_none.mpr (Nat.le_of_not_lt hc)] at hq
    cases hq
  have hjl : j < l.length := by
    by_contra hc
    rw [List.get?_eq_none.mpr (Nat.le_of_not_lt hc)] at hget
    cases hget
  have hidx' : l.Pairwise (fun a b => a.1 < b.1) := List.pairwise_map.mp hidx
  rw [List.pairwise_iff_get] at hidx'
  have hqg : l.get ⟨p, hpl⟩ = q := by
    have hgg := List.get?_eq_get hpl
    rw [hgg] at hq
    exact Option.some.inj hq
  have hwg : l.get ⟨j, hjl⟩ = w := by
    have hgg := List.get?_eq_get hjl
    rw [hgg] at hget
    exact Option.some.inj hget
  have hlt2 := hidx' ⟨p, hpl⟩ ⟨j, hjl⟩ hp
  rw [hqg, hwg] at hlt2
  have hcmp : wrapperCmp q w = Ordering.gt := (wrapperCmp_gt_iff q w).mpr
    (Or.inr ⟨by rw [mtKey_eq, mtKey_eq, hheadk, hkeyw], hlt2⟩)
  exact hmin q hqmem hcmp

theorem union_mem_step (k : List Nat) (l : List (Nat × MemTableIterator))
    (j : Nat) (w : Nat × MemTableIterator)
    (hinv : heapInv k l) (hget : l.get? j = some w)
    (hkeyw : w.2.item.1 = k) :
    ∀ x, x ∈ sortedKeyUnion (heapLists l) ↔
      x = k ∨ x ∈ sortedKeyUnion (heapLists (advanceHeap k l)) := by
  intro x
  rw [mem_sortedKeyUnion, mem_sortedKeyUnion]
  constructor
  · rintro ⟨ys, hys, e, he, hex⟩
    obtain ⟨q, hq, hysq⟩ := List.mem_map.mp hys
    subst hysq
    by_cases hxk : x = k
    · exact Or.inl hxk
    · right
      obtain ⟨hkq, hsq, hgq⟩ := hinv q hq
      by_cases hqkey : StorageIterator.key q.2 = k
      · have he2 : e ∈ q.2.item :: q.2.rest := he
        rcases List.mem_cons.mp he2 with rfl | he3
        · exfalso
          rw [mtKey_eq] at hqkey
          rw [hex] at hqkey
          exact hxk hqkey
        · have hrest : q.2.rest ≠ [] := by
            intro hc
            rw [hc] at he3
            cases he3
          have hval : StorageIterator.isValid (MemTableIterator.next q.2) =
              true := (mtNext_valid_true_iff q.2 hkq).mpr hrest
          refine ⟨mtEntries (q.1, MemTableIterator.next q.2).2, ?_, e, ?_, hex⟩
          · exact List.mem_map.mpr ⟨(q.1, MemTableIterator.next q.2),
              List.mem_filterMap.mpr ⟨q, hq, advStep_hit_live k q hqkey hval⟩,
              rfl⟩
          · rw [show (q.1, MemTableIterator.next q.2).2 =
              MemTableIterator.next q.2 from rfl, mtEntries_next q.2 hrest]
            exact he3
      · refine ⟨mtEntries q.2, ?_, e, he, hex⟩
        exact List.mem_map.mpr ⟨q,
          List.mem_filterMap.mpr ⟨q, hq, advStep_miss k q hqkey⟩, rfl⟩
  · rintro (rfl | ⟨ys, hys, e, he, hex⟩)
    · have hwmem : w ∈ l := List.get?_mem hget
      refine ⟨mtEntries w.2, List.mem_map.mpr ⟨w, hwmem, rfl⟩,
        w.2.item, ?_, hkeyw⟩
      show w.2.item ∈ w.2.item :: w.2.rest
      exact List.mem_cons_self _ _
    · obtain ⟨q', hq', hysq⟩ := List.mem_map.mp hys
      subst hysq
      obtain ⟨q, hq, hstep⟩ := List.mem_filterMap.mp hq'
      by_cases hqkey : StorageIterator.key q.2 = k
      · by_cases hval : StorageIterator.isValid (MemTableIterator.next q.2) =
            true
        · rw [advStep_hit_live k q hqkey hval] at hstep
          injection hstep with hstep
          subst hstep
          have hrest : q.2.rest ≠ [] :=
            (mtNext_valid_true_iff q.2 (hinv q hq).1).mp hval
          rw [show (q.1, MemTableIterator.next q.2).2 =
            MemTableIterator.next q.2 from rfl,
            mtEntries_next q.2 hrest] at he
          refine ⟨mtEntries q.2, List.mem_map.mpr ⟨q, hq, rfl⟩, e, ?_, hex⟩
          show e ∈ q.2.item :: q.2.rest
          exact List.mem_cons_of_mem _ he
        · rw [advStep_hit_dead k q hqkey hval] at hstep
          cases hstep
      · rw [advStep_miss k q hqkey] at hstep
        injection hstep with hstep
        rw [← hstep] at he
        exact ⟨mtEntries q.2, List.mem_map.mpr ⟨q, hq, rfl⟩, e, he, hex⟩

theorem union_step_eq (k : List Nat) (l : List (Nat × MemTableIterator))
    (j : Nat) (w : Nat × MemTableIterator)
    (hinv : heapInv k l) (hget : l.get? j = some w)
    (hkeyw : w.2.item.1 = k) :
    sortedKeyUnion (heapLists l) =
      k :: sortedKeyUnion (heapLists (advanceHeap k l)) := by
  refine sorted_nodup_ext _ _ (sortedKeyUnion_sorted _) ?_ ?_
  · rw [List.pairwise_cons]
    refine ⟨?_, sortedKeyUnion_sorted _⟩
    intro b hb
    rw [mem_sortedKeyUnion] at hb
    obtain ⟨ys, hys, e, he, hex⟩ := hb
    obtain ⟨q', hq', hysq⟩ := List.mem_map.mp hys
    subst hysq
    have hgt := advance_keys_gt k l hinv q' hq' e he
    rw [hex] at hgt
    exact hgt
  · intro x
    rw [union_mem_step k l j w hinv hget hkeyw x]
    exact List.mem_cons.symm

theorem sortedUnionSpec_step (k : List Nat)
    (l : List (Nat × MemTableIterator))
    (j : Nat) (w : Nat × MemTableIterator)
    (hwf : heapWf l) (hinv : heapInv k l) (hget : l.get? j = some w)
    (hmin : ∀ q ∈ l, ¬ wrapperCmp q w = Ordering.gt)
    (hkeyw : w.2.item.1 = k) :
    sortedUnionSpec (heapLists l) =
      (k, w.2.item.2) :: sortedUnionSpec (heapLists (advanceHeap k l)) := by
  unfold sortedUnionSpec
  rw [union_step_eq k l j w hinv hget hkeyw, List.map_cons]
  congr 1
  · rw [firstValueFor_at k l j w hget hkeyw
      (no_k_before_max k l j w hwf.2 hinv hget hmin hkeyw)]
    rfl
  · refine List.map_congr_left ?_
    intro b hb
    have hbk : b ≠ k := by
      rw [mem_sortedKeyUnion] at hb
      obtain ⟨ys, hys, e, he, hex⟩ := hb
      obtain ⟨q', hq', hysq⟩ := List.mem_map.mp hys
      subst hysq
      have hgt := advance_keys_gt k l hinv q' hq' e he
      rw [hex] at hgt
      exact fun hc => bytesLtP_ne hgt hc.symm
    rw [firstValueFor_advance k b hbk l (fun q hq => (hinv q hq).1)]

theorem advance_fst_sublist (k : List Nat) :
    ∀ (l : List (Nat × MemTableIterator)),
    List.Sublist ((advanceHeap k l).map Prod.fst) (l.map Prod.fst) := by
  intro l
  induction l with
  | nil => exact List.Sublist.refl _
  | cons q t ih =>
    by_cases hqkey : StorageIterator.key q.2 = k
    · by_cases hval : StorageIterator.isValid (MemTableIterator.next q.2) = true
      · rw [advanceHeap_cons_some k q _ t (advStep_hit_live k q hqkey hval),
          List.map_cons, List.map_cons]
        exact List.Sublist.cons₂ _ ih
      · rw [advanceHeap_cons_none k q t (advStep_hit_dead k q hqkey hval),
          List.map_cons]
        exact List.Sublist.cons _ ih
    · rw [advanceHeap_cons_some k q q t (advStep_miss k q hqkey),
        List.map_cons, List.map_cons]
      exact List.Sublist.cons₂ _ ih

theorem heapWf_advance (k : List Nat) (l : List (Nat × MemTableIterator))
    (hwf : heapWf l) : heapWf (advanceHeap k l) := by
  constructor
  · intro q' hq'
    obtain ⟨q, hq, hstep⟩ := List.mem_filterMap.mp hq'
    obtain ⟨hkq, hsq⟩ := hwf.1 q hq
    by_cases hqkey : StorageIterator.key q.2 = k
    · by_cases hval : StorageIterator.isValid (MemTableIterator.next q.2) = true
      · rw [advStep_hit_live k q hqkey hval] at hstep
        injection hstep with hstep
        subst hstep
        have hrest : q.2.rest ≠ [] := (mtNext_valid_true_iff q.2 hkq).mp hval
        constructor
        · intro e he
          rw [show (q.1, MemTableIterator.next q.2).2 =
            MemTableIterator.next q.2 from rfl,
            mtEntries_next q.2 hrest] at he
          refine hkq e ?_
          show e ∈ q.2.item :: q.2.rest
          exact List.mem_cons_of_mem _ he
        · show strictAscending (mtEntries
            (q.1, MemTableIterator.next q.2).2)
          rw [show (q.1, MemTableIterator.next q.2).2 =
            MemTableIterator.next q.2 from rfl, mtEntries_next q.2 hrest]
          unfold strictAscending mtEntries at hsq
          exact (List.pairwise_cons.mp hsq).2
      · rw [advStep_hit_dead k q hqkey hval] at hstep
        cases hstep
    · rw [advStep_miss k q hqkey] at hstep
      injection hstep with hstep
      rw [← hstep]
      exact ⟨hkq, hsq⟩
  · exact hwf.2.sublist (advance_fst_sublist k l)

theorem totalEntries_cons (q : Nat × MemTableIterator)
    (t : List (Nat × MemTableIterator)) :
    totalEntries (q :: t) = (mtEntries q.2).length + totalEntries t := rfl

theorem mtEntries_length (it : MemTableIterator) :
    (mtEntries it).length = it.rest.length + 1 := rfl

theorem totalEntries_advance_le (k : List Nat) :
    ∀ (l : List (Nat × MemTableIterator)),
    totalEntries (advanceHeap k l) ≤ totalEntries l := by
  intro l
  induction l with
  | nil => exact Nat.le_refl _
  | cons q t ih =>
    rw [totalEntries_cons]
    by_cases hqkey : StorageIterator.key q.2 = k
    · by_cases hval : StorageIterator.isValid (MemTableIterator.next q.2) = true
      · rw [advanceHeap_cons_some k q _ t (advStep_hit_live k q hqkey hval),
          totalEntries_cons]
        have h1 : (mtEntries (q.1, MemTableIterator.next q.2).2).length ≤
            (mtEntries q.2).length := by
          rw [show (q.1, MemTableIterator.next q.2).2 =
            MemTableIterator.next q.2 from rfl]
          rw [mtEntries_length, mtEntries_length]
          show (MemTableIterator.next q.2).rest.length + 1 ≤
            q.2.rest.length + 1
          unfold MemTableIterator.next
          simp [List.length_tail]
        omega
      · rw [advanceHeap_cons_none k q t (advStep_hit_dead k q hqkey hval)]
        omega
    · rw [advanceHeap_cons_some k q q t (advStep_miss k q hqkey),
        totalEntries_cons]
      omega

theorem totalEntries_advance_lt (k : List Nat) :
    ∀ (l : List (Nat × MemTableIterator)),
    (∃ q ∈ l, StorageIterator.key q.2 = k) →
    totalEntries (advanceHeap k l) < totalEntries l := by
  intro l
  induction l with
  | nil =>
    rintro ⟨q, hq, _⟩
    cases hq
  | cons q0 t ih =>
    rintro ⟨q, hq, hqk⟩
    rw [totalEntries_cons]
    by_cases hqkey : StorageIterator.key q0.2 = k
    · by_cases hval : StorageIterator.isValid (MemTableIterator.next q0.2) =
          true
      · rw [advanceHeap_cons_some k q0 _ t (advStep_hit_live k q0 hqkey hval),
          totalEntries_cons]
        have h1 : (mtEntries (q0.1, MemTableIterator.next q0.2).2).length <
            (mtEntries q0.2).length := by
          rw [show (q0.1, MemTableIterator.next q0.2).2 =
            MemTableIterator.next q0.2 from rfl]
          rw [mtEntries_length, mtEntries_length]
          have hrest : q0.2.rest ≠ [] := mtNext_valid_rest_ne q0.2 hval
          show (MemTableIterator.next q0.2).rest.length + 1 <
            q0.2.rest.length + 1
          unfold MemTableIterator.next
          simp [List.length_tail]
          cases hr : q0.2.rest with
          | nil => exact absurd hr hrest
          | cons x xs => simp [hr]
        have h2 := totalEntries_advance_le k t
        omega
      · rw [advanceHeap_cons_none k q0 t (advStep_hit_dead k q0 hqkey hval)]
        have h2 := totalEntries_advance_le k t
        have h1 : 0 < (mtEntries q0.2).length := by
          rw [mtEntries_length]
          omega
        omega
    · rcases List.mem_cons.mp hq with rfl | hq2
      · exact absurd hqk hqkey
      · rw [advanceHeap_cons_some k q0 q0 t (advStep_miss k q0 hqkey),
          totalEntries_cons]
        have := ih ⟨q, hq2, hqk⟩
        omega

theorem heapFuel_gt_totalEntries :
    ∀ (l : List (Nat × MemTableIterator)),
    totalEntries l < heapFuel l := by
  intro l
  induction l with
  | nil =>
    show totalEntries [] < heapFuel []
    unfold totalEntries heapFuel
    simp
  | cons q t ih =>
    rw [totalEntries_cons]
    have hfc : heapFuel (q :: t) =
        (StorageIterator.bound q.2 + 1) + heapFuel t := by
      unfold heapFuel
      rw [List.map_cons, List.sum_cons]
      omega
    rw [hfc]
    have hb : StorageIterator.bound q.2 = q.2.rest.length + 1 := rfl
    rw [mtEntries_length]
    omega

theorem heapInv_of_min (l : List (Nat × MemTableIterator))
    (w : Nat × MemTableIterator) (hwf : heapWf l)
    (hmin : ∀ q ∈ l, ¬ wrapperCmp q w = Ordering.gt) :
    heapInv (StorageIterator.key w.2) l := by
  intro q hq
  obtain ⟨hkq, hsq⟩ := hwf.1 q hq
  refine ⟨hkq, hsq, ?_⟩
  have hnot := hmin q hq
  rw [wrapperCmp_gt_iff] at hnot
  show bytesLeP (StorageIterator.key w.2) q.2.item.1
  rw [show q.2.item.1 = StorageIterator.key q.2 from rfl]
  rw [bytesLe_iff_not_lt]
  intro hlt
  exact hnot (Or.inl hlt)

theorem totalEntries_zero (l : List (Nat × MemTableIterator))
    (h : totalEntries l = 0) : l = [] := by
  cases l with
  | nil => rfl
  | cons q t =>
    exfalso
    rw [totalEntries_cons, mtEntries_length] at h
    omega

theorem mergeCollect_heap : ∀ (n fuel : Nat)
    (l : List (Nat × MemTableIterator)),
    heapWf l → totalEntries l ≤ n → totalEntries l < fuel →
    mergeCollect fuel { iters := l } =
      Except.ok (sortedUnionSpec (heapLists l)) := by
  intro n
  induction n with
  | zero =>
    intro fuel l hwf hle hfuel
    have hnil : l = [] := totalEntries_zero l (by omega)
    subst hnil
    cases fuel with
    | zero => omega
    | succ f => rfl
  | succ n ih =>
    intro fuel l hwf hle hfuel
    by_cases hnil : l = []
    · subst hnil
      cases fuel with
      | zero => omega
      | succ f => rfl
    · obtain ⟨j, w, hmax, hget, hmin⟩ := heapMax_spec l hnil
      have hinv : heapInv (StorageIterator.key w.2) l :=
        heapInv_of_min l w hwf hmin
      cases fuel with
      | zero => omega
      | succ f =>
      have hvalid : MergeIterator.isValid
          ({ iters := l } : MergeIterator MemTableIterator) = true := by
        show decide (¬ (l.isEmpty = true)) = true
        rw [decide_eq_true_iff]
        intro hc
        rw [List.isEmpty_iff] at hc
        exact hnil hc
      have hpeek : MergeIterator.peek
          ({ iters := l } : MergeIterator MemTableIterator) = some w := by
        show (heapMaxIdx l).bind (fun i => l.get? i) = some w
        rw [hmax]
        show l.get? j = some w
        exact hget
      have hnext : MergeIterator.next
          ({ iters := l } : MergeIterator MemTableIterator) =
          Except.ok ({ iters := advanceHeap (StorageIterator.key w.2) l } :
            MergeIterator MemTableIterator) := by
        unfold MergeIterator.next
        rw [hpeek]
        show (mergeNextLoop (heapFuel l) (StorageIterator.key w.2) l).map
          (fun ls => ({ iters := ls } : MergeIterator MemTableIterator)) = _
        rw [mergeNextLoop_spec (heapFuel l) (StorageIterator.key w.2) l hinv
          (heapFuel_gt_totalEntries l)]
        rfl
      have hkey' : MergeIterator.key
          ({ iters := l } : MergeIterator MemTableIterator) =
          StorageIterator.key w.2 := by
        unfold MergeIterator.key
        rw [hpeek]
        rfl
      have hval' : MergeIterator.value
          ({ iters := l } : MergeIterator MemTableIterator) =
          w.2.item.2 := by
        unfold MergeIterator.value
        rw [hpeek]
        rfl
      have hdec : totalEntries (advanceHeap (StorageIterator.key w.2) l) <
          totalEntries l :=
        totalEntries_advance_lt (StorageIterator.key w.2) l
          ⟨w, List.get?_mem hget, rfl⟩
      simp only [mergeCollect]
      rw [if_pos hvalid, hnext]
      show (mergeCollect f
          { iters := advanceHeap (StorageIterator.key w.2) l }).map
        (fun ls => (MergeIterator.key
            ({ iters := l } : MergeIterator MemTableIterator),
          MergeIterator.value
            ({ iters := l } : MergeIterator MemTableIterator)) :: ls) =
        Except.ok (sortedUnionSpec (heapLists l))
      rw [ih f _ (heapWf_advance (StorageIterator.key w.2) l hwf)
        (by omega) (by omega)]
      rw [except_map_ok, hkey', hval']
      rw [sortedUnionSpec_step (StorageIterator.key w.2) l j w hwf hinv hget
        hmin rfl]

theorem mtEntries_listCursor (xs : List (List Nat × List Nat))
    (h : xs ≠ []) : mtEntries (listCursor xs) = xs := by
  unfold mtEntries listCursor
  cases xs with
  | nil => exact absurd rfl h
  | cons e t => rfl

theorem listCursor_valid (xs : List (List Nat × List Nat)) (hne : xs ≠ [])
    (hkey : ∀ e ∈ xs, e.1 ≠ []) :
    StorageIterator.isValid (listCursor xs) = true := by
  show decide (¬ (listCursor xs).item.1 = []) = true
  rw [decide_eq_true_iff]
  cases xs with
  | nil => exact absurd rfl hne
  | cons e t =>
    show ¬ ((e :: t).headD ([], [])).1 = []
    exact hkey e (List.mem_cons_self e t)

theorem heapLists_enum_cursors (xss : List (List (List Nat × List Nat)))
    (hne : ∀ xs ∈ xss, xs ≠ []) :
    heapLists ((xss.map listCursor).enum) = xss := by
  unfold heapLists
  have h1 : ((xss.map listCursor).enum).map
      (fun w => mtEntries w.2) =
      (((xss.map listCursor).enum).map Prod.snd).map mtEntries := by
    rw [List.map_map]
    rfl
  rw [h1, List.enum_map_snd, List.map_map]
  have h2 : ∀ xs ∈ xss, (mtEntries ∘ listCursor) xs = id xs := by
    intro xs hxs
    show mtEntries (listCursor xs) = xs
    exact mtEntries_listCursor xs (hne xs hxs)
  rw [List.map_congr_left h2, List.map_id]

theorem snd_mem_of_mem_enum {α : Type} (l : List α) (w : Nat × α)
    (hw : w ∈ l.enum) : w.2 ∈ l := by
  have h1 : w.2 ∈ l.enum.map Prod.snd := List.mem_map.mpr ⟨w, hw, rfl⟩
  rw [List.enum_map_snd] at h1
  exact h1

theorem heapWf_enum_cursors (xss : List (List (List Nat × List Nat)))
    (hne : ∀ xs ∈ xss, xs ≠ [])
    (hsorted : ∀ xs ∈ xss, strictAscending xs)
    (hkeys : ∀ xs ∈ xss, ∀ e ∈ xs, e.1 ≠ []) :
    heapWf ((xss.map listCursor).enum) := by
  constructor
  · intro w hw
    have hsnd : w.2 ∈ xss.map listCursor := snd_mem_of_mem_enum _ w hw
    obtain ⟨xs, hxs, hcur⟩ := List.mem_map.mp hsnd
    rw [← hcur]
    rw [mtEntries_listCursor xs (hne xs hxs)]
    exact ⟨hkeys xs hxs, hsorted xs hxs⟩
  · rw [List.enum_map_fst]
    exact List.pairwise_lt_range _

theorem totalEntries_enum_cursors (xss : List (List (List Nat × List Nat)))
    (hne : ∀ xs ∈ xss, xs ≠ []) :
    totalEntries ((xss.map listCursor).enum) =
      (xss.map List.length).sum := by
  unfold totalEntries
  have h1 : ((xss.map listCursor).enum).map
      (fun w => (mtEntries w.2).length) =
      (((xss.map listCursor).enum).map Prod.snd).map
        (fun it => (mtEntries it).length) := by
    rw [List.map_map]
    rfl
  rw [h1, List.enum_map_snd, List.map_map]
  congr 1
  refine List.map_congr_left ?_
  intro xs hxs
  show (mtEntries (listCursor xs)).length = xs.length
  rw [mtEntries_listCursor xs (hne xs hxs)]

/-- C4: `MergeIterator::create` over valid cursors (realised as list cursors
over non-empty entry lists with non-empty keys), each enumerating a strictly
ascending key sequence, enumerates the sorted union of all input keys in
ascending order, the value of each key coming from the input with the lowest
0-based construction index (ties in the heap are broken by that index, and
`next` advances every input holding the current key). -/
theorem c4_merge_sorted_union (xss : List (List (List Nat × List Nat)))
    (hne : ∀ xs ∈ xss, xs ≠ [])
    (hsorted : ∀ xs ∈ xss, strictAscending xs)
    (hkeys : ∀ xs ∈ xss, ∀ e ∈ xs, e.1 ≠ [])
    (fuel : Nat) (hfuel : (xss.map List.length).sum < fuel) :
    mergeCollect fuel (MergeIterator.create (xss.map listCursor)) =
      Except.ok (sortedUnionSpec xss) := by
  have hvalidall : ∀ it ∈ xss.map listCursor,
      StorageIterator.isValid it = true := by
    intro it hit
    obtain ⟨xs, hxs, hcur⟩ := List.mem_map.mp hit
    rw [← hcur]
    exact listCursor_valid xs (hne xs hxs) (hkeys xs hxs)
  have hcreate : MergeIterator.create (xss.map listCursor) =
      { iters := (xss.map listCursor).enum } := by
    unfold MergeIterator.create
    rw [List.filter_eq_self.mpr hvalidall]
  rw [hcreate]
  rw [mergeCollect_heap ((xss.map List.length).sum) fuel _
    (heapWf_enum_cursors xss hne hsorted hkeys)
    (by rw [totalEntries_enum_cursors xss hne])
    (by rw [totalEntries_enum_cursors xss hne]; exact hfuel)]
  rw [heapLists_enum_cursors xss hne]

/-- Witness for C4: inputs A = `[a->1, b->1]` and B = `[a->2, c->2]` merge to
`[a->1, b->1, c->2]` — `a` is taken from the lower-indexed input A. -/
theorem c4_witness :
    mergeCollect 5 (MergeIterator.create
      ([[([97], [49]), ([98], [49])], [([97], [50]), ([99], [50])]].map
        listCursor)) =
      Except.ok (sortedUnionSpec
        [[([97], [49]), ([98], [49])], [([97], [50]), ([99], [50])]]) ∧
    sortedUnionSpec
        [[([97], [49]), ([98], [49])], [([97], [50]), ([99], [50])]] =
      [([97], [49]), ([98], [49]), ([99], [50])] :=
  ⟨c4_merge_sorted_union
    [[([97], [49]), ([98], [49])], [([97], [50]), ([99], [50])]]
    (by decide) (by decide) (by decide) 5 (by decide), by decide⟩
